import Mathlib

/-!
# Sorting algorithms of `src/cpp`: a shallow embedding and its correctness proofs

A `std::vector<int>` is modelled by a `List Int`.  Index variables of type `int`
are modelled by `Nat`, which is exact as long as the vector has fewer than `2^31`
elements; where the source computes an index expression that can leave the range
of `int` already for a shorter vector (`2 * i + 2` in `heapify`, `1 << k` in
`shellSortHibbard`, `2 * size` in `mergeSortIterative`) and where `radixSort`
multiplies `exp` by ten, the model checks the range and ends in the fault
`overflow`.  Where the source lets an index dip to `-1` as a sentinel the model
keeps the index shifted by one and says so, and the access-checked models of
namespace `Checked` use integers.  Arithmetic on *element values* of the counting
and bucket sorts that can leave the range of a 32-bit `int` is modelled with
`wrap32`.
-/

namespace Sorting

/-! ## Shared definitions -/

/-- Read of `arr[i]`.  The sorts below only read inside the vector (a position
past the end reads as `0` in the model). -/
def get (arr : List Int) (i : Nat) : Int := arr.getD i 0

/-- The effect of `std::swap(arr[i], arr[j])`. -/
def swap (arr : List Int) (i j : Nat) : List Int :=
  (arr.set i (get arr j)).set j (get arr i)

/-- Adjacent positions are in order: `arr[i] <= arr[i+1]` wherever both exist. -/
def NonDescending (arr : List Int) : Prop :=
  ∀ i, i + 1 < arr.length → get arr i ≤ get arr (i + 1)

/-- Two's-complement reduction of an integer to the range of a 32-bit `int`. -/
def wrap32 (x : Int) : Int := (x + 2147483648) % 4294967296 - 2147483648

/-- The values a 32-bit `int` can hold. -/
def InIntRange (x : Int) : Prop := -2147483648 ≤ x ∧ x ≤ 2147483647

instance (x : Int) : Decidable (InIntRange x) := by
  unfold InIntRange; infer_instance

/-- Ways a run of one of the sorts can fail to return normally. -/
inductive Fault where
  /-- an element of a table is accessed outside the table (undefined behaviour) -/
  | outOfBounds
  /-- a `std::vector` is constructed with a negative length (`std::length_error`) -/
  | badLength
  /-- integer division by zero (undefined behaviour) -/
  | divByZero
  /-- an `int` expression of the loop control or index arithmetic has a value
  outside the range of `int` (signed overflow, undefined behaviour) -/
  | overflow
  /-- the loop did not finish within the iterations the model was given -/
  | outOfFuel
  deriving DecidableEq

/-! ## merge_sort.cpp -/

/-- The three `while` loops of `merge` (lines 60-89): `l` and `r` are what is
left of `leftArr` from `i` on and of `rightArr` from `j` on, `k` is the write
position in `arr`. -/
def mergeLoop : List Int → List Int → List Int → Nat → List Int
  | arr, [], [], _ => arr
  | arr, x :: xs, [], k => mergeLoop (arr.set k x) xs [] (k + 1)
  | arr, [], y :: ys, k => mergeLoop (arr.set k y) [] ys (k + 1)
  | arr, x :: xs, y :: ys, k =>
    if x ≤ y then mergeLoop (arr.set k x) xs (y :: ys) (k + 1)
    else mergeLoop (arr.set k y) (x :: xs) ys (k + 1)
termination_by _ l r _ => l.length + r.length

/-- Function `merge(arr, left, mid, right)` (lines 42-90). -/
def merge (arr : List Int) (left mid right : Nat) : List Int :=
  let n1 := mid - left + 1
  let n2 := right - mid
  let leftArr := (List.range n1).map fun i => get arr (left + i)
  let rightArr := (List.range n2).map fun j => get arr (mid + 1 + j)
  mergeLoop arr leftArr rightArr left

/-- Function `mergeSortRecursive(arr, left, right)` (lines 98-115). -/
def mergeSortRecursive (arr : List Int) (left right : Nat) : List Int :=
  if left ≥ right then arr
  else
    let mid := left + (right - left) / 2
    let arr1 := mergeSortRecursive arr left mid
    let arr2 := mergeSortRecursive arr1 (mid + 1) right
    merge arr2 left mid right
termination_by right - left
decreasing_by all_goals (simp_wf; omega)

/-- Function `mergeSort(arr)` (lines 121-125). -/
def mergeSort (arr : List Int) : List Int :=
  if arr.isEmpty then arr else mergeSortRecursive arr 0 (arr.length - 1)

/-- The list two sorted runs merge into, taking from the left run on ties. -/
def mergeLists : List Int → List Int → List Int
  | [], [] => []
  | x :: xs, [] => x :: mergeLists xs []
  | [], y :: ys => y :: mergeLists [] ys
  | x :: xs, y :: ys =>
    if x ≤ y then x :: mergeLists xs (y :: ys) else y :: mergeLists (x :: xs) ys
termination_by l r => l.length + r.length

/-! ## quick_sort.cpp -/

/-- The `for` loop of `partitionLomuto` (lines 19-24).  `cnt` is the number of
iterations left (`high - j`), and `s` is the source's `i + 1`: `i` starts at
`low - 1`, which may be `-1`, and is only ever used after `i++`. -/
def lomutoLoop (pivot : Int) : Nat → List Int → Nat → Nat → List Int × Nat
  | 0, arr, s, _ => (arr, s)
  | cnt + 1, arr, s, j =>
    if get arr j < pivot then lomutoLoop pivot cnt (swap arr s j) (s + 1) (j + 1)
    else lomutoLoop pivot cnt arr s (j + 1)

/-- Function `partitionLomuto(arr, low, high)` (lines 15-27): the vector afterwards and
the returned index. -/
def partitionLomuto (arr : List Int) (low high : Nat) : List Int × Nat :=
  let pivot := get arr high
  let r := lomutoLoop pivot (high - low) arr low low
  (swap r.1 r.2 high, r.2)

/-- Function `quickSortLomuto(arr, low, high)` (lines 47-53).  The first argument bounds
the depth of the recursion; `none` means the bound was reached.  The source's
`pi - 1` is `-1` when `pi = 0`; the model's `0` gives the same empty range. -/
def quickSortLomuto : Nat → List Int → Nat → Nat → Option (List Int)
  | 0, _, _, _ => none
  | fuel + 1, arr, low, high =>
    if low < high then
      let p := partitionLomuto arr low high
      match quickSortLomuto fuel p.1 low (p.2 - 1) with
      | none => none
      | some arr2 => quickSortLomuto fuel arr2 (p.2 + 1) high
    else some arr

/-- Function `quickSort(arr)` (lines 63-67), run with recursion depth at most `fuel`. -/
def quickSort (fuel : Nat) (arr : List Int) : Option (List Int) :=
  if arr.length ≤ 1 then some arr else quickSortLomuto fuel arr 0 (arr.length - 1)

/-! ## heap_sort.cpp -/

/-- Lines 22-34 of `heapify`: the index among `i`, `2i+1`, `2i+2` (children
inside the heap only) that `largest` ends up as.  Lines 23-24 compute
`left = 2 * i + 1` and `right = 2 * i + 2` in `int` before any comparison: when
`2 * i + 2` exceeds `INT_MAX` the call has undefined behaviour, the fault
`overflow`. -/
def heapifyLargest (arr : List Int) (n i : Nat) : Except Fault Nat :=
  if 2147483647 < 2 * i + 2 then .error .overflow
  else
    let left := 2 * i + 1
    let right := 2 * i + 2
    let largest := if left < n ∧ get arr left > get arr i then left else i
    .ok (if right < n ∧ get arr right > get arr largest then right else largest)

/-- Function `heapify(arr, n, i)` (lines 21-41). -/
def heapify (arr : List Int) (n i : Nat) : Except Fault (List Int) :=
  match _h : heapifyLargest arr n i with
  | .error e => .error e
  | .ok largest =>
    if largest ≠ i then heapify (swap arr i largest) n largest else .ok arr
termination_by n - i
decreasing_by
  simp_wf
  unfold heapifyLargest at _h
  simp only at _h
  split_ifs at _h <;> simp only [Except.ok.injEq, reduceCtorEq] at _h <;> omega

/-- First loop of `heapSort` (lines 50-52): `k` is the source's `i + 1`, so the
loop body runs for `i = k - 1, …, 0`; the loop starts with `i = n / 2 - 1`. -/
def buildHeapLoop (n : Nat) : Nat → List Int → Except Fault (List Int)
  | 0, arr => .ok arr
  | k + 1, arr =>
    match heapify arr n k with
    | .error e => .error e
    | .ok arr2 => buildHeapLoop n k arr2

/-- Second loop of `heapSort` (lines 55-58): the body runs for the given `i`
down to `1`. -/
def extractLoop : Nat → List Int → Except Fault (List Int)
  | 0, arr => .ok arr
  | i + 1, arr =>
    match heapify (swap arr 0 (i + 1)) (i + 1) 0 with
    | .error e => .error e
    | .ok arr2 => extractLoop i arr2

/-- Function `heapSort(arr)` (lines 46-59). -/
def heapSort (arr : List Int) : Except Fault (List Int) :=
  let n := arr.length
  match buildHeapLoop n (n / 2) arr with
  | .error e => .error e
  | .ok heap => extractLoop (n - 1) heap

/-- Max-heap invariant on the nodes `lo ≤ j < n` of the heap view: no child
inside the heap is larger than its parent. -/
def HeapFrom (arr : List Int) (n lo : Nat) : Prop :=
  ∀ j, lo ≤ j → j < n →
    (2 * j + 1 < n → get arr (2 * j + 1) ≤ get arr j) ∧
    (2 * j + 2 < n → get arr (2 * j + 2) ≤ get arr j)

/-! ## Helpers shared by the distribution sorts

`countingSortByDigit` (radix_sort.cpp) and `countingSortStable`
(counting_sort.cpp) consist of the same three loops and differ only in the
expression that turns an element into a table index; `countingSort` shares the
first of them.  The loops are modelled once, with that expression as `key`. -/

/-- Value of `*std::max_element(arr.begin(), arr.end())` on a non-empty vector. -/
def maxElement : List Int → Int
  | [] => 0
  | x :: xs => xs.foldl max x

/-- Value of `*std::min_element(arr.begin(), arr.end())` on a non-empty vector. -/
def minElement : List Int → Int
  | [] => 0
  | x :: xs => xs.foldl min x

/-- Integer division `a / b` of two `int`s: truncation toward zero; division by
zero and `INT_MIN / -1` are undefined behaviour. -/
def intDiv (a b : Int) : Except Fault Int :=
  if b = 0 ∨ (a = -2147483648 ∧ b = -1) then .error .divByZero else .ok (Int.tdiv a b)

/-- Checked read of `table[idx]`. -/
def tableGet (table : List Int) (idx : Int) : Except Fault Int :=
  if 0 ≤ idx ∧ idx < table.length then .ok (get table idx.toNat) else .error .outOfBounds

/-- Checked write `table[idx] = v`. -/
def tableSet (table : List Int) (idx : Int) (v : Int) : Except Fault (List Int) :=
  if 0 ≤ idx ∧ idx < table.length then .ok (table.set idx.toNat v) else .error .outOfBounds

/-- The counting loop `for (int num : arr) count[key(num)]++`. -/
def countKeys (key : Int → Except Fault Int) : List Int → List Int → Except Fault (List Int)
  | [], count => .ok count
  | num :: rest, count =>
    match key num with
    | .error e => .error e
    | .ok k =>
      match tableGet count k with
      | .error e => .error e
      | .ok c =>
        match tableSet count k (c + 1) with
        | .error e => .error e
        | .ok count2 => countKeys key rest count2

/-- The loop `for (int i = 1; i < size; i++) count[i] += count[i - 1]`, with
`cnt` iterations left; every index it uses lies inside the table. -/
def prefixSums : Nat → Nat → List Int → List Int
  | 0, _, count => count
  | cnt + 1, i, count => prefixSums cnt (i + 1) (count.set i (get count i + get count (i - 1)))

/-- The placement loop `for (int i = n - 1; i >= 0; i--)`: its first argument
lists `arr[i], arr[i-1], …, arr[0]`, the elements still to be placed. -/
def placeByKey (key : Int → Except Fault Int) :
    List Int → List Int → List Int → Except Fault (List Int)
  | [], _, output => .ok output
  | x :: rest, count, output =>
    match key x with
    | .error e => .error e
    | .ok k =>
      match tableGet count k with
      | .error e => .error e
      | .ok c =>
        match tableSet output (c - 1) x with
        | .error e => .error e
        | .ok output2 =>
          match tableSet count k (c - 1) with
          | .error e => .error e
          | .ok count2 => placeByKey key rest count2 output2

/-! ## radix_sort.cpp -/

/-- Function `getMax(arr)` (lines 19-21). -/
def getMax (arr : List Int) : Int := maxElement arr

/-- The index `(num / exp) % 10` computed in `countingSortByDigit` (lines 35, 46);
`%` truncates toward zero like `/`. -/
def digitOf (exp : Int) (num : Int) : Except Fault Int :=
  match intDiv num exp with
  | .error e => .error e
  | .ok q => .ok (Int.tmod q 10)

/-- Function `countingSortByDigit(arr, exp)` (lines 28-52); the result is the new `arr`. -/
def countingSortByDigit (arr : List Int) (exp : Int) : Except Fault (List Int) :=
  let n := arr.length
  let output := List.replicate n (0 : Int)
  let count := List.replicate 10 (0 : Int)
  match countKeys (digitOf exp) arr count with
  | .error e => .error e
  | .ok count1 => placeByKey (digitOf exp) arr.reverse (prefixSums 9 1 count1) output

/-- The loop of `radixSort` (lines 64-66).  The step `exp *= 10` is `int`
arithmetic: when `exp * 10` exceeds `INT_MAX` it has undefined behaviour, the
fault `overflow`.  The first argument bounds the number of times the loop
condition is evaluated. -/
def radixLoop (maxVal : Int) : Nat → Int → List Int → Except Fault (List Int)
  | 0, _, _ => .error .outOfFuel
  | fuel + 1, exp, arr =>
    match intDiv maxVal exp with
    | .error e => .error e
    | .ok q =>
      if q > 0 then
        match countingSortByDigit arr exp with
        | .error e => .error e
        | .ok arr2 =>
          if 2147483647 < exp * 10 then .error .overflow
          else radixLoop maxVal fuel (exp * 10) arr2
      else .ok arr

/-- Function `radixSort(arr)` (lines 57-67). -/
def radixSort (fuel : Nat) (arr : List Int) : Except Fault (List Int) :=
  if arr.isEmpty then .ok arr else radixLoop (getMax arr) fuel 1 arr

/-! ## counting_sort.cpp -/

/-- The inner `while (count[i] > 0)` loop of `countingSort` (lines 37-40) for a
count of `c`: it writes `i` to `arr[index]`, `arr[index+1]`, …  (The loop also
counts `count[i]` down to `0`; that entry is never read again.) -/
def emitValue (i : Int) : Nat → List Int → Nat → List Int × Nat
  | 0, arr, index => (arr, index)
  | c + 1, arr, index => emitValue i c (arr.set index i) (index + 1)

/-- The rebuilding loop `for (int i = 0; i <= maxVal; i++)` of `countingSort`
(lines 35-41), with `m` iterations left. -/
def rebuildLoop : Nat → Nat → List Int → List Int → Nat → List Int
  | 0, _, _, arr, _ => arr
  | m + 1, i, count, arr, index =>
    let r := emitValue i (get count i).toNat arr index
    rebuildLoop m (i + 1) count r.1 r.2

/-- Function `countingSort(arr)` (lines 19-42).  `maxVal + 1` is 32-bit arithmetic, and a
vector cannot be built with a negative length. -/
def countingSort (arr : List Int) : Except Fault (List Int) :=
  if arr.isEmpty then .ok arr
  else
    let maxVal := maxElement arr
    let size := wrap32 (maxVal + 1)
    if size < 0 then .error .badLength
    else
      match countKeys (fun num => .ok num) arr (List.replicate size.toNat 0) with
      | .error e => .error e
      | .ok count => .ok (rebuildLoop (maxVal + 1).toNat 0 count arr 0)

/-- Function `countingSortStable(arr)` (lines 47-78); the result is the new `arr`.
`maxVal - minVal + 1` and `num - minVal` are 32-bit arithmetic. -/
def countingSortStable (arr : List Int) : Except Fault (List Int) :=
  if arr.isEmpty then .ok arr
  else
    let n := arr.length
    let minVal := minElement arr
    let maxVal := maxElement arr
    let range := wrap32 (wrap32 (maxVal - minVal) + 1)
    if range < 0 then .error .badLength
    else
      let output := List.replicate n (0 : Int)
      match countKeys (fun num => .ok (wrap32 (num - minVal))) arr
          (List.replicate range.toNat 0) with
      | .error e => .error e
      | .ok count1 =>
        placeByKey (fun num => .ok (wrap32 (num - minVal))) arr.reverse
          (prefixSums (range.toNat - 1) 1 count1) output

/-! ## bucket_sort.cpp -/

/-- Effect of `std::sort(bucket.begin(), bucket.end())` of the C++ standard library: the
bucket rearranged into non-descending order. -/
def stdSort (bucket : List Int) : List Int := bucket.insertionSort (· ≤ ·)

/-- The distribution loop of `bucketSort` (lines 65-68). -/
def distribute (minVal bucketSize : Int) :
    List Int → List (List Int) → Except Fault (List (List Int))
  | [], buckets => .ok buckets
  | num :: rest, buckets =>
    match intDiv (wrap32 (num - minVal)) bucketSize with
    | .error e => .error e
    | .ok bucketIndex =>
      if 0 ≤ bucketIndex ∧ bucketIndex < buckets.length then
        distribute minVal bucketSize rest
          (buckets.set bucketIndex.toNat (buckets.getD bucketIndex.toNat [] ++ [num]))
      else .error .outOfBounds

/-- The loop `for (int num : bucket) arr[index++] = num` (lines 74-76). -/
def writeBucket : List Int → List Int → Nat → List Int × Nat
  | [], arr, index => (arr, index)
  | num :: rest, arr, index => writeBucket rest (arr.set index num) (index + 1)

/-- The loop over the buckets (lines 72-77): sort each and copy it back. -/
def collectBuckets : List (List Int) → List Int → Nat → List Int
  | [], arr, _ => arr
  | bucket :: rest, arr, index =>
    let r := writeBucket (stdSort bucket) arr index
    collectBuckets rest r.1 r.2

/-- Lines 54-68 of `bucketSort` for a non-empty vector: `n`, `minVal`, `maxVal`,
`bucketCount`, `bucketSize`, the `n` empty buckets and the distribution loop; the
result is the vector of filled buckets. -/
def fillBuckets (arr : List Int) : Except Fault (List (List Int)) :=
  let n : Int := arr.length
  let minVal := minElement arr
  let maxVal := maxElement arr
  let bucketCount := n
  match intDiv (wrap32 (maxVal - minVal)) bucketCount with
  | .error e => .error e
  | .ok q =>
    let bucketSize := wrap32 (q + 1)
    distribute minVal bucketSize arr (List.replicate arr.length [])

/-- Function `bucketSort(arr)` (lines 50-78), the integer version. -/
def bucketSort (arr : List Int) : Except Fault (List Int) :=
  if arr.isEmpty then .ok arr
  else
    match fillBuckets arr with
    | .error e => .error e
    | .ok buckets => .ok (collectBuckets buckets arr 0)

/-! ## insertion_sort.cpp -/

/-- The `while` loop of `insertionSort` (lines 51-54).  `k` is the source's
`j + 1` (`j` ends at `-1` when the key goes to the front): the result is the
vector after the shifts and the slot `j + 1` the key is written to. -/
def insertShift (key : Int) : Nat → List Int → List Int × Nat
  | 0, arr => (arr, 0)
  | k + 1, arr =>
    if get arr k > key then insertShift key k (arr.set (k + 1) (get arr k))
    else (arr, k + 1)

/-- One iteration of the outer loop of `insertionSort` (lines 44-58) for index `i`. -/
def insertStep (arr : List Int) (i : Nat) : List Int :=
  let key := get arr i
  let r := insertShift key i arr
  r.1.set r.2 key

/-- The vector after the outer iterations for `i = 1, …, m` of `insertionSort`. -/
def insertionSortUpTo (arr : List Int) : Nat → List Int
  | 0 => arr
  | m + 1 => insertStep (insertionSortUpTo arr m) (m + 1)

/-- Function `insertionSort(arr)` (lines 38-60): the outer loop runs for `i = 1, …, n - 1`. -/
def insertionSort (arr : List Int) : List Int :=
  insertionSortUpTo arr (arr.length - 1)

/-! ## bubble_sort.cpp -/

/-- The inner loop of `bubbleSort` (lines 44-50): `cnt` iterations are left, the
next one compares `arr[j]` with `arr[j + 1]`; the result is the vector and the
`swapped` flag. -/
def bubblePass : Nat → Nat → List Int → Bool → List Int × Bool
  | 0, _, arr, swapped => (arr, swapped)
  | cnt + 1, j, arr, swapped =>
    if get arr j > get arr (j + 1) then bubblePass cnt (j + 1) (swap arr j (j + 1)) true
    else bubblePass cnt (j + 1) arr swapped

/-- The outer loop of `bubbleSort` (lines 38-56).  The argument is `n - 1 - i`,
which is both the number of outer iterations still allowed and the bound of the
inner loop; a pass without a swap ends the loop (`break`). -/
def bubbleOuter : Nat → List Int → List Int
  | 0, arr => arr
  | rem + 1, arr =>
    let r := bubblePass (rem + 1) 0 arr false
    if r.2 then bubbleOuter rem r.1 else r.1

/-- Function `bubbleSort(arr)` (lines 33-57). -/
def bubbleSort (arr : List Int) : List Int :=
  bubbleOuter (arr.length - 1) arr

/-! ## selection_sort.cpp -/

/-- The inner loop of `selectionSort` (lines 44-49): `cnt` iterations are left,
the next one looks at `arr[j]`; the result is the final `minIndex`. -/
def selectMin : Nat → Nat → List Int → Nat → Nat
  | 0, _, _, minIndex => minIndex
  | cnt + 1, j, arr, minIndex =>
    if get arr j < get arr minIndex then selectMin cnt (j + 1) arr j
    else selectMin cnt (j + 1) arr minIndex

/-- One iteration of the outer loop of `selectionSort` (lines 41-55) for position `i`. -/
def selectStep (arr : List Int) (i : Nat) : List Int :=
  let n := arr.length
  let minIndex := selectMin (n - (i + 1)) (i + 1) arr i
  if minIndex ≠ i then swap arr i minIndex else arr

/-- The vector after the outer iterations for `i = 0, …, m - 1` of `selectionSort`. -/
def selectionSortUpTo (arr : List Int) : Nat → List Int
  | 0 => arr
  | m + 1 => selectStep (selectionSortUpTo arr m) m

/-- Function `selectionSort(arr)` (lines 34-57): the outer loop runs for `i = 0, …, n - 2`. -/
def selectionSort (arr : List Int) : List Int :=
  selectionSortUpTo arr (arr.length - 1)

/-! ## Specification-side notions for the distribution sorts -/

/-- The elements of `arr` grouped by key `0, 1, …, K - 1`, each group in input
order: what a stable sort by key produces. -/
def groupByKey (kN : Int → Nat) (K : Nat) (arr : List Int) : List Int :=
  (List.range K).flatMap fun d => arr.filter fun x => decide (kN x = d)

/-- Number of elements of `arr` with key below `d`. -/
def cumCount (kN : Int → Nat) (arr : List Int) (d : Nat) : Nat :=
  arr.countP fun x => decide (kN x < d)

/-- Number of elements of `arr` with key `d`. -/
def keyCount (kN : Int → Nat) (arr : List Int) (d : Nat) : Nat :=
  arr.countP fun x => decide (kN x = d)

/-- The bucket a value goes to in `bucketSort` when nothing overflows:
`(value - minVal) / bucketSize`, a natural number for `value ≥ minVal`. -/
def bucketKey (minVal bucketSize : Int) (x : Int) : Nat :=
  ((x - minVal) / bucketSize).toNat

/-- The bucket index `(value - minVal) / ((maxVal - minVal) / n + 1)` of a value
of the vector `arr` of length `n`, in exact integer arithmetic (for a value of the
vector both dividends are non-negative and both divisors positive, where the
truncating division of C++ and this division agree). -/
def bucketIndex (arr : List Int) (x : Int) : Int :=
  (x - minElement arr) / ((maxElement arr - minElement arr) / arr.length + 1)

/-- The digit `(x / exp) % 10` of a non-negative `x` as a natural number. -/
def digitKey (exp : Int) (x : Int) : Nat := ((x / exp) % 10).toNat

/-! ## shell_sort.cpp

The three functions share the gapped insertion loops; they differ in the gaps
they use.  Every gap the source passes to these loops is positive, which is
what makes the inner `while` loop terminate, so the model carries that fact. -/

/-- The `while` loop of the shell sorts (lines 54-57, 87-90, 123-126): the
result is the vector after the shifts and the final `j`. -/
def gapShift (gap : Nat) (hgap : 0 < gap) (temp : Int) (j : Nat) (arr : List Int) :
    List Int × Nat :=
  if _h : j ≥ gap ∧ get arr (j - gap) > temp then
    gapShift gap hgap temp (j - gap) (arr.set j (get arr (j - gap)))
  else (arr, j)
termination_by j
decreasing_by omega

/-- The body of the `for` loop over `i` (lines 46-61): insert `arr[i]` into its
gap-indexed subsequence. -/
def gapInsert (gap : Nat) (hgap : 0 < gap) (arr : List Int) (i : Nat) : List Int :=
  let temp := get arr i
  let r := gapShift gap hgap temp i arr
  r.1.set r.2 temp

/-- The loop `for (int i = gap; i < n; i++)`, with `cnt` iterations left. -/
def gapPassLoop (gap : Nat) (hgap : 0 < gap) : Nat → Nat → List Int → List Int
  | 0, _, arr => arr
  | cnt + 1, i, arr => gapPassLoop gap hgap cnt (i + 1) (gapInsert gap hgap arr i)

/-- One pass over the vector with the given gap: `i` runs from `gap` to `n - 1`. -/
def gapPass (n gap : Nat) (hgap : 0 < gap) (arr : List Int) : List Int :=
  gapPassLoop gap hgap (n - gap) gap arr

/-- The loop `for (int gap = n / 2; gap > 0; gap /= 2)` of `shellSort` (line 43). -/
def shellHalving (n gap : Nat) (arr : List Int) : List Int :=
  if h : gap > 0 then shellHalving n (gap / 2) (gapPass n gap h arr) else arr
termination_by gap
decreasing_by exact Nat.div_lt_self h (by decide)

/-- Function `shellSort(arr)` (lines 39-63), with the halving gaps. -/
def shellSort (arr : List Int) : List Int :=
  shellHalving arr.length (arr.length / 2) arr

/-- The loop `while (gap < n / 3) gap = 3 * gap + 1` of `shellSortKnuth`
(lines 76-78): the gap it ends with. -/
def knuthStart (n gap : Nat) : Nat :=
  if h : gap < n / 3 then knuthStart n (3 * gap + 1) else gap
termination_by n / 3 - gap
decreasing_by omega

/-- The loop `while (gap >= 1)` of `shellSortKnuth` (lines 81-96). -/
def knuthLoop (n gap : Nat) (arr : List Int) : List Int :=
  if h : gap ≥ 1 then knuthLoop n (gap / 3) (gapPass n gap h arr) else arr
termination_by gap
decreasing_by exact Nat.div_lt_self h (by decide)

/-- Function `shellSortKnuth(arr)` (lines 70-97). -/
def shellSortKnuth (arr : List Int) : List Int :=
  knuthLoop arr.length (knuthStart arr.length 1) arr

/-- The loop `while ((1 << k) - 1 < n) k++` of `shellSortHibbard` (lines
110-112): the `k` it ends with.  The condition is `int` arithmetic: once `2^k`
exceeds `INT_MAX` (at `k = 31`) evaluating `(1 << k) - 1` has undefined
behaviour, the fault `overflow`. -/
def hibbardStart (n k : Nat) : Except Fault Nat :=
  if 2147483647 < 2 ^ k then .error .overflow
  else if h : 2 ^ k - 1 < n then hibbardStart n (k + 1) else .ok k
termination_by n + 1 - 2 ^ k
decreasing_by
  have h2 : 0 < 2 ^ k := Nat.pow_pos (by decide)
  simp_wf
  omega

/-- The loop `while (k >= 1)` of `shellSortHibbard` (lines 116-131), entered
with the given `k`; the gap of a round is `(1 << k) - 1`, `int` arithmetic as in
`hibbardStart`. -/
def hibbardLoop (n : Nat) : Nat → List Int → Except Fault (List Int)
  | 0, arr => .ok arr
  | k + 1, arr =>
    if 2147483647 < 2 ^ (k + 1) then .error .overflow
    else
      hibbardLoop n k (gapPass n (2 ^ (k + 1) - 1)
        (by have := Nat.one_lt_two_pow (Nat.succ_ne_zero k); omega) arr)

/-- Function `shellSortHibbard(arr)` (lines 104-132): `k` starts at `1`, and
`k--` follows the first loop. -/
def shellSortHibbard (arr : List Int) : Except Fault (List Int) :=
  match hibbardStart arr.length 1 with
  | .error e => .error e
  | .ok k => hibbardLoop arr.length (k - 1) arr

/-- The Knuth gaps `1, 4, 13, 40, …`. -/
def knuthGap : Nat → Nat
  | 0 => 1
  | k + 1 => 3 * knuthGap k + 1

/-! ## merge_sort.cpp: bottom-up variant -/

/-- The inner loop of `mergeSortIterative` (lines 141-148):
`for (left = 0; left < n - size; left += 2 * size)` merging `arr[left..mid]` with
`arr[mid+1..right]`, where `mid = left + size - 1` and
`right = min(left + 2 * size - 1, n - 1)`.  The outer loop only runs it with
`size < n`, where the truncated subtraction `n - size` is the exact one.  The
expressions `2 * size` and `left + 2 * size` are `int` arithmetic: when
`left + 2 * size` exceeds `INT_MAX` the body has undefined behaviour, the fault
`overflow`. -/
def mergePassLoop (n size : Nat) (hs : 0 < size) (left : Nat) (arr : List Int) :
    Except Fault (List Int) :=
  if _h : left < n - size then
    if 2147483647 < left + 2 * size then .error .overflow
    else
      let mid := left + size - 1
      let right := min (left + 2 * size - 1) (n - 1)
      mergePassLoop n size hs (left + 2 * size) (merge arr left mid right)
  else .ok arr
termination_by n - left
decreasing_by omega

/-- The outer loop of `mergeSortIterative` (lines 139-149):
`for (size = 1; size < n; size *= 2)`; the step `size *= 2` is `int` arithmetic
and has undefined behaviour, the fault `overflow`, when `size * 2` exceeds
`INT_MAX`. -/
def mergeSizeLoop (n size : Nat) (hs : 0 < size) (arr : List Int) : Except Fault (List Int) :=
  if _h : size < n then
    match mergePassLoop n size hs 0 arr with
    | .error e => .error e
    | .ok arr2 =>
      if 2147483647 < size * 2 then .error .overflow
      else mergeSizeLoop n (size * 2) (by omega) arr2
  else .ok arr
termination_by n - size
decreasing_by omega

/-- Function `mergeSortIterative(arr)` (lines 132-150). -/
def mergeSortIterative (arr : List Int) : Except Fault (List Int) :=
  if arr.length ≤ 1 then .ok arr else mergeSizeLoop arr.length 1 Nat.one_pos arr

/-- Every aligned block of `w` consecutive positions (`q * w .. q * w + w - 1`, cut at
`n`) is in non-descending order: what a finished pass of `mergeSortIterative` with run
size `w / 2` leaves behind. -/
def BlockSorted (n w : Nat) (arr : List Int) : Prop :=
  ∀ q a b, q * w ≤ a → a < b → b < q * w + w → b < n → get arr a ≤ get arr b

/-! ## Access-checked models

The models above read and write the vector with the total operations `get`,
`List.set` and `swap`.  The models of this section follow the same source lines but
perform every `arr[i]` through `tableGet` and `tableSet`, so that an index outside
`0 .. size - 1` ends the run with `Fault.outOfBounds`: a result `.ok out` says that
the function returned `out` and that no access left its vector; the `int` expressions
that the models above check against `INT_MAX` are checked here too and end the run with
`Fault.overflow`.  Index variables that
can become negative in the source (`j = i - 1`, `right = n - 1`, ...) are integers
here.  A loop `for (x = lo; x < hi; x++)` whose body changes neither `x` nor `hi` is
a recursion over its `(hi - lo).toNat` iterations. -/

namespace Checked

/-- Checked `std::swap(arr[i], arr[j])`. -/
def swapAt (arr : List Int) (i j : Int) : Except Fault (List Int) := do
  let a ← tableGet arr i
  let b ← tableGet arr j
  let arr1 ← tableSet arr i b
  tableSet arr1 j a

/-- Checked `std::vector<int> v(size)` (filled with `0`): a negative size is refused. -/
def newVector (size : Int) : Except Fault (List Int) :=
  if size < 0 then .error .badLength else .ok (List.replicate size.toNat 0)

/-! ### bubble_sort.cpp -/

/-- Inner loop of `bubbleSort` (lines 44-50) with `cnt` iterations left. -/
def bubblePass : Nat → Int → List Int → Bool → Except Fault (List Int × Bool)
  | 0, _, arr, swapped => pure (arr, swapped)
  | cnt + 1, j, arr, swapped => do
    let a ← tableGet arr j
    let b ← tableGet arr (j + 1)
    if a > b then
      let arr2 ← swapAt arr j (j + 1)
      bubblePass cnt (j + 1) arr2 true
    else bubblePass cnt (j + 1) arr swapped

/-- Outer loop of `bubbleSort` (lines 38-56) with `cnt` iterations left; it is left
early when a pass swapped nothing. -/
def bubbleOuter (n : Int) : Nat → Int → List Int → Except Fault (List Int)
  | 0, _, arr => pure arr
  | cnt + 1, i, arr => do
    let r ← bubblePass (n - 1 - i).toNat 0 arr false
    if r.2 then bubbleOuter n cnt (i + 1) r.1 else pure r.1

/-- Function `bubbleSort(arr)` (lines 33-57). -/
def bubbleSort (arr : List Int) : Except Fault (List Int) :=
  let n : Int := arr.length
  bubbleOuter n (n - 1).toNat 0 arr

/-! ### selection_sort.cpp -/

/-- Inner loop of `selectionSort` (lines 44-49) with `cnt` iterations left. -/
def selectMin : Nat → Int → List Int → Int → Except Fault Int
  | 0, _, _, minIndex => pure minIndex
  | cnt + 1, j, arr, minIndex => do
    let a ← tableGet arr j
    let b ← tableGet arr minIndex
    selectMin cnt (j + 1) arr (if a < b then j else minIndex)

/-- Outer loop of `selectionSort` (lines 39-56) with `cnt` iterations left. -/
def selectionLoop (n : Int) : Nat → Int → List Int → Except Fault (List Int)
  | 0, _, arr => pure arr
  | cnt + 1, i, arr => do
    let minIndex ← selectMin (n - (i + 1)).toNat (i + 1) arr i
    let arr2 ← if minIndex ≠ i then swapAt arr i minIndex else pure arr
    selectionLoop n cnt (i + 1) arr2

/-- Function `selectionSort(arr)` (lines 34-57). -/
def selectionSort (arr : List Int) : Except Fault (List Int) :=
  let n : Int := arr.length
  selectionLoop n (n - 1).toNat 0 arr

/-- Inner loop of `bidirectionalSelectionSort` (lines 74-81) with `cnt` iterations
left; the result is `(minIndex, maxIndex)`. -/
def scanMinMax : Nat → Int → List Int → Int → Int → Except Fault (Int × Int)
  | 0, _, _, minIndex, maxIndex => pure (minIndex, maxIndex)
  | cnt + 1, i, arr, minIndex, maxIndex => do
    let a ← tableGet arr i
    let lo ← tableGet arr minIndex
    let minIndex2 := if a < lo then i else minIndex
    let a2 ← tableGet arr i
    let hi ← tableGet arr maxIndex
    let maxIndex2 := if a2 > hi then i else maxIndex
    scanMinMax cnt (i + 1) arr minIndex2 maxIndex2

/-- The `while (left < right)` loop of `bidirectionalSelectionSort` (lines 69-100). -/
def bidirectionalLoop (arr : List Int) (left right : Int) : Except Fault (List Int) :=
  if _h : left < right then do
    let r ← scanMinMax (right + 1 - left).toNat left arr left left
    let minIndex := r.1
    let s ← if minIndex ≠ left then do
        let arr1 ← swapAt arr left minIndex
        pure (arr1, if r.2 = left then minIndex else r.2)
      else pure (arr, r.2)
    let maxIndex := s.2
    let arr2 ← if maxIndex ≠ right then swapAt s.1 right maxIndex else pure s.1
    bidirectionalLoop arr2 (left + 1) (right - 1)
  else pure arr
termination_by (right - left).toNat
decreasing_by omega

/-- Function `bidirectionalSelectionSort(arr)` (lines 64-101). -/
def bidirectionalSelectionSort (arr : List Int) : Except Fault (List Int) :=
  let n : Int := arr.length
  bidirectionalLoop arr 0 (n - 1)

/-! ### insertion_sort.cpp -/

/-- The `while (j >= 0 && arr[j] > key)` loop of `insertionSort` (lines 51-54);
`arr[j]` is read only when `j >= 0`.  The result is the vector and the final `j`. -/
def insertShift (key : Int) (j : Int) (arr : List Int) : Except Fault (List Int × Int) :=
  if _h : j ≥ 0 then do
    let v ← tableGet arr j
    if v > key then
      let w ← tableGet arr j
      let arr2 ← tableSet arr (j + 1) w
      insertShift key (j - 1) arr2
    else pure (arr, j)
  else pure (arr, j)
termination_by (j + 1).toNat
decreasing_by omega

/-- Outer loop of `insertionSort` (lines 42-59) with `cnt` iterations left. -/
def insertionLoop : Nat → Int → List Int → Except Fault (List Int)
  | 0, _, arr => pure arr
  | cnt + 1, i, arr => do
    let key ← tableGet arr i
    let r ← insertShift key (i - 1) arr
    let arr2 ← tableSet r.1 (r.2 + 1) key
    insertionLoop cnt (i + 1) arr2

/-- Function `insertionSort(arr)` (lines 38-60). -/
def insertionSort (arr : List Int) : Except Fault (List Int) :=
  let n : Int := arr.length
  insertionLoop (n - 1).toNat 1 arr

/-- The binary search of `binaryInsertionSort` (lines 79-86); the result is the final
`left`.  `(right - left) / 2` divides a non-negative number. -/
def binarySearch (arr : List Int) (key : Int) (left right : Int) : Except Fault Int :=
  if _h : left ≤ right then do
    let mid := left + (right - left) / 2
    let v ← tableGet arr mid
    if v > key then binarySearch arr key left (mid - 1)
    else binarySearch arr key (mid + 1) right
  else pure left
termination_by (right + 1 - left).toNat
decreasing_by all_goals omega

/-- The loop `for (int j = i - 1; j >= left; j--) arr[j + 1] = arr[j]` (lines 90-92)
with `cnt` iterations left. -/
def shiftRight : Nat → Int → List Int → Except Fault (List Int)
  | 0, _, arr => pure arr
  | cnt + 1, j, arr => do
    let v ← tableGet arr j
    let arr2 ← tableSet arr (j + 1) v
    shiftRight cnt (j - 1) arr2

/-- Outer loop of `binaryInsertionSort` (lines 71-96) with `cnt` iterations left. -/
def binaryInsertionLoop : Nat → Int → List Int → Except Fault (List Int)
  | 0, _, arr => pure arr
  | cnt + 1, i, arr => do
    let key ← tableGet arr i
    let left ← binarySearch arr key 0 (i - 1)
    let arr1 ← shiftRight (i - left).toNat (i - 1) arr
    let arr2 ← tableSet arr1 left key
    binaryInsertionLoop cnt (i + 1) arr2

/-- Function `binaryInsertionSort(arr)` (lines 68-97). -/
def binaryInsertionSort (arr : List Int) : Except Fault (List Int) :=
  let n : Int := arr.length
  binaryInsertionLoop (n - 1).toNat 1 arr

/-! ### shell_sort.cpp

Gaps and indices of the shell sorts are never negative; they are natural numbers, as
in the unchecked models, whose gap computations `knuthStart` and `hibbardStart`
(which touch no element) are used unchanged. -/

/-- The `while (j >= gap && arr[j - gap] > temp)` loop of the three shell sorts;
`arr[j - gap]` is read only when `j >= gap`. -/
def gapShift (gap : Nat) (hgap : 0 < gap) (temp : Int) (j : Nat) (arr : List Int) :
    Except Fault (List Int × Nat) :=
  if _h : j ≥ gap then do
    let v ← tableGet arr ((j - gap : Nat) : Int)
    if v > temp then
      let w ← tableGet arr ((j - gap : Nat) : Int)
      let arr2 ← tableSet arr (j : Int) w
      gapShift gap hgap temp (j - gap) arr2
    else pure (arr, j)
  else pure (arr, j)
termination_by j
decreasing_by omega

/-- The loop `for (int i = gap; i < n; i++)` of the three shell sorts, with `cnt`
iterations left. -/
def gapPassLoop (gap : Nat) (hgap : 0 < gap) : Nat → Nat → List Int → Except Fault (List Int)
  | 0, _, arr => pure arr
  | cnt + 1, i, arr => do
    let temp ← tableGet arr (i : Int)
    let r ← gapShift gap hgap temp i arr
    let arr2 ← tableSet r.1 (r.2 : Int) temp
    gapPassLoop gap hgap cnt (i + 1) arr2

/-- One pass with a fixed gap. -/
def gapPass (n gap : Nat) (hgap : 0 < gap) (arr : List Int) : Except Fault (List Int) :=
  gapPassLoop gap hgap (n - gap) gap arr

/-- The loop `for (int gap = n / 2; gap > 0; gap /= 2)` of `shellSort` (lines 43-62). -/
def shellHalving (n gap : Nat) (arr : List Int) : Except Fault (List Int) :=
  if h : gap > 0 then do
    let arr2 ← gapPass n gap h arr
    shellHalving n (gap / 2) arr2
  else pure arr
termination_by gap
decreasing_by exact Nat.div_lt_self h (by decide)

/-- Function `shellSort(arr)` (lines 39-63). -/
def shellSort (arr : List Int) : Except Fault (List Int) :=
  shellHalving arr.length (arr.length / 2) arr

/-- The loop `while (gap >= 1)` of `shellSortKnuth` (lines 81-96). -/
def knuthLoop (n gap : Nat) (arr : List Int) : Except Fault (List Int) :=
  if h : gap ≥ 1 then do
    let arr2 ← gapPass n gap h arr
    knuthLoop n (gap / 3) arr2
  else pure arr
termination_by gap
decreasing_by exact Nat.div_lt_self h (by decide)

/-- Function `shellSortKnuth(arr)` (lines 70-97). -/
def shellSortKnuth (arr : List Int) : Except Fault (List Int) :=
  knuthLoop arr.length (knuthStart arr.length 1) arr

/-- The loop `while (k >= 1)` of `shellSortHibbard` (lines 116-131), entered with
exponent `k`. -/
def hibbardLoop (n : Nat) : Nat → List Int → Except Fault (List Int)
  | 0, arr => pure arr
  | k + 1, arr => do
    if 2147483647 < 2 ^ (k + 1) then throw .overflow
    let arr2 ← gapPass n (2 ^ (k + 1) - 1)
      (by have := Nat.one_lt_two_pow (Nat.succ_ne_zero k); omega) arr
    hibbardLoop n k arr2

/-- Function `shellSortHibbard(arr)` (lines 104-132). -/
def shellSortHibbard (arr : List Int) : Except Fault (List Int) := do
  let k ← hibbardStart arr.length 1
  hibbardLoop arr.length (k - 1) arr

/-! ### merge_sort.cpp -/

/-- The copy loops `for (i = 0; i < n1; i++) leftArr[i] = arr[left + i]` (lines 52-57),
with `cnt` iterations left; `off` is `left` or `mid + 1`. -/
def copyRun (off : Int) (arr : List Int) : Nat → Int → List Int → Except Fault (List Int)
  | 0, _, tmp => pure tmp
  | cnt + 1, i, tmp => do
    let v ← tableGet arr (off + i)
    let tmp2 ← tableSet tmp i v
    copyRun off arr cnt (i + 1) tmp2

/-- The loop `while (i < n1 && j < n2)` of `merge` (lines 65-75); the result is the
vector with the final `i`, `j` and `k`. -/
def mergeLoop (leftArr rightArr : List Int) (n1 n2 : Int) (arr : List Int) (i j k : Int) :
    Except Fault (List Int × Int × Int × Int) :=
  if _h : i < n1 ∧ j < n2 then do
    let a ← tableGet leftArr i
    let b ← tableGet rightArr j
    if a ≤ b then
      let a2 ← tableGet leftArr i
      let arr2 ← tableSet arr k a2
      mergeLoop leftArr rightArr n1 n2 arr2 (i + 1) j (k + 1)
    else
      let b2 ← tableGet rightArr j
      let arr2 ← tableSet arr k b2
      mergeLoop leftArr rightArr n1 n2 arr2 i (j + 1) (k + 1)
  else pure (arr, i, j, k)
termination_by (n1 - i).toNat + (n2 - j).toNat
decreasing_by all_goals omega

/-- The loops `while (i < n1) { arr[k] = leftArr[i]; i++; k++; }` (lines 78-82, and
lines 85-89 for the right run), with `cnt` iterations left; the result is the vector
and the final `k`. -/
def drainRun (src : List Int) : Nat → Int → Int → List Int → Except Fault (List Int × Int)
  | 0, _, k, arr => pure (arr, k)
  | cnt + 1, i, k, arr => do
    let v ← tableGet src i
    let arr2 ← tableSet arr k v
    drainRun src cnt (i + 1) (k + 1) arr2

/-- Function `merge(arr, left, mid, right)` (lines 42-90). -/
def merge (arr : List Int) (left mid right : Int) : Except Fault (List Int) := do
  let n1 := mid - left + 1
  let n2 := right - mid
  let leftArr0 ← newVector n1
  let rightArr0 ← newVector n2
  let leftArr ← copyRun left arr n1.toNat 0 leftArr0
  let rightArr ← copyRun (mid + 1) arr n2.toNat 0 rightArr0
  let r ← mergeLoop leftArr rightArr n1 n2 arr 0 0 left
  let r1 ← drainRun leftArr (n1 - r.2.1).toNat r.2.1 r.2.2.2 r.1
  let r2 ← drainRun rightArr (n2 - r.2.2.1).toNat r.2.2.1 r1.2 r1.1
  pure r2.1

/-- Function `mergeSortRecursive(arr, left, right)` (lines 98-115);
`(right - left) / 2` divides a positive number. -/
def mergeSortRecursive (arr : List Int) (left right : Int) : Except Fault (List Int) :=
  if _h : left ≥ right then pure arr
  else do
    let mid := left + (right - left) / 2
    let arr1 ← mergeSortRecursive arr left mid
    let arr2 ← mergeSortRecursive arr1 (mid + 1) right
    merge arr2 left mid right
termination_by (right - left).toNat
decreasing_by all_goals omega

/-- Function `mergeSort(arr)` (lines 121-125). -/
def mergeSort (arr : List Int) : Except Fault (List Int) :=
  if arr.isEmpty then pure arr else mergeSortRecursive arr 0 ((arr.length : Int) - 1)

/-- The inner loop of `mergeSortIterative` (lines 141-148); see the unchecked
`mergePassLoop` for the loop condition and the range check. -/
def mergePassLoop (n size : Nat) (hs : 0 < size) (left : Nat) (arr : List Int) :
    Except Fault (List Int) :=
  if _h : left < n - size then do
    if 2147483647 < left + 2 * size then throw .overflow
    let mid : Int := (left : Int) + size - 1
    let right : Int := min ((left : Int) + 2 * size - 1) ((n : Int) - 1)
    let arr2 ← merge arr left mid right
    mergePassLoop n size hs (left + 2 * size) arr2
  else pure arr
termination_by n - left
decreasing_by omega

/-- The outer loop of `mergeSortIterative` (lines 139-149). -/
def mergeSizeLoop (n size : Nat) (hs : 0 < size) (arr : List Int) : Except Fault (List Int) :=
  if _h : size < n then do
    let arr2 ← mergePassLoop n size hs 0 arr
    if 2147483647 < size * 2 then throw .overflow
    mergeSizeLoop n (size * 2) (by omega) arr2
  else pure arr
termination_by n - size
decreasing_by omega

/-- Function `mergeSortIterative(arr)` (lines 132-150). -/
def mergeSortIterative (arr : List Int) : Except Fault (List Int) :=
  if arr.length ≤ 1 then pure arr else mergeSizeLoop arr.length 1 Nat.one_pos arr

/-! ### quick_sort.cpp -/

/-- The loop of `partitionLomuto` (lines 19-24) with `cnt` iterations left; the result
is the vector and the final `i`. -/
def lomutoLoop (pivot : Int) : Nat → List Int → Int → Int → Except Fault (List Int × Int)
  | 0, arr, i, _ => pure (arr, i)
  | cnt + 1, arr, i, j => do
    let v ← tableGet arr j
    if v < pivot then
      let arr2 ← swapAt arr (i + 1) j
      lomutoLoop pivot cnt arr2 (i + 1) (j + 1)
    else lomutoLoop pivot cnt arr i (j + 1)

/-- Function `partitionLomuto(arr, low, high)` (lines 15-27). -/
def partitionLomuto (arr : List Int) (low high : Int) : Except Fault (List Int × Int) := do
  let pivot ← tableGet arr high
  let r ← lomutoLoop pivot (high - low).toNat arr (low - 1) low
  let arr2 ← swapAt r.1 (r.2 + 1) high
  pure (arr2, r.2 + 1)

/-- Function `quickSortLomuto(arr, low, high)` (lines 47-53); the first argument bounds
the depth of the recursion. -/
def quickSortLomuto : Nat → List Int → Int → Int → Except Fault (List Int)
  | 0, _, _, _ => .error .outOfFuel
  | fuel + 1, arr, low, high =>
    if low < high then do
      let p ← partitionLomuto arr low high
      let arr1 ← quickSortLomuto fuel p.1 low (p.2 - 1)
      quickSortLomuto fuel arr1 (p.2 + 1) high
    else pure arr

/-- Function `quickSort(arr)` (lines 63-67). -/
def quickSort (fuel : Nat) (arr : List Int) : Except Fault (List Int) :=
  if arr.length ≤ 1 then pure arr else quickSortLomuto fuel arr 0 ((arr.length : Int) - 1)

/-! ### heap_sort.cpp -/

/-- The index `largest` computed by `heapify` (lines 22-34); `arr[left]` is read only
when `left < n`, and `arr[right]` only when `right < n`.  As in the unchecked model,
`2 * i + 2` beyond `INT_MAX` is the fault `overflow`. -/
def heapifyLargest (arr : List Int) (n i : Int) : Except Fault Int := do
  if 2147483647 < 2 * i + 2 then throw .overflow
  let left := 2 * i + 1
  let right := 2 * i + 2
  let largest1 ← if left < n then do
      let a ← tableGet arr left
      let b ← tableGet arr i
      pure (if a > b then left else i)
    else pure i
  if right < n then do
    let a ← tableGet arr right
    let b ← tableGet arr largest1
    pure (if a > b then right else largest1)
  else pure largest1

/-- Function `heapify(arr, n, i)` (lines 21-41); the first argument bounds the depth
of the recursion. -/
def heapify : Nat → List Int → Int → Int → Except Fault (List Int)
  | 0, _, _, _ => .error .outOfFuel
  | fuel + 1, arr, n, i => do
    let largest ← heapifyLargest arr n i
    if largest ≠ i then
      let arr2 ← swapAt arr i largest
      heapify fuel arr2 n largest
    else pure arr

/-- The loop `for (int i = n / 2 - 1; i >= 0; i--)` of `heapSort` (lines 50-52), with
`cnt` iterations left. -/
def buildHeapLoop (fuel : Nat) (n : Int) : Nat → Int → List Int → Except Fault (List Int)
  | 0, _, arr => pure arr
  | cnt + 1, i, arr => do
    let arr2 ← heapify fuel arr n i
    buildHeapLoop fuel n cnt (i - 1) arr2

/-- The loop `for (int i = n - 1; i > 0; i--)` of `heapSort` (lines 55-58), with `cnt`
iterations left. -/
def extractLoop (fuel : Nat) : Nat → Int → List Int → Except Fault (List Int)
  | 0, _, arr => pure arr
  | cnt + 1, i, arr => do
    let arr1 ← swapAt arr 0 i
    let arr2 ← heapify fuel arr1 i 0
    extractLoop fuel cnt (i - 1) arr2

/-- Function `heapSort(arr)` (lines 46-59); `fuel` bounds the depth of each `heapify`. -/
def heapSort (fuel : Nat) (arr : List Int) : Except Fault (List Int) := do
  let n : Int := arr.length
  let arr1 ← buildHeapLoop fuel n (n / 2).toNat (n / 2 - 1) arr
  extractLoop fuel (n - 1).toNat (n - 1) arr1

/-! ### counting_sort.cpp, radix_sort.cpp, bucket_sort.cpp

The loops `countKeys` and `distribute` above already check every index they use and
are used unchanged. -/

/-- The `while (count[i] > 0)` loop of `countingSort` (lines 37-40), which runs
`count[i]` times, with `c` iterations left; the result is the count table, the vector
and the final `index`. -/
def emitValue (i : Int) :
    Nat → List Int → List Int → Int → Except Fault (List Int × List Int × Int)
  | 0, count, arr, index => pure (count, arr, index)
  | c + 1, count, arr, index => do
    let arr2 ← tableSet arr index i
    let v ← tableGet count i
    let count2 ← tableSet count i (v - 1)
    emitValue i c count2 arr2 (index + 1)

/-- The rebuilding loop `for (int i = 0; i <= maxVal; i++)` of `countingSort`
(lines 35-41), with `m` iterations left. -/
def rebuildLoop : Nat → Int → List Int → List Int → Int → Except Fault (List Int)
  | 0, _, _, arr, _ => pure arr
  | m + 1, i, count, arr, index => do
    let c ← tableGet count i
    let r ← emitValue i c.toNat count arr index
    rebuildLoop m (i + 1) r.1 r.2.1 r.2.2

/-- Function `countingSort(arr)` (lines 19-42). -/
def countingSort (arr : List Int) : Except Fault (List Int) :=
  if arr.isEmpty then pure arr
  else do
    let maxVal := maxElement arr
    let count0 ← newVector (wrap32 (maxVal + 1))
    let count ← countKeys (fun num => .ok num) arr count0
    rebuildLoop (maxVal + 1).toNat 0 count arr 0

/-- The loop `for (int i = 1; i < size; i++) count[i] += count[i - 1]`, with `cnt`
iterations left. -/
def prefixSums : Nat → Int → List Int → Except Fault (List Int)
  | 0, _, count => pure count
  | cnt + 1, i, count => do
    let a ← tableGet count i
    let b ← tableGet count (i - 1)
    let count2 ← tableSet count i (a + b)
    prefixSums cnt (i + 1) count2

/-- The placement loop `for (int i = n - 1; i >= 0; i--)` of `countingSortStable`
(lines 70-74) and `countingSortByDigit` (lines 45-49), with `cnt` iterations left. -/
def placeLoop (key : Int → Except Fault Int) (arr : List Int) :
    Nat → Int → List Int → List Int → Except Fault (List Int)
  | 0, _, _, output => pure output
  | cnt + 1, i, count, output => do
    let x ← tableGet arr i
    let k ← key x
    let c ← tableGet count k
    let x2 ← tableGet arr i
    let output2 ← tableSet output (c - 1) x2
    let count2 ← tableSet count k (c - 1)
    placeLoop key arr cnt (i - 1) count2 output2

/-- Function `countingSortStable(arr)` (lines 47-78). -/
def countingSortStable (arr : List Int) : Except Fault (List Int) :=
  if arr.isEmpty then pure arr
  else do
    let n : Int := arr.length
    let minVal := minElement arr
    let maxVal := maxElement arr
    let range := wrap32 (wrap32 (maxVal - minVal) + 1)
    let count0 ← newVector range
    let output ← newVector n
    let count1 ← countKeys (fun num => .ok (wrap32 (num - minVal))) arr count0
    let count2 ← prefixSums (range - 1).toNat 1 count1
    placeLoop (fun num => .ok (wrap32 (num - minVal))) arr n.toNat (n - 1) count2 output

/-- Function `countingSortByDigit(arr, exp)` (lines 28-52). -/
def countingSortByDigit (arr : List Int) (exp : Int) : Except Fault (List Int) := do
  let n : Int := arr.length
  let output ← newVector n
  let count0 ← newVector 10
  let count1 ← countKeys (digitOf exp) arr count0
  let count2 ← prefixSums 9 1 count1
  placeLoop (digitOf exp) arr n.toNat (n - 1) count2 output

/-- The loop of `radixSort` (lines 64-66); the first argument bounds the number of
times the loop condition is evaluated.  As in the unchecked model, `exp * 10` beyond
`INT_MAX` is the fault `overflow`. -/
def radixLoop (maxVal : Int) : Nat → Int → List Int → Except Fault (List Int)
  | 0, _, _ => .error .outOfFuel
  | fuel + 1, exp, arr => do
    let q ← intDiv maxVal exp
    if q > 0 then
      let arr2 ← countingSortByDigit arr exp
      if 2147483647 < exp * 10 then throw .overflow
      radixLoop maxVal fuel (exp * 10) arr2
    else pure arr

/-- Function `radixSort(arr)` (lines 57-67). -/
def radixSort (fuel : Nat) (arr : List Int) : Except Fault (List Int) :=
  if arr.isEmpty then pure arr else radixLoop (getMax arr) fuel 1 arr

/-- The loop `for (int num : bucket) arr[index++] = num` of `bucketSort`
(lines 74-76). -/
def writeBucket : List Int → List Int → Int → Except Fault (List Int × Int)
  | [], arr, index => pure (arr, index)
  | num :: rest, arr, index => do
    let arr2 ← tableSet arr index num
    writeBucket rest arr2 (index + 1)

/-- The loop over the buckets of `bucketSort` (lines 72-77). -/
def collectBuckets : List (List Int) → List Int → Int → Except Fault (List Int)
  | [], arr, _ => pure arr
  | bucket :: rest, arr, index => do
    let r ← writeBucket (stdSort bucket) arr index
    collectBuckets rest r.1 r.2

/-- Function `bucketSort(arr)` (lines 50-78), the integer version. -/
def bucketSort (arr : List Int) : Except Fault (List Int) :=
  if arr.isEmpty then pure arr
  else do
    let n : Int := arr.length
    let minVal := minElement arr
    let maxVal := maxElement arr
    let bucketCount := n
    let q ← intDiv (wrap32 (maxVal - minVal)) bucketCount
    let bucketSize := wrap32 (q + 1)
    let buckets ← distribute minVal bucketSize arr (List.replicate arr.length [])
    collectBuckets buckets arr 0

end Checked

/-! ## bubble_sort.cpp with counters

The same loops as `bubblePass` and `bubbleOuter`, with the counters a test
harness would inject: passes of the inner loop, comparisons, swaps. -/

/-- What a counted run of `bubbleSort` yields: the vector, and how many passes,
adjacent comparisons and swaps were made. -/
structure BubbleRun where
  /-- the vector at the end -/
  arr : List Int
  /-- executions of the inner loop -/
  passes : Nat
  /-- evaluations of `arr[j] > arr[j + 1]` -/
  comparisons : Nat
  /-- calls of `std::swap` -/
  swaps : Nat

/-- The inner loop of `bubbleSort` (lines 44-50) with a comparison and a swap
counter; the result is the vector, the `swapped` flag and the two counters. -/
def bubblePassCount : Nat → Nat → List Int → Bool → Nat → Nat → List Int × Bool × Nat × Nat
  | 0, _, arr, swapped, comparisons, swaps => (arr, swapped, comparisons, swaps)
  | cnt + 1, j, arr, swapped, comparisons, swaps =>
    if get arr j > get arr (j + 1) then
      bubblePassCount cnt (j + 1) (swap arr j (j + 1)) true (comparisons + 1) (swaps + 1)
    else bubblePassCount cnt (j + 1) arr swapped (comparisons + 1) swaps

/-- The outer loop of `bubbleSort` (lines 38-56) with the counters. -/
def bubbleOuterCount : Nat → List Int → Nat → Nat → Nat → BubbleRun
  | 0, arr, passes, comparisons, swaps => ⟨arr, passes, comparisons, swaps⟩
  | rem + 1, arr, passes, comparisons, swaps =>
    let r := bubblePassCount (rem + 1) 0 arr false comparisons swaps
    if r.2.1 then bubbleOuterCount rem r.1 (passes + 1) r.2.2.1 r.2.2.2
    else ⟨r.1, passes + 1, r.2.2.1, r.2.2.2⟩

/-- Function `bubbleSort(arr)` (lines 33-57) with the counters, all starting at `0`. -/
def bubbleSortCount (arr : List Int) : BubbleRun :=
  bubbleOuterCount (arr.length - 1) arr 0 0 0

/-! ## merge_sort.cpp: `merge` with the origin of every write recorded -/

/-- The three `while` loops of `merge` (lines 60-89) as in `mergeLoop`, recording
for every write `arr[k] = leftArr[i]` or `arr[k] = rightArr[j]` the position of
`arr` the written value was copied from: `p` is `left + i`, the origin of the head
of what is left of `leftArr`, and `q` is `mid + 1 + j`, that of `rightArr`.  The
second component lists the origins in the order of the writes. -/
def mergeLoopLog : List Int → List Int → List Int → Nat → Nat → Nat → List Int × List Nat
  | arr, [], [], _, _, _ => (arr, [])
  | arr, x :: xs, [], k, p, q =>
    let r := mergeLoopLog (arr.set k x) xs [] (k + 1) (p + 1) q
    (r.1, p :: r.2)
  | arr, [], y :: ys, k, p, q =>
    let r := mergeLoopLog (arr.set k y) [] ys (k + 1) p (q + 1)
    (r.1, q :: r.2)
  | arr, x :: xs, y :: ys, k, p, q =>
    if x ≤ y then
      let r := mergeLoopLog (arr.set k x) xs (y :: ys) (k + 1) (p + 1) q
      (r.1, p :: r.2)
    else
      let r := mergeLoopLog (arr.set k y) (x :: xs) ys (k + 1) p (q + 1)
      (r.1, q :: r.2)
termination_by _ l r _ _ _ => l.length + r.length

/-- Function `merge(arr, left, mid, right)` (lines 42-90) with the log of origins:
the first component is the new vector, the second lists, for
`k = left, left + 1, …, right`, the position of the old vector that the value
written to `arr[k]` was copied from. -/
def mergeLog (arr : List Int) (left mid right : Nat) : List Int × List Nat :=
  let n1 := mid - left + 1
  let n2 := right - mid
  let leftArr := (List.range n1).map fun i => get arr (left + i)
  let rightArr := (List.range n2).map fun j => get arr (mid + 1 + j)
  mergeLoopLog arr leftArr rightArr left left (mid + 1)

/-! ## quick_sort.cpp: Hoare partitioning

The two inner scans of `partitionHoare` stop only when they meet a suitable
element, so their model watches the range: a scan that would leave
`[low, high]` ends the run in `Fault.outOfBounds`.  A run that ends in `.ok` has
therefore read and swapped inside `[low, high]` only. -/

/-- The scan `do { i++; } while (arr[i] < pivot)` of `partitionHoare` (lines
35-37).  The last argument is the index `i++` leads to next, the one before it
the number of indices up to `high` still ahead; the result is the final `i`. -/
def hoareScanUp (arr : List Int) (pivot : Int) : Nat → Nat → Except Fault Nat
  | 0, _ => .error .outOfBounds
  | room + 1, c => if get arr c < pivot then hoareScanUp arr pivot room (c + 1) else .ok c

/-- The scan `do { j--; } while (arr[j] > pivot)` of `partitionHoare` (lines
38-40).  The last argument is the current `j`, so that `j--` leads to the index
below it; the result is the final `j`. -/
def hoareScanDown (arr : List Int) (pivot : Int) (low : Nat) : Nat → Except Fault Nat
  | 0 => .error .outOfBounds
  | j + 1 =>
    if j < low then .error .outOfBounds
    else if get arr j > pivot then hoareScanDown arr pivot low j
    else .ok j

/-- The `while (true)` loop of `partitionHoare` (lines 34-44).  The first
argument bounds the number of rounds; `c` is the source's `i + 1` (`i` starts
at `low - 1`) and `j` the source's `j`.  The result is the vector and the
returned split point. -/
def hoareLoop (pivot : Int) (low high : Nat) :
    Nat → List Int → Nat → Nat → Except Fault (List Int × Nat)
  | 0, _, _, _ => .error .outOfFuel
  | fuel + 1, arr, c, j =>
    match hoareScanUp arr pivot (high + 1 - c) c with
    | .error e => .error e
    | .ok i =>
      match hoareScanDown arr pivot low j with
      | .error e => .error e
      | .ok j2 =>
        if i ≥ j2 then .ok (arr, j2)
        else hoareLoop pivot low high fuel (swap arr i j2) (i + 1) j2

/-- Function `partitionHoare(arr, low, high)` (lines 30-45), run for at most
`fuel` rounds of its loop. -/
def partitionHoare (fuel : Nat) (arr : List Int) (low high : Nat) :
    Except Fault (List Int × Nat) :=
  hoareLoop (get arr low) low high fuel arr low (high + 1)

/-- Function `quickSortHoare(arr, low, high)` (lines 55-61).  The first argument
bounds the depth of the recursion and the rounds of each partitioning. -/
def quickSortHoare : Nat → List Int → Nat → Nat → Except Fault (List Int)
  | 0, _, _, _ => .error .outOfFuel
  | fuel + 1, arr, low, high =>
    if low < high then
      match partitionHoare (fuel + 1) arr low high with
      | .error e => .error e
      | .ok p =>
        match quickSortHoare fuel p.1 low p.2 with
        | .error e => .error e
        | .ok arr2 => quickSortHoare fuel arr2 (p.2 + 1) high
    else .ok arr

/-! ## Subtrees of the implicit heap -/

/-- Node `j` lies in the subtree rooted at `i` of the implicit binary tree of
`heapify`, in which the children of node `k` are `2 * k + 1` and `2 * k + 2`. -/
inductive InSubtree (i : Nat) : Nat → Prop
  | root : InSubtree i i
  | left (k : Nat) : InSubtree i k → InSubtree i (2 * k + 1)
  | right (k : Nat) : InSubtree i k → InSubtree i (2 * k + 2)

/-- Max-heap invariant on the subtree rooted at `i`, restricted to indices below
`n`: no child inside the heap is larger than its parent. -/
def SubtreeHeap (arr : List Int) (n i : Nat) : Prop :=
  ∀ j, InSubtree i j → j < n →
    (2 * j + 1 < n → get arr (2 * j + 1) ≤ get arr j) ∧
    (2 * j + 2 < n → get arr (2 * j + 2) ≤ get arr j)

/-! ## selection_sort.cpp: bidirectional variant -/

/-- The inner loop of `bidirectionalSelectionSort` (lines 74-81): `cnt` iterations
are left, the next one looks at `arr[i]`; the result is `(minIndex, maxIndex)`. -/
def scanMinMax : Nat → Nat → List Int → Nat → Nat → Nat × Nat
  | 0, _, _, minIndex, maxIndex => (minIndex, maxIndex)
  | cnt + 1, i, arr, minIndex, maxIndex =>
    scanMinMax cnt (i + 1) arr (if get arr i < get arr minIndex then i else minIndex)
      (if get arr i > get arr maxIndex then i else maxIndex)

/-- One iteration of the `while (left < right)` loop of `bidirectionalSelectionSort`
(lines 70-95): the scan of `[left, right]`, the swap of the minimum to `left` with
the correction of `maxIndex` when the maximum sat at `left`, and the swap of the
maximum to `right`. -/
def bidirectionalStep (arr : List Int) (left right : Nat) : List Int :=
  let r := scanMinMax (right + 1 - left) left arr left left
  let minIndex := r.1
  let arr1 := if minIndex ≠ left then swap arr left minIndex else arr
  let maxIndex := if minIndex ≠ left ∧ r.2 = left then minIndex else r.2
  if maxIndex ≠ right then swap arr1 right maxIndex else arr1

/-- The `while (left < right)` loop of `bidirectionalSelectionSort` (lines 69-100),
with `left++` and `right--` after each iteration.  Inside the loop `right ≥ 1`. -/
def bidirectionalLoop (arr : List Int) (left right : Nat) : List Int :=
  if _h : left < right then
    bidirectionalLoop (bidirectionalStep arr left right) (left + 1) (right - 1)
  else arr
termination_by right - left
decreasing_by omega

/-- Function `bidirectionalSelectionSort(arr)` (lines 64-101).  For the empty vector
`right` is `-1` in the source and `0` here; the loop is not entered either way. -/
def bidirectionalSelectionSort (arr : List Int) : List Int :=
  bidirectionalLoop arr 0 (arr.length - 1)

/-! ## insertion_sort.cpp: binary-search variant -/

/-- The binary search of `binaryInsertionSort` (lines 79-86); the result is the
final `left`.  The argument `hi` is the source's `right + 1` (`right` becomes
`-1` when the key belongs in front), so `left <= right` reads `left < hi`, and
`right = mid - 1` reads `hi = mid`. -/
def binarySearch (arr : List Int) (key : Int) (left hi : Nat) : Nat :=
  if _h : left < hi then
    let mid := left + (hi - 1 - left) / 2
    if get arr mid > key then binarySearch arr key left mid
    else binarySearch arr key (mid + 1) hi
  else left
termination_by hi - left
decreasing_by all_goals omega

/-- The loop `for (int j = i - 1; j >= left; j--) arr[j + 1] = arr[j]` of
`binaryInsertionSort` (lines 90-92).  The numeric argument is the source's `j + 1`;
at `0` (`j = -1`) the condition `j >= left` is false. -/
def shiftRight (left : Nat) : Nat → List Int → List Int
  | 0, arr => arr
  | j + 1, arr => if j ≥ left then shiftRight left j (arr.set (j + 1) (get arr j)) else arr

/-- One iteration of the outer loop of `binaryInsertionSort` (lines 72-95) for
index `i`: the search runs on `[0, i - 1]`. -/
def binaryInsertStep (arr : List Int) (i : Nat) : List Int :=
  let key := get arr i
  let left := binarySearch arr key 0 i
  (shiftRight left i arr).set left key

/-- The vector after the outer iterations for `i = 1, …, m` of `binaryInsertionSort`. -/
def binaryInsertionSortUpTo (arr : List Int) : Nat → List Int
  | 0 => arr
  | m + 1 => binaryInsertStep (binaryInsertionSortUpTo arr m) (m + 1)

/-- Function `binaryInsertionSort(arr)` (lines 68-97): the outer loop runs for
`i = 1, …, n - 1`. -/
def binaryInsertionSort (arr : List Int) : List Int :=
  binaryInsertionSortUpTo arr (arr.length - 1)

/-! ## quick_sort.cpp: Hoare partitioning with an access log

A bounds-checked model of `partitionHoare` that records, in the order they happen,
the index of every read `arr[i]`, `arr[j]`, `arr[low]` and the two indices of every
swap.  An index outside the vector ends the run with `Fault.outOfBounds`; an index
inside the vector is used whether or not it lies in `[low, high]`, and logged. -/

namespace Checked

/-- The scan `do { i++; } while (arr[i] < pivot)` of `partitionHoare` (lines 35-37);
`i` is the index after `i++`, the one read next.  The result is the final `i` and the
log. -/
def hoareScanUp (arr : List Int) (pivot : Int) (i : Int) (log : List Int) :
    Except Fault (Int × List Int) :=
  if _h : 0 ≤ i ∧ i < arr.length then
    if get arr i.toNat < pivot then hoareScanUp arr pivot (i + 1) (log ++ [i])
    else .ok (i, log ++ [i])
  else .error .outOfBounds
termination_by ((arr.length : Int) - i).toNat
decreasing_by omega

/-- The scan `do { j--; } while (arr[j] > pivot)` of `partitionHoare` (lines 38-40);
`j` is the index after `j--`, the one read next.  The result is the final `j` and the
log. -/
def hoareScanDown (arr : List Int) (pivot : Int) (j : Int) (log : List Int) :
    Except Fault (Int × List Int) :=
  if _h : 0 ≤ j ∧ j < arr.length then
    if get arr j.toNat > pivot then hoareScanDown arr pivot (j - 1) (log ++ [j])
    else .ok (j, log ++ [j])
  else .error .outOfBounds
termination_by (j + 1).toNat
decreasing_by omega

/-- The `while (true)` loop of `partitionHoare` (lines 34-44) on the source's `i` and
`j`; the first argument bounds the number of rounds.  The result is the vector, the
returned split point and the log. -/
def hoareLoop (pivot : Int) :
    Nat → List Int → Int → Int → List Int → Except Fault (List Int × Int × List Int)
  | 0, _, _, _, _ => .error .outOfFuel
  | fuel + 1, arr, i, j, log => do
    let r1 ← hoareScanUp arr pivot (i + 1) log
    let r2 ← hoareScanDown arr pivot (j - 1) r1.2
    if r1.1 ≥ r2.1 then pure (arr, r2.1, r2.2)
    else
      let arr2 ← swapAt arr r1.1 r2.1
      hoareLoop pivot fuel arr2 r1.1 r2.1 (r2.2 ++ [r1.1, r2.1])

/-- Function `partitionHoare(arr, low, high)` (lines 30-45), run for at most `fuel`
rounds of its loop, with the log of the indices it used. -/
def partitionHoare (fuel : Nat) (arr : List Int) (low high : Int) :
    Except Fault (List Int × Int × List Int) := do
  let pivot ← tableGet arr low
  hoareLoop pivot fuel arr (low - 1) (high + 1) [low]

end Checked

/-! ## Shared lemmas -/

theorem get_eq_getElem (arr : List Int) (i : Nat) (h : i < arr.length) :
    get arr i = arr[i] := by
  simp [get, List.getD_eq_getElem?_getD, List.getElem?_eq_getElem h]

theorem get_of_length_le (arr : List Int) (i : Nat) (h : arr.length ≤ i) :
    get arr i = 0 := by
  simp [get, List.getD_eq_getElem?_getD, List.getElem?_eq_none h]

theorem get_mem (arr : List Int) (i : Nat) (h : i < arr.length) : get arr i ∈ arr := by
  rw [get_eq_getElem arr i h]; exact List.getElem_mem h

theorem get_append_left (pre s : List Int) (i : Nat) (h : i < pre.length) :
    get (pre ++ s) i = get pre i := by
  simp [get, List.getD_eq_getElem?_getD, List.getElem?_append_left h]

theorem get_append_right (pre s : List Int) (i : Nat) :
    get (pre ++ s) (pre.length + i) = get s i := by
  simp [get, List.getD_eq_getElem?_getD, List.getElem?_append_right]

theorem get_set (arr : List Int) (i j : Nat) (v : Int) :
    get (arr.set i v) j = if i = j ∧ i < arr.length then v else get arr j := by
  simp only [get, List.getD_eq_getElem?_getD, List.getElem?_set]
  by_cases h : i = j
  · subst h
    by_cases h2 : i < arr.length
    · simp [h2]
    · simp [h2, List.getElem?_eq_none (Nat.le_of_not_lt h2)]
  · simp [h]

theorem length_swap (arr : List Int) (i j : Nat) : (swap arr i j).length = arr.length := by
  simp [swap]

theorem get_swap (arr : List Int) (i j k : Nat) (hi : i < arr.length) (hj : j < arr.length) :
    get (swap arr i j) k =
      if k = j then get arr i else if k = i then get arr j else get arr k := by
  unfold swap
  rw [get_set, get_set]
  simp only [List.length_set]
  by_cases h1 : k = j
  · subst h1; simp [hj]
  · by_cases h2 : k = i
    · subst h2
      have : ¬ j = k := fun h => h1 h.symm
      simp [this, h1, hi]
    · have a : ¬ j = k := fun h => h1 h.symm
      have b : ¬ i = k := fun h => h2 h.symm
      simp [a, b, h1, h2]

theorem set_perm_cons (arr : List Int) (i : Nat) (v : Int) (h : i < arr.length) :
    (v :: arr).Perm (arr[i] :: arr.set i v) := by
  induction arr generalizing i with
  | nil => simp at h
  | cons a t ih =>
    cases i with
    | zero => simpa using List.Perm.swap a v t
    | succ i =>
      simp only [List.length_cons, Nat.add_lt_add_iff_right] at h
      simp only [List.getElem_cons_succ, List.set_cons_succ]
      have h1 : (v :: a :: t).Perm (a :: v :: t) := List.Perm.swap a v t
      have h2 : (a :: v :: t).Perm (a :: t[i] :: t.set i v) := (ih i h).cons a
      have h3 : (a :: t[i] :: t.set i v).Perm (t[i] :: a :: t.set i v) := List.Perm.swap _ _ _
      exact h1.trans (h2.trans h3)

theorem swap_perm (arr : List Int) (i j : Nat) (hi : i < arr.length) (hj : j < arr.length) :
    (swap arr i j).Perm arr := by
  unfold swap
  have hj2 : j < (arr.set i (get arr j)).length := by simpa using hj
  have p1 := set_perm_cons arr i (get arr j) hi
  have p2 := set_perm_cons (arr.set i (get arr j)) j (get arr i) hj2
  have e : (arr.set i (get arr j))[j] = get arr j := by
    rw [← get_eq_getElem _ _ hj2, get_set]
    by_cases h : i = j
    · simp [h, hj]
    · simp [h]
  rw [e, get_eq_getElem arr i hi] at p2
  rw [get_eq_getElem arr j hj] at p1 p2
  rw [get_eq_getElem arr i hi, get_eq_getElem arr j hj]
  -- p1 : arr[j] :: arr ~ arr[i] :: arr.set i arr[j]
  -- p2 : arr[i] :: arr.set i arr[j] ~ arr[j] :: (arr.set i arr[j]).set j arr[i]
  exact ((List.perm_cons _).1 (p1.trans p2)).symm

theorem sorted_of_get (arr : List Int)
    (h : ∀ i j, i < j → j < arr.length → get arr i ≤ get arr j) :
    List.Sorted (· ≤ ·) arr := by
  unfold List.Sorted
  rw [List.pairwise_iff_getElem]
  intro i j hi hj hij
  have := h i j hij hj
  rwa [get_eq_getElem arr i hi, get_eq_getElem arr j hj] at this

theorem get_le_of_sorted (arr : List Int) (h : List.Sorted (· ≤ ·) arr) (i j : Nat)
    (hij : i < j) (hj : j < arr.length) : get arr i ≤ get arr j := by
  unfold List.Sorted at h
  rw [List.pairwise_iff_getElem] at h
  have := h i j (by omega) hj hij
  rwa [get_eq_getElem arr i (by omega), get_eq_getElem arr j hj]

theorem nonDescending_of_sorted (arr : List Int) (h : List.Sorted (· ≤ ·) arr) :
    NonDescending arr := by
  intro i hi
  exact get_le_of_sorted arr h i (i + 1) (by omega) hi

theorem take_eq_of_get (a b : List Int) (lo : Nat) (hlen : a.length = b.length)
    (h : ∀ k, k < lo → get a k = get b k) : a.take lo = b.take lo := by
  apply List.ext_getElem?
  intro k
  simp only [List.getElem?_take]
  by_cases hk : k < lo
  · simp only [hk, if_true]
    by_cases hka : k < a.length
    · have hkb : k < b.length := by omega
      have := h k hk
      rw [get_eq_getElem a k hka, get_eq_getElem b k hkb] at this
      rw [List.getElem?_eq_getElem hka, List.getElem?_eq_getElem hkb, this]
    · rw [List.getElem?_eq_none (by omega), List.getElem?_eq_none (by omega)]
  · simp [hk]

theorem drop_eq_of_get (a b : List Int) (hi : Nat) (hlen : a.length = b.length)
    (h : ∀ k, hi ≤ k → get a k = get b k) : a.drop hi = b.drop hi := by
  apply List.ext_getElem?
  intro k
  simp only [List.getElem?_drop]
  by_cases hka : hi + k < a.length
  · have hkb : hi + k < b.length := by omega
    have := h (hi + k) (by omega)
    rw [get_eq_getElem a _ hka, get_eq_getElem b _ hkb] at this
    rw [List.getElem?_eq_getElem hka, List.getElem?_eq_getElem hkb, this]
  · rw [List.getElem?_eq_none (by omega), List.getElem?_eq_none (by omega)]

theorem split3 (a : List Int) (lo hi : Nat) (h : lo ≤ hi) :
    a = a.take lo ++ ((a.take hi).drop lo ++ a.drop hi) := by
  have h1 : (a.take hi).take lo = a.take lo := by
    rw [List.take_take]; congr 1; omega
  have h2 : (a.take hi).take lo ++ (a.take hi).drop lo = a.take hi :=
    List.take_append_drop lo _
  rw [← List.append_assoc, ← h1, h2, List.take_append_drop]

/-- A permutation that leaves everything outside `[lo, hi)` in place permutes
the segment `[lo, hi)` within itself. -/
theorem segment_perm (a b : List Int) (lo hi : Nat) (hlen : a.length = b.length)
    (hout : ∀ k, k < lo ∨ hi ≤ k → get a k = get b k) (hp : a.Perm b) :
    ((a.take hi).drop lo).Perm ((b.take hi).drop lo) := by
  have e1 : a.take lo = b.take lo := take_eq_of_get a b lo hlen (fun k hk => hout k (Or.inl hk))
  have e2 : a.drop hi = b.drop hi := drop_eq_of_get a b hi hlen (fun k hk => hout k (Or.inr hk))
  by_cases hlh : lo ≤ hi
  · have da := split3 a lo hi hlh
    have db := split3 b lo hi hlh
    rw [da, db, e1, e2] at hp
    exact (List.perm_append_right_iff _).1 ((List.perm_append_left_iff _).1 hp)
  · have ha : (a.take hi).drop lo = [] := by
      apply List.drop_eq_nil_of_le; rw [List.length_take]; omega
    have hb : (b.take hi).drop lo = [] := by
      apply List.drop_eq_nil_of_le; rw [List.length_take]; omega
    rw [ha, hb]

theorem mem_segment (a : List Int) (lo hi : Nat) (x : Int) :
    x ∈ (a.take hi).drop lo ↔ ∃ k, lo ≤ k ∧ k < hi ∧ k < a.length ∧ get a k = x := by
  constructor
  · intro h
    obtain ⟨i, hi2, rfl⟩ := List.getElem_of_mem h
    simp only [List.length_drop, List.length_take] at hi2
    refine ⟨lo + i, by omega, by omega, by omega, ?_⟩
    rw [get_eq_getElem a (lo + i) (by omega)]
    simp
  · rintro ⟨k, h1, h2, h3, rfl⟩
    rw [get_eq_getElem a k h3]
    have hk : k - lo < ((a.take hi).drop lo).length := by
      simp only [List.length_drop, List.length_take]; omega
    have : ((a.take hi).drop lo)[k - lo] = a[k] := by
      simp; congr 1; omega
    rw [← this]
    exact List.getElem_mem hk

/-- After a permutation that fixes everything outside `[lo, hi)`, each value now
in the segment was in the segment before. -/
theorem segment_get (a b : List Int) (lo hi : Nat) (hlen : a.length = b.length)
    (hout : ∀ k, k < lo ∨ hi ≤ k → get a k = get b k) (hp : a.Perm b)
    (k : Nat) (h1 : lo ≤ k) (h2 : k < hi) (h3 : k < a.length) :
    ∃ k2, lo ≤ k2 ∧ k2 < hi ∧ k2 < b.length ∧ get b k2 = get a k := by
  have hm : get a k ∈ (a.take hi).drop lo := (mem_segment a lo hi _).2 ⟨k, h1, h2, h3, rfl⟩
  exact (mem_segment b lo hi _).1 ((segment_perm a b lo hi hlen hout hp).mem_iff.1 hm)

theorem ext_get (a b : List Int) (hlen : a.length = b.length)
    (h : ∀ j, j < a.length → get a j = get b j) : a = b := by
  apply List.ext_getElem hlen
  intro j h1 h2
  have := h j h1
  rwa [get_eq_getElem a j h1, get_eq_getElem b j h2] at this

theorem sorted_take_of_get (arr : List Int) (m : Nat)
    (h : ∀ a b, a < b → b < m → get arr a ≤ get arr b) :
    List.Sorted (· ≤ ·) (arr.take m) := by
  apply sorted_of_get
  intro i j hij hj
  rw [List.length_take] at hj
  have e : ∀ k, k < m → get (arr.take m) k = get arr k := by
    intro k hk
    simp [get, List.getD_eq_getElem?_getD, List.getElem?_take, hk]
  rw [e i (by omega), e j (by omega)]
  exact h i j hij (by omega)

theorem get_take (arr : List Int) (m k : Nat) (hk : k < m) : get (arr.take m) k = get arr k := by
  simp [get, List.getD_eq_getElem?_getD, List.getElem?_take, hk]

theorem get_drop (arr : List Int) (m k : Nat) : get (arr.drop m) k = get arr (m + k) := by
  simp [get, List.getD_eq_getElem?_getD, List.getElem?_drop]

/-- Writing at position `pre.length` of `pre ++ s :: seg ++ post`. -/
theorem set_middle (pre seg post : List Int) (s x : Int) :
    (pre ++ (s :: seg) ++ post).set pre.length x = (pre ++ [x]) ++ seg ++ post := by
  simp [List.set_append]

/-! ## Merge sort -/

theorem mergeLists_perm (l r : List Int) : (mergeLists l r).Perm (l ++ r) := by
  induction l, r using mergeLists.induct with
  | case1 => simp [mergeLists]
  | case2 x xs ih => rw [mergeLists]; simpa using ih
  | case3 y ys ih => rw [mergeLists]; simpa using ih
  | case4 x xs y ys h ih =>
    rw [mergeLists]; simp only [h, if_true]
    simpa using ih
  | case5 x xs y ys h ih =>
    rw [mergeLists]; simp only [h, if_false]
    have : (y :: (x :: xs ++ ys)).Perm (x :: xs ++ y :: ys) :=
      (@List.perm_middle _ y (x :: xs) ys).symm
    exact (ih.cons y).trans this

theorem mergeLists_length (l r : List Int) : (mergeLists l r).length = l.length + r.length := by
  simpa using (mergeLists_perm l r).length_eq

theorem mem_mergeLists (l r : List Int) (b : Int) :
    b ∈ mergeLists l r ↔ b ∈ l ∨ b ∈ r := by
  rw [(mergeLists_perm l r).mem_iff, List.mem_append]

theorem mergeLists_sorted (l r : List Int) (hl : List.Sorted (· ≤ ·) l)
    (hr : List.Sorted (· ≤ ·) r) : List.Sorted (· ≤ ·) (mergeLists l r) := by
  induction l, r using mergeLists.induct with
  | case1 => simp [mergeLists]
  | case2 x xs ih =>
    rw [mergeLists]
    rw [List.sorted_cons] at hl ⊢
    refine ⟨fun b hb => ?_, ih hl.2 hr⟩
    rw [mem_mergeLists] at hb
    rcases hb with hb | hb
    · exact hl.1 b hb
    · simp at hb
  | case3 y ys ih =>
    rw [mergeLists]
    rw [List.sorted_cons] at hr ⊢
    refine ⟨fun b hb => ?_, ih hl hr.2⟩
    rw [mem_mergeLists] at hb
    rcases hb with hb | hb
    · simp at hb
    · exact hr.1 b hb
  | case4 x xs y ys h ih =>
    rw [mergeLists]; simp only [h, if_true]
    have hl2 := List.sorted_cons.1 hl
    have hr2 := List.sorted_cons.1 hr
    rw [List.sorted_cons]
    refine ⟨fun b hb => ?_, ih hl2.2 hr⟩
    rw [mem_mergeLists] at hb
    rcases hb with hb | hb
    · exact hl2.1 b hb
    · rcases List.mem_cons.1 hb with hb | hb
      · rw [hb]; exact h
      · exact le_trans h (hr2.1 b hb)
  | case5 x xs y ys h ih =>
    rw [mergeLists]; simp only [h, if_false]
    have hl2 := List.sorted_cons.1 hl
    have hr2 := List.sorted_cons.1 hr
    rw [List.sorted_cons]
    refine ⟨fun b hb => ?_, ih hl hr2.2⟩
    have hyx : y ≤ x := le_of_lt (not_le.1 h)
    rw [mem_mergeLists] at hb
    rcases hb with hb | hb
    · rcases List.mem_cons.1 hb with hb | hb
      · rw [hb]; exact hyx
      · exact le_trans hyx (hl2.1 b hb)
    · exact hr2.1 b hb

theorem mergeLoop_eq (l r : List Int) :
    ∀ (pre seg post : List Int) (k : Nat), k = pre.length →
      seg.length = l.length + r.length →
      mergeLoop (pre ++ seg ++ post) l r k = pre ++ mergeLists l r ++ post := by
  induction l, r using mergeLists.induct with
  | case1 =>
    intro pre seg post k hk hlen
    have : seg = [] := List.length_eq_zero.1 (by simpa using hlen)
    subst this
    simp [mergeLoop, mergeLists]
  | case2 x xs ih =>
    intro pre seg post k hk hlen
    cases seg with
    | nil => simp at hlen; try omega
    | cons s seg =>
      subst hk
      rw [mergeLoop, mergeLists, set_middle, ih (pre ++ [x]) seg post _ (by simp) (by simpa using hlen)]
      simp
  | case3 y ys ih =>
    intro pre seg post k hk hlen
    cases seg with
    | nil => simp at hlen; try omega
    | cons s seg =>
      subst hk
      rw [mergeLoop, mergeLists, set_middle, ih (pre ++ [y]) seg post _ (by simp) (by simpa using hlen)]
      simp
  | case4 x xs y ys h ih =>
    intro pre seg post k hk hlen
    cases seg with
    | nil => simp at hlen; try omega
    | cons s seg =>
      subst hk
      rw [mergeLoop, mergeLists]; simp only [h, if_true]
      rw [set_middle, ih (pre ++ [x]) seg post _ (by simp) (by simp at hlen ⊢; omega)]
      simp
  | case5 x xs y ys h ih =>
    intro pre seg post k hk hlen
    cases seg with
    | nil => simp at hlen; try omega
    | cons s seg =>
      subst hk
      rw [mergeLoop, mergeLists]; simp only [h, if_false]
      rw [set_middle, ih (pre ++ [y]) seg post _ (by simp) (by simp at hlen ⊢; omega)]
      simp

/-- Copying `s.length` elements out of `pre ++ s ++ post` from position `pre.length`. -/
theorem read_middle (pre s post : List Int) (l : Nat) (hl : l = pre.length) :
    (List.range s.length).map (fun i => get (pre ++ s ++ post) (l + i)) = s := by
  subst hl
  apply List.ext_getElem (by simp)
  intro i h1 h2
  simp only [List.getElem_map, List.getElem_range]
  rw [List.append_assoc, get_append_right, get_append_left _ _ _ h2, get_eq_getElem _ _ h2]

theorem merge_eq (pre s1 s2 post : List Int) (left mid right : Nat)
    (hleft : left = pre.length) (h1 : s1.length = mid - left + 1) (hmid : left ≤ mid)
    (h2 : s2.length = right - mid) :
    merge (pre ++ s1 ++ s2 ++ post) left mid right = pre ++ mergeLists s1 s2 ++ post := by
  unfold merge
  simp only
  have e1 : (List.range (mid - left + 1)).map (fun i => get (pre ++ s1 ++ s2 ++ post) (left + i))
      = s1 := by
    rw [← h1]
    have := read_middle pre s1 (s2 ++ post) left hleft
    simpa [List.append_assoc] using this
  have e2 : (List.range (right - mid)).map (fun j => get (pre ++ s1 ++ s2 ++ post) (mid + 1 + j))
      = s2 := by
    rw [← h2]
    have := read_middle (pre ++ s1) s2 post (mid + 1) (by simp; omega)
    simpa [List.append_assoc] using this
  rw [e1, e2]
  have := mergeLoop_eq s1 s2 pre (s1 ++ s2) post left hleft (by simp)
  simpa [List.append_assoc] using this

theorem mergeSortRecursive_spec : ∀ (m : Nat) (pre seg post : List Int) (left right : Nat),
    seg.length = m → left = pre.length → (seg ≠ [] → right + 1 = pre.length + seg.length) →
    (seg = [] → left ≥ right) →
    ∃ seg2, mergeSortRecursive (pre ++ seg ++ post) left right = pre ++ seg2 ++ post ∧
      List.Sorted (· ≤ ·) seg2 ∧ seg2.Perm seg := by
  intro m
  induction m using Nat.strong_induction_on with
  | _ m ih =>
    intro pre seg post left right hm hleft hright hempty
    rw [mergeSortRecursive]
    by_cases hlr : left ≥ right
    · simp only [hlr, if_true]
      refine ⟨seg, rfl, ?_, List.Perm.refl _⟩
      cases seg with
      | nil => simp
      | cons a t =>
        have := hright (by simp)
        have ht : t = [] := List.length_eq_zero.1 (by simp at this; omega)
        subst ht; simp
    · simp only [hlr, if_false]
      have hne : seg ≠ [] := fun h => hlr (hempty h)
      have hr := hright hne
      -- split the segment at `mid`
      have hsplit : seg = seg.take ((right - left) / 2 + 1) ++ seg.drop ((right - left) / 2 + 1) :=
        (List.take_append_drop _ _).symm
      have hl1 : (seg.take ((right - left) / 2 + 1)).length = (right - left) / 2 + 1 := by
        rw [List.length_take]; omega
      have hl2 : (seg.drop ((right - left) / 2 + 1)).length = right - (left + (right - left) / 2) := by
        rw [List.length_drop]; omega
      generalize seg.take ((right - left) / 2 + 1) = s1 at hsplit hl1
      generalize seg.drop ((right - left) / 2 + 1) = s2 at hsplit hl2
      subst hsplit
      obtain ⟨t1, e1, st1, p1⟩ := ih s1.length (by simp at hm; omega) pre s1 (s2 ++ post) left
        (left + (right - left) / 2) rfl hleft (fun _ => by omega)
        (fun h => by simp [h] at hl1)
      have e1' : mergeSortRecursive (pre ++ (s1 ++ s2) ++ post) left (left + (right - left) / 2)
          = pre ++ t1 ++ s2 ++ post := by
        simpa [List.append_assoc] using e1
      rw [e1']
      have lt1 : t1.length = s1.length := p1.length_eq
      obtain ⟨t2, e2, st2, p2⟩ := ih s2.length (by simp at hm; omega) (pre ++ t1) s2 post
        (left + (right - left) / 2 + 1) right rfl (by simp; omega) (fun _ => by simp; omega)
        (fun h => by simp [h] at hl2; omega)
      rw [e2]
      refine ⟨mergeLists t1 t2, ?_, mergeLists_sorted t1 t2 st1 st2, ?_⟩
      · have lt2 : t2.length = s2.length := p2.length_eq
        exact merge_eq pre t1 t2 post left _ right hleft (by omega) (by omega) (by omega)
      · exact (mergeLists_perm t1 t2).trans (p1.append p2)

theorem lomutoLoop_spec (pivot : Int) (low high : Nat) :
    ∀ (cnt : Nat) (arr : List Int) (s j : Nat), low ≤ s → s ≤ j → j + cnt = high →
      high < arr.length →
      (∀ k, low ≤ k → k < s → get arr k < pivot) →
      (∀ k, s ≤ k → k < j → pivot ≤ get arr k) →
      (lomutoLoop pivot cnt arr s j).1.length = arr.length ∧
      (lomutoLoop pivot cnt arr s j).1.Perm arr ∧
      low ≤ (lomutoLoop pivot cnt arr s j).2 ∧ (lomutoLoop pivot cnt arr s j).2 ≤ high ∧
      (∀ k, k < low ∨ high ≤ k → get (lomutoLoop pivot cnt arr s j).1 k = get arr k) ∧
      (∀ k, low ≤ k → k < (lomutoLoop pivot cnt arr s j).2 →
        get (lomutoLoop pivot cnt arr s j).1 k < pivot) ∧
      (∀ k, (lomutoLoop pivot cnt arr s j).2 ≤ k → k < high →
        pivot ≤ get (lomutoLoop pivot cnt arr s j).1 k) := by
  intro cnt
  induction cnt with
  | zero =>
    intro arr s j hs hsj hj hlen hA hB
    simp only [lomutoLoop]
    refine ⟨trivial, List.Perm.refl _, hs, by omega, fun _ _ => trivial, hA, ?_⟩
    intro k h1 h2; exact hB k h1 (by omega)
  | succ cnt ih =>
    intro arr s j hs hsj hj hlen hA hB
    simp only [lomutoLoop]
    by_cases hlt : get arr j < pivot
    · simp only [hlt, if_true]
      have hsl : s < arr.length := by omega
      have hjl : j < arr.length := by omega
      obtain ⟨r1, r2, r3, r4, r5, r6, r7⟩ := ih (swap arr s j) (s + 1) (j + 1) (by omega)
        (by omega) (by omega) (by rw [length_swap]; exact hlen)
        (by
          intro k h1 h2
          rw [get_swap arr s j k hsl hjl]
          by_cases e1 : k = j
          · have : s = j := by omega
            simp only [e1, if_true]; rw [this]; exact hlt
          · by_cases e2 : k = s
            · subst e2; simp only [e1, if_false, if_true]; exact hlt
            · simp only [e1, e2, if_false]; exact hA k h1 (by omega))
        (by
          intro k h1 h2
          rw [get_swap arr s j k hsl hjl]
          by_cases e1 : k = j
          · simp only [e1, if_true]; exact hB s (le_refl _) (by omega)
          · have e2 : ¬ k = s := by omega
            simp only [e1, e2, if_false]; exact hB k (by omega) (by omega))
      refine ⟨by rw [r1, length_swap], r2.trans (swap_perm arr s j hsl hjl), by omega, r4, ?_, r6, r7⟩
      intro k hk
      rw [r5 k hk, get_swap arr s j k hsl hjl]
      have e1 : ¬ k = j := by omega
      have e2 : ¬ k = s := by omega
      simp only [e1, e2, if_false]
    · simp only [hlt, if_false]
      exact ih arr s (j + 1) hs (by omega) (by omega) hlen hA (by
        intro k h1 h2
        by_cases e : k = j
        · subst e; exact not_lt.1 hlt
        · exact hB k h1 (by omega))

/-- Index-wise contract of `partitionLomuto`. -/
theorem partitionLomuto_spec (arr : List Int) (low high : Nat) (hlh : low ≤ high)
    (hlen : high < arr.length) :
    (partitionLomuto arr low high).1.length = arr.length ∧
    (partitionLomuto arr low high).1.Perm arr ∧
    low ≤ (partitionLomuto arr low high).2 ∧ (partitionLomuto arr low high).2 ≤ high ∧
    (∀ k, k < low ∨ high < k → get (partitionLomuto arr low high).1 k = get arr k) ∧
    get (partitionLomuto arr low high).1 (partitionLomuto arr low high).2 = get arr high ∧
    (∀ k, low ≤ k → k < (partitionLomuto arr low high).2 →
      get (partitionLomuto arr low high).1 k < get arr high) ∧
    (∀ k, (partitionLomuto arr low high).2 < k → k ≤ high →
      get arr high ≤ get (partitionLomuto arr low high).1 k) := by
  obtain ⟨r1, r2, r3, r4, r5, r6, r7⟩ := lomutoLoop_spec (get arr high) low high (high - low) arr
    low low (le_refl _) (le_refl _) (by omega) hlen (fun k h1 h2 => by omega)
    (fun k h1 h2 => by omega)
  unfold partitionLomuto
  simp only
  generalize lomutoLoop (get arr high) (high - low) arr low low = r at r1 r2 r3 r4 r5 r6 r7
  have hp : r.2 < r.1.length := by omega
  have hh : high < r.1.length := by omega
  have hpiv : get r.1 high = get arr high := r5 high (Or.inr (le_refl _))
  refine ⟨by rw [length_swap, r1], (swap_perm r.1 r.2 high hp hh).trans r2, r3, r4, ?_, ?_, ?_, ?_⟩
  · intro k hk
    rw [get_swap r.1 r.2 high k hp hh]
    have e1 : ¬ k = high := by omega
    have e2 : ¬ k = r.2 := by omega
    simp only [e1, e2, if_false]
    exact r5 k (by omega)
  · rw [get_swap r.1 r.2 high r.2 hp hh]
    by_cases e : r.2 = high
    · simp only [e, if_true]; exact hpiv
    · simp only [e, if_false, if_true]; exact hpiv
  · intro k h1 h2
    rw [get_swap r.1 r.2 high k hp hh]
    have e1 : ¬ k = high := by omega
    have e2 : ¬ k = r.2 := by omega
    simp only [e1, e2, if_false]
    exact r6 k h1 h2
  · intro k h1 h2
    rw [get_swap r.1 r.2 high k hp hh]
    by_cases e1 : k = high
    · simp only [e1, if_true]
      by_cases e : r.2 = high
      · omega
      · exact r7 r.2 (le_refl _) (by omega)
    · have e2 : ¬ k = r.2 := by omega
      simp only [e1, e2, if_false]
      exact r7 k (by omega) (by omega)

theorem quickSortLomuto_spec : ∀ (fuel : Nat) (arr : List Int) (low high : Nat),
    1 ≤ fuel → high + 1 - low ≤ fuel → (low < high → high < arr.length) →
    ∃ out, quickSortLomuto fuel arr low high = some out ∧ out.length = arr.length ∧
      out.Perm arr ∧ (¬ low < high → out = arr) ∧
      (∀ k, k < low ∨ high < k → get out k = get arr k) ∧
      (∀ i j, low ≤ i → i < j → j ≤ high → get out i ≤ get out j) := by
  intro fuel
  induction fuel with
  | zero => intro arr low high h; omega
  | succ fuel ih =>
    intro arr low high _ hfuel hlen
    rw [quickSortLomuto]
    by_cases hlh : low < high
    · simp only [hlh, if_true]
      have hhl := hlen hlh
      obtain ⟨q1, q2, q3, q4, q5, q6, q7, q8⟩ :=
        partitionLomuto_spec arr low high (le_of_lt hlh) hhl
      generalize partitionLomuto arr low high = p at q1 q2 q3 q4 q5 q6 q7 q8
      obtain ⟨o1, e1, l1, p1, n1, f1, s1⟩ := ih p.1 low (p.2 - 1) (by omega) (by omega)
        (fun _ => by omega)
      rw [e1]
      simp only
      obtain ⟨o2, e2, l2, p2, n2, f2, s2⟩ := ih o1 (p.2 + 1) high (by omega) (by omega)
        (fun _ => by omega)
      refine ⟨o2, e2, by omega, p2.trans (p1.trans q2), fun h => absurd trivial h, ?_, ?_⟩
      · intro k hk
        rw [f2 k (by omega)]
        by_cases hp : low < p.2 - 1
        · rw [f1 k (by omega)]; exact q5 k hk
        · rw [n1 hp]; exact q5 k hk
      · -- values of the final vector, by region
        have frame1 : ∀ k, p.2 ≤ k → get o1 k = get p.1 k := by
          intro k hk
          by_cases hp : low < p.2 - 1
          · exact f1 k (by omega)
          · rw [n1 hp]
        have hpiv : get o2 p.2 = get arr high := by
          rw [f2 p.2 (by omega), frame1 p.2 (le_refl _)]; exact q6
        have hleft : ∀ k, low ≤ k → k < p.2 → get o2 k < get arr high := by
          intro k h1 h2
          rw [f2 k (by omega)]
          by_cases hp : low < p.2 - 1
          · obtain ⟨k2, a1, a2, _, a4⟩ := segment_get o1 p.1 low p.2 l1
              (fun k hk => f1 k (by omega)) p1 k h1 h2 (by omega)
            rw [← a4]; exact q7 k2 a1 a2
          · rw [n1 hp]; exact q7 k h1 h2
        have hright : ∀ k, p.2 < k → k ≤ high → get arr high ≤ get o2 k := by
          intro k h1 h2
          by_cases hp : p.2 + 1 < high
          · obtain ⟨k2, a1, a2, _, a4⟩ := segment_get o2 o1 (p.2 + 1) (high + 1) l2
              (fun k hk => f2 k (by omega)) p2 k (by omega) (by omega) (by omega)
            rw [← a4, frame1 k2 (by omega)]
            exact q8 k2 (by omega) (by omega)
          · rw [n2 hp, frame1 k (by omega)]; exact q8 k h1 h2
        intro i j hi hij hj
        by_cases hjp : j < p.2
        · -- both on the left
          rw [f2 i (by omega), f2 j (by omega)]
          exact s1 i j hi hij (by omega)
        · by_cases hip : p.2 < i
          · exact s2 i j (by omega) hij hj
          · by_cases hjeq : j = p.2
            · subst hjeq; rw [hpiv]; exact le_of_lt (hleft i hi (by omega))
            · by_cases hieq : i = p.2
              · subst hieq; rw [hpiv]; exact hright j (by omega) hj
              · exact le_trans (le_of_lt (hleft i hi (by omega))) (hright j (by omega) hj)
    · simp only [hlh, if_false]
      refine ⟨arr, rfl, rfl, List.Perm.refl _, fun _ => rfl, fun _ _ => rfl, ?_⟩
      intro i j h1 h2 h3
      omega

theorem quickSortLomuto_fuel_mono : ∀ (fuel : Nat) (arr : List Int) (low high : Nat)
    (out : List Int), quickSortLomuto fuel arr low high = some out →
    ∀ fuel2, fuel ≤ fuel2 → quickSortLomuto fuel2 arr low high = some out := by
  intro fuel
  induction fuel with
  | zero => intro arr low high out h; simp [quickSortLomuto] at h
  | succ fuel ih =>
    intro arr low high out h fuel2 hle
    cases fuel2 with
    | zero => omega
    | succ fuel2 =>
      rw [quickSortLomuto] at h ⊢
      by_cases hlh : low < high
      · simp only [hlh, if_true] at h ⊢
        cases h1 : quickSortLomuto fuel (partitionLomuto arr low high).1 low
            ((partitionLomuto arr low high).2 - 1) with
        | none => rw [h1] at h; simp at h
        | some o1 =>
          rw [h1] at h
          simp only at h
          rw [ih _ _ _ _ h1 fuel2 (by omega)]
          simp only
          exact ih _ _ _ _ h fuel2 (by omega)
      · simp only [hlh, if_false] at h ⊢
        exact h

/-- While `2 * i + 2` is representable, `heapifyLargest` returns `i` or a child
of `i` inside the heap, one holding the largest of the three values. -/
theorem heapifyLargest_spec (arr : List Int) (n i : Nat) (hi : 2 * i + 2 ≤ 2147483647) :
    ∃ c, heapifyLargest arr n i = .ok c ∧
    (c = i ∨ (c = 2 * i + 1 ∧ 2 * i + 1 < n) ∨ (c = 2 * i + 2 ∧ 2 * i + 2 < n)) ∧
    (2 * i + 1 < n → get arr (2 * i + 1) ≤ get arr c) ∧
    (2 * i + 2 < n → get arr (2 * i + 2) ≤ get arr c) ∧
    (c ≠ i → get arr i < get arr c) := by
  unfold heapifyLargest
  rw [if_neg (by omega)]
  refine ⟨_, rfl, ?_⟩
  split_ifs with h1 h2 h2 <;> refine ⟨?_, ?_, ?_, ?_⟩ <;> intros <;> omega

/-- One unfolding of `heapify` once `largest` is known. -/
theorem heapify_unfold (arr : List Int) (n i c : Nat) (hc : heapifyLargest arr n i = .ok c) :
    heapify arr n i = if c ≠ i then heapify (swap arr i c) n c else .ok arr := by
  rw [heapify]
  split
  · rename_i e h; rw [hc] at h; cases h
  · rename_i l h; rw [hc] at h; cases h; rfl

/-- A call of `heapify` at a node `i` with `2 * i + 2 > INT_MAX` overflows at once. -/
theorem heapify_overflow (arr : List Int) (n i : Nat) (h : 2147483647 < 2 * i + 2) :
    heapify arr n i = .error .overflow := by
  rw [heapify]
  have e : heapifyLargest arr n i = .error .overflow := by
    unfold heapifyLargest; rw [if_pos h]
  split
  · rename_i e2 h2; rw [e] at h2; cases h2; rfl
  · rename_i l h2; rw [e] at h2; cases h2

/-- Sift-down: if every node of `[lo, n)` other than `i` satisfies the heap
property and the parent of `i` dominates the children of `i`, then (for a heap of
fewer than `2^30` nodes) `heapify(arr, n, i)` returns and afterwards every node of
`[lo, n)` satisfies it. -/
theorem heapify_spec : ∀ (m : Nat) (arr : List Int) (n i lo : Nat), n - i = m →
    n ≤ 1073741823 → n ≤ arr.length → i < n → lo ≤ i →
    (∀ j, lo ≤ j → j < n → j ≠ i →
      (2 * j + 1 < n → get arr (2 * j + 1) ≤ get arr j) ∧
      (2 * j + 2 < n → get arr (2 * j + 2) ≤ get arr j)) →
    (∀ p, lo ≤ p → (i = 2 * p + 1 ∨ i = 2 * p + 2) →
      (2 * i + 1 < n → get arr (2 * i + 1) ≤ get arr p) ∧
      (2 * i + 2 < n → get arr (2 * i + 2) ≤ get arr p)) →
    ∃ out, heapify arr n i = .ok out ∧
    out.length = arr.length ∧ out.Perm arr ∧
    (∀ k, k < i ∨ n ≤ k → get out k = get arr k) ∧
    HeapFrom out n lo := by
  intro m
  induction m using Nat.strong_induction_on with
  | _ m ih =>
    intro arr n i lo hm hN hn hi hlo H1 H2
    obtain ⟨c, hc0, hc, hl, hr, hgt⟩ := heapifyLargest_spec arr n i (by omega)
    rw [heapify_unfold arr n i c hc0]
    by_cases hne : c ≠ i
    · rw [if_pos hne]
      have hcn : c < n := by omega
      have hci : i < c := by omega
      have hgt := hgt hne
      have gs : ∀ k, get (swap arr i c) k =
          if k = c then get arr i else if k = i then get arr c else get arr k :=
        fun k => get_swap arr i c k (by omega) (by omega)
      obtain ⟨out, r0, r1, r2, r3, r4⟩ := ih (n - c) (by omega) (swap arr i c) n c lo rfl hN
        (by rw [length_swap]; exact hn) hcn (by omega)
        (by
          intro j hj1 hj2 hj3
          by_cases hji : j = i
          · subst hji
            constructor
            · intro h
              rw [gs, gs]
              by_cases e : 2 * j + 1 = c
              · simp only [e, if_true, if_neg hj3]; exact le_of_lt hgt
              · have e2 : ¬ 2 * j + 1 = j := by omega
                simp only [e, e2, if_false, if_neg hj3, if_true]; exact hl h
            · intro h
              rw [gs, gs]
              by_cases e : 2 * j + 2 = c
              · simp only [e, if_true, if_neg hj3]; exact le_of_lt hgt
              · have e2 : ¬ 2 * j + 2 = j := by omega
                simp only [e, e2, if_false, if_neg hj3, if_true]; exact hr h
          · have hj := H1 j hj1 hj2 hji
            constructor
            · intro h
              rw [gs, gs]
              have e1 : ¬ 2 * j + 1 = c := by omega
              simp only [e1, hj3, hji, if_false]
              by_cases e : 2 * j + 1 = i
              · simp only [e, if_true]
                rcases hc with hc | hc | hc
                · omega
                · rw [hc.1]; exact (H2 j hj1 (Or.inl e.symm)).1 hc.2
                · rw [hc.1]; exact (H2 j hj1 (Or.inl e.symm)).2 hc.2
              · simp only [e, if_false]; exact hj.1 h
            · intro h
              rw [gs, gs]
              have e1 : ¬ 2 * j + 2 = c := by omega
              simp only [e1, hj3, hji, if_false]
              by_cases e : 2 * j + 2 = i
              · simp only [e, if_true]
                rcases hc with hc | hc | hc
                · omega
                · rw [hc.1]; exact (H2 j hj1 (Or.inr e.symm)).1 hc.2
                · rw [hc.1]; exact (H2 j hj1 (Or.inr e.symm)).2 hc.2
              · simp only [e, if_false]; exact hj.2 h)
        (by
          intro p hp1 hp2
          have hpi : p = i := by omega
          subst hpi
          have hcc := H1 c (by omega) hcn (by omega)
          constructor
          · intro h
            rw [gs, gs]
            have e1 : ¬ 2 * c + 1 = c := by omega
            have e2 : ¬ 2 * c + 1 = p := by omega
            have e3 : ¬ p = c := by omega
            simp only [e1, e2, e3, if_false, if_true]; exact hcc.1 h
          · intro h
            rw [gs, gs]
            have e1 : ¬ 2 * c + 2 = c := by omega
            have e2 : ¬ 2 * c + 2 = p := by omega
            have e3 : ¬ p = c := by omega
            simp only [e1, e2, e3, if_false, if_true]; exact hcc.2 h)
      refine ⟨out, r0, by rw [r1, length_swap],
        r2.trans (swap_perm arr i c (by omega) (by omega)), ?_, r4⟩
      intro k hk
      rw [r3 k (by omega), gs]
      have e1 : ¬ k = c := by omega
      have e2 : ¬ k = i := by omega
      simp only [e1, e2, if_false]
    · rw [if_neg hne]
      have hci : c = i := not_not.1 hne
      rw [hci] at hl hr
      refine ⟨arr, rfl, rfl, List.Perm.refl _, fun _ _ => rfl, ?_⟩
      intro j hj1 hj2
      by_cases hji : j = i
      · subst hji; exact ⟨hl, hr⟩
      · exact H1 j hj1 hj2 hji

theorem heap_root_max (arr : List Int) (n : Nat) (h : HeapFrom arr n 0) :
    ∀ j, j < n → get arr j ≤ get arr 0 := by
  intro j
  induction j using Nat.strong_induction_on with
  | _ j ih =>
    intro hj
    by_cases h0 : j = 0
    · subst h0; exact le_refl _
    · have hp := h ((j - 1) / 2) (Nat.zero_le _) (by omega)
      have ihp := ih ((j - 1) / 2) (by omega) (by omega)
      rcases Nat.even_or_odd j with he | ho
      · obtain ⟨t, ht⟩ := he
        have e : 2 * ((j - 1) / 2) + 2 = j := by omega
        have := hp.2 (by omega)
        rw [e] at this
        exact le_trans this ihp
      · obtain ⟨t, ht⟩ := ho
        have e : 2 * ((j - 1) / 2) + 1 = j := by omega
        have := hp.1 (by omega)
        rw [e] at this
        exact le_trans this ihp

theorem buildHeapLoop_spec (n : Nat) (hN : n ≤ 1073741823) :
    ∀ (k : Nat) (arr : List Int), n ≤ arr.length → k ≤ n →
    HeapFrom arr n k →
    ∃ out, buildHeapLoop n k arr = .ok out ∧
    out.length = arr.length ∧ out.Perm arr ∧
    (∀ j, n ≤ j → get out j = get arr j) ∧
    HeapFrom out n 0 := by
  intro k
  induction k with
  | zero => intro arr _ _ h; exact ⟨arr, rfl, rfl, List.Perm.refl _, fun _ _ => rfl, h⟩
  | succ k ih =>
    intro arr hn hk h
    rw [buildHeapLoop]
    obtain ⟨mid, r0, r1, r2, r3, r4⟩ := heapify_spec (n - k) arr n k k rfl hN hn (by omega)
      (le_refl _) (fun j hj1 hj2 hj3 => h j (by omega) hj2) (fun p hp1 hp2 => by omega)
    rw [r0]
    obtain ⟨out, s0, s1, s2, s3, s4⟩ := ih mid (by omega) (by omega) r4
    refine ⟨out, s0, by omega, s2.trans r2, ?_, s4⟩
    intro j hj
    rw [s3 j hj, r3 j (Or.inr hj)]

theorem extractLoop_spec : ∀ (i : Nat) (arr : List Int), i < arr.length →
    i + 1 ≤ 1073741823 →
    HeapFrom arr (i + 1) 0 →
    (∀ a b, i < a → a < b → b < arr.length → get arr a ≤ get arr b) →
    (∀ a b, a ≤ i → i < b → b < arr.length → get arr a ≤ get arr b) →
    ∃ out, extractLoop i arr = .ok out ∧
    out.length = arr.length ∧ out.Perm arr ∧
    (∀ a b, a < b → b < arr.length → get out a ≤ get out b) := by
  intro i
  induction i with
  | zero =>
    intro arr hlen _ _ hs hb
    refine ⟨arr, rfl, rfl, List.Perm.refl _, ?_⟩
    intro a b hab hbl
    by_cases ha : a = 0
    · exact hb a b (by omega) (by omega) hbl
    · exact hs a b (by omega) hab hbl
  | succ i ih =>
    intro arr hlen hN hheap hs hb
    rw [extractLoop]
    have gs : ∀ k, get (swap arr 0 (i + 1)) k =
        if k = i + 1 then get arr 0 else if k = 0 then get arr (i + 1) else get arr k :=
      fun k => get_swap arr 0 (i + 1) k (by omega) hlen
    have hsl : (swap arr 0 (i + 1)).length = arr.length := length_swap _ _ _
    have hsp : (swap arr 0 (i + 1)).Perm arr := swap_perm arr 0 (i + 1) (by omega) hlen
    have hmax := heap_root_max arr (i + 1 + 1) hheap
    obtain ⟨out, r0, r1, r2, r3, r4⟩ := heapify_spec (i + 1) (swap arr 0 (i + 1)) (i + 1) 0 0
      rfl (by omega) (by omega) (by omega) (le_refl _)
      (by
        intro j _ hj2 hj3
        have hj := hheap j (Nat.zero_le _) (by omega)
        constructor
        · intro h
          rw [gs, gs]
          have e1 : ¬ 2 * j + 1 = i + 1 := by omega
          have e2 : ¬ 2 * j + 1 = 0 := by omega
          have e3 : ¬ j = i + 1 := by omega
          simp only [e1, e2, e3, hj3, if_false]
          exact hj.1 (by omega)
        · intro h
          rw [gs, gs]
          have e1 : ¬ 2 * j + 2 = i + 1 := by omega
          have e2 : ¬ 2 * j + 2 = 0 := by omega
          have e3 : ¬ j = i + 1 := by omega
          simp only [e1, e2, e3, hj3, if_false]
          exact hj.2 (by omega))
      (fun p _ hp => by omega)
    rw [r0]
    have hol : out.length = arr.length := by omega
    -- the old root now sits at position `i + 1`
    have htop : get out (i + 1) = get arr 0 := by
      rw [r3 (i + 1) (Or.inr (le_refl _)), gs]; simp
    have hrest : ∀ k, i + 1 < k → get out k = get arr k := by
      intro k hk
      rw [r3 k (Or.inr (by omega)), gs]
      have e1 : ¬ k = i + 1 := by omega
      have e2 : ¬ k = 0 := by omega
      simp only [e1, e2, if_false]
    have hlow : ∀ k, k ≤ i → get out k ≤ get arr 0 := by
      intro k hk
      obtain ⟨k2, _, a2, _, a4⟩ := segment_get out (swap arr 0 (i + 1)) 0 (i + 1) r1
        (fun k hk => r3 k (by omega)) r2 k (Nat.zero_le _) (by omega) (by omega)
      rw [← a4, gs]
      have e1 : ¬ k2 = i + 1 := by omega
      simp only [e1, if_false]
      by_cases e2 : k2 = 0
      · simp only [e2, if_true]; exact hmax (i + 1) (by omega)
      · simp only [e2, if_false]; exact hmax k2 (by omega)
    obtain ⟨res, s0, s1, s2, s3⟩ := ih out (by omega) (by omega) r4
      (by
        intro a b ha hab hbl
        by_cases e : a = i + 1
        · subst e; rw [htop, hrest b (by omega)]
          exact hb 0 b (by omega) (by omega) (by omega)
        · rw [hrest a (by omega), hrest b (by omega)]
          exact hs a b (by omega) hab (by omega))
      (by
        intro a b ha hib hbl
        by_cases e : b = i + 1
        · subst e; rw [htop]; exact hlow a ha
        · rw [hrest b (by omega)]
          exact le_trans (hlow a ha) (hb 0 b (by omega) (by omega) (by omega)))
    refine ⟨res, s0, by omega, s2.trans (r2.trans hsp), ?_⟩
    intro a b hab hbl
    exact s3 a b hab (by omega)

theorem heapSort_spec (arr : List Int) (hlen : arr.length ≤ 1073741823) :
    ∃ out, heapSort arr = .ok out ∧ List.Sorted (· ≤ ·) out ∧ out.Perm arr := by
  unfold heapSort
  simp only
  obtain ⟨heap, b0, b1, b2, b3, b4⟩ := buildHeapLoop_spec arr.length hlen (arr.length / 2) arr
    (le_refl _) (Nat.div_le_self _ _) (fun j hj1 hj2 => ⟨fun h => by omega, fun h => by omega⟩)
  rw [b0]
  by_cases hn : arr.length = 0
  · have h0 : heap = [] := List.length_eq_zero.1 (by omega)
    have ha : arr = [] := List.length_eq_zero.1 hn
    subst h0; subst ha
    exact ⟨[], rfl, List.sorted_nil, List.Perm.refl _⟩
  · obtain ⟨out, s0, s1, s2, s3⟩ := extractLoop_spec (arr.length - 1) heap (by omega) (by omega)
      (by
        have : arr.length - 1 + 1 = arr.length := by omega
        rw [this]; exact b4)
      (fun a b h1 h2 h3 => by omega) (fun a b h1 h2 h3 => by omega)
    have hs : List.Sorted (· ≤ ·) out :=
      sorted_of_get _ (fun i j hij hj => s3 i j hij (by omega))
    exact ⟨out, s0, hs, s2.trans b2⟩

/-- C3 (as amended): for every vector of fewer than `2^30` elements, `heapSort`
returns and leaves the vector non-descending, with the same length and the same
multiset of values as the input. -/
theorem heapSort_sorted_perm (arr : List Int) (hlen : arr.length < 1073741824) :
    ∃ out, heapSort arr = .ok out ∧
      NonDescending out ∧ List.Sorted (· ≤ ·) out ∧ out.Perm arr ∧
      out.length = arr.length := by
  obtain ⟨out, h0, h1, h2⟩ := heapSort_spec arr (by omega)
  exact ⟨out, h0, nonDescending_of_sorted _ h1, h1, h2, h2.length_eq⟩

/-- Witness for C3: the demo vector of `main`. -/
theorem heapSort_sorted_perm_witness :
    ∃ out, heapSort [64, 34, 25, 12, 22, 11, 90, 5, 77, 30] = .ok out ∧
      NonDescending out ∧ List.Sorted (· ≤ ·) out ∧
      out.Perm [64, 34, 25, 12, 22, 11, 90, 5, 77, 30] ∧
      out.length = [64, 34, 25, 12, 22, 11, 90, 5, 77, 30].length :=
  heapSort_sorted_perm [64, 34, 25, 12, 22, 11, 90, 5, 77, 30] (by decide)

theorem get_replicate_append_last (m : Nat) (a b : Int) :
    get (List.replicate m a ++ [b]) m = b := by
  unfold get
  rw [List.getD_eq_getElem?_getD, List.getElem?_append_right (by simp)]
  simp

theorem get_replicate_append_lt (m i : Nat) (a b : Int) (h : i < m) :
    get (List.replicate m a ++ [b]) i = a := by
  unfold get
  rw [List.getD_eq_getElem?_getD, List.getElem?_append_left (by simpa using h)]
  simp [h]

/-- On a vector of exactly `2^30` elements whose last element is larger than the
element at `2^29 - 1` (its parent in the heap), the first `heapify` call of
`heapSort` moves to the last node `i = 2^30 - 1`, where `2 * i + 2` overflows. -/
theorem heapSort_overflow (arr : List Int) (hlen : arr.length = 1073741824)
    (hlast : get arr 536870911 < get arr 1073741823) :
    heapSort arr = .error .overflow := by
  have hL : heapifyLargest arr 1073741824 536870911 = .ok 1073741823 := by
    unfold heapifyLargest
    rw [if_neg (by omega)]
    simp [hlast]
  have hH : heapify arr 1073741824 536870911 = .error .overflow := by
    rw [heapify_unfold arr _ _ _ hL, if_pos (by omega)]
    exact heapify_overflow _ _ _ (by omega)
  have hk : 1073741824 / 2 = 536870911 + 1 := by omega
  unfold heapSort
  simp only
  rw [hlen, hk, buildHeapLoop, hH]

/-- Counterexample to C3 as stated: the vector of `2^30` elements that is `0`
everywhere except for a final `1`.  The first `heapify(arr, n, 2^29 - 1)` finds the
left child `arr[2^30 - 1] = 1` larger, swaps, and calls
`heapify(arr, n, 2^30 - 1)`, whose `right = 2 * i + 2` is `2^31`: signed overflow,
so nothing is guaranteed about the result. -/
theorem heapSort_overflow_counterexample :
    (List.replicate 1073741823 (0 : Int) ++ [1]).length = 1073741824 ∧
    heapSort (List.replicate 1073741823 0 ++ [1]) = .error .overflow := by
  have hlen : (List.replicate 1073741823 (0 : Int) ++ [1]).length = 1073741824 := by
    rw [List.length_append, List.length_replicate, List.length_singleton]
  refine ⟨hlen, heapSort_overflow _ hlen ?_⟩
  rw [get_replicate_append_last, get_replicate_append_lt _ _ _ _ (by omega)]
  decide

/-! ## The three loops of a stable counting sort -/

theorem cumCount_succ (kN : Int → Nat) (arr : List Int) (d : Nat) :
    cumCount kN arr (d + 1) = cumCount kN arr d + keyCount kN arr d := by
  unfold cumCount keyCount
  induction arr with
  | nil => simp
  | cons x xs ih =>
    simp only [List.countP_cons]
    rw [ih]
    by_cases h1 : kN x < d
    · have h2 : kN x < d + 1 := by omega
      have h3 : ¬ kN x = d := by omega
      simp [h1, h2, h3]; omega
    · by_cases h3 : kN x = d
      · have h2 : kN x < d + 1 := by omega
        simp [h1, h2, h3]; omega
      · have h2 : ¬ kN x < d + 1 := by omega
        simp [h1, h2, h3]

theorem cumCount_mono (kN : Int → Nat) (arr : List Int) (a b : Nat) (h : a ≤ b) :
    cumCount kN arr a ≤ cumCount kN arr b := by
  induction b with
  | zero =>
    have : a = 0 := by omega
    rw [this]
  | succ b ih =>
    by_cases e : a = b + 1
    · rw [e]
    · have := ih (by omega)
      rw [cumCount_succ]; omega

theorem cumCount_zero (kN : Int → Nat) (arr : List Int) : cumCount kN arr 0 = 0 := by
  unfold cumCount
  simp

theorem cumCount_top (kN : Int → Nat) (arr : List Int) (K : Nat)
    (h : ∀ x ∈ arr, kN x < K) : cumCount kN arr K = arr.length := by
  unfold cumCount
  rw [List.countP_eq_length]
  intro x hx
  simpa using h x hx

theorem keyCount_cons (kN : Int → Nat) (x : Int) (xs : List Int) (d : Nat) :
    keyCount kN (x :: xs) d = keyCount kN xs d + (if kN x = d then 1 else 0) := by
  unfold keyCount
  rw [List.countP_cons]
  simp

theorem keyCount_append (kN : Int → Nat) (xs ys : List Int) (d : Nat) :
    keyCount kN (xs ++ ys) d = keyCount kN xs d + keyCount kN ys d := by
  unfold keyCount
  rw [List.countP_append]

theorem keyCount_reverse (kN : Int → Nat) (xs : List Int) (d : Nat) :
    keyCount kN xs.reverse d = keyCount kN xs d := by
  unfold keyCount
  rw [List.countP_reverse]

theorem tableGet_ok (t : List Int) (d : Nat) (h : d < t.length) :
    tableGet t (d : Int) = .ok (get t d) := by
  unfold tableGet
  have : (0 : Int) ≤ (d : Int) ∧ (d : Int) < (t.length : Int) := ⟨by omega, by omega⟩
  rw [if_pos this]
  simp

theorem tableSet_ok (t : List Int) (d : Nat) (v : Int) (h : d < t.length) :
    tableSet t (d : Int) v = .ok (t.set d v) := by
  unfold tableSet
  have : (0 : Int) ≤ (d : Int) ∧ (d : Int) < (t.length : Int) := ⟨by omega, by omega⟩
  rw [if_pos this]
  simp

theorem countKeys_spec (key : Int → Except Fault Int) (kN : Int → Nat) :
    ∀ (l count : List Int), (∀ x ∈ l, key x = .ok (kN x : Int) ∧ kN x < count.length) →
    ∃ c, countKeys key l count = .ok c ∧ c.length = count.length ∧
      ∀ d, d < count.length → get c d = get count d + (keyCount kN l d : Int) := by
  intro l
  induction l with
  | nil =>
    intro count _
    exact ⟨count, rfl, rfl, fun d _ => by simp [keyCount]⟩
  | cons x xs ih =>
    intro count h
    obtain ⟨hk, hlt⟩ := h x (List.mem_cons_self _ _)
    rw [countKeys, hk]
    simp only
    rw [tableGet_ok count _ hlt]
    simp only
    rw [tableSet_ok count _ _ hlt]
    simp only
    obtain ⟨c, e, l1, l2⟩ := ih (count.set (kN x) (get count (kN x) + 1))
      (fun y hy => by
        have := h y (List.mem_cons_of_mem _ hy)
        simpa using this)
    refine ⟨c, e, by simpa using l1, ?_⟩
    intro d hd
    rw [l2 d (by simpa using hd), get_set, keyCount_cons]
    by_cases e1 : kN x = d
    · subst e1
      simp [hlt]; omega
    · simp [e1]

theorem prefixSums_spec (kN : Int → Nat) (arr : List Int) :
    ∀ (cnt i : Nat) (c : List Int), 1 ≤ i → i + cnt = c.length →
    (∀ d, d < i → get c d = (cumCount kN arr (d + 1) : Int)) →
    (∀ d, i ≤ d → d < c.length → get c d = (keyCount kN arr d : Int)) →
    (prefixSums cnt i c).length = c.length ∧
    ∀ d, d < c.length → get (prefixSums cnt i c) d = (cumCount kN arr (d + 1) : Int) := by
  intro cnt
  induction cnt with
  | zero =>
    intro i c _ hi h1 _
    simp only [prefixSums]
    exact ⟨trivial, fun d hd => h1 d (by omega)⟩
  | succ cnt ih =>
    intro i c hi1 hi h1 h2
    rw [prefixSums]
    obtain ⟨r1, r2⟩ := ih (i + 1) (c.set i (get c i + get c (i - 1))) (by omega)
      (by simp; omega)
      (by
        intro d hd
        rw [get_set]
        by_cases e : i = d
        · subst e
          rw [if_pos ⟨rfl, by omega⟩, h2 i (le_refl _) (by omega), h1 (i - 1) (by omega)]
          have : i - 1 + 1 = i := by omega
          rw [this, cumCount_succ kN arr i]
          push_cast; ring
        · rw [if_neg (fun h => e h.1)]; exact h1 d (by omega))
      (by
        intro d hd1 hd2
        rw [get_set, if_neg (by omega)]
        exact h2 d (by omega) (by simpa using hd2))
    refine ⟨by simpa using r1, ?_⟩
    intro d hd
    exact r2 d (by simpa using hd)

theorem keyCount_le_of_split (kN : Int → Nat) (arr rest done : List Int)
    (h : rest.reverse ++ done = arr) (d : Nat) :
    keyCount kN arr d = keyCount kN rest d + keyCount kN done d := by
  rw [← h, keyCount_append, keyCount_reverse]

theorem placeByKey_spec (key : Int → Except Fault Int) (kN : Int → Nat) (K : Nat)
    (arr : List Int) (hkey : ∀ x ∈ arr, key x = .ok (kN x : Int) ∧ kN x < K) :
    ∀ (rest done c o : List Int), rest.reverse ++ done = arr → c.length = K →
    o.length = arr.length →
    (∀ d, d < K → get c d = ((cumCount kN arr d + keyCount kN rest d : Nat) : Int)) →
    (∀ d t, d < K → t < keyCount kN done d →
      get o (cumCount kN arr d + keyCount kN rest d + t) =
        get (done.filter fun x => decide (kN x = d)) t) →
    ∃ o2, placeByKey key rest c o = .ok o2 ∧ o2.length = arr.length ∧
      ∀ d t, d < K → t < keyCount kN arr d →
        get o2 (cumCount kN arr d + t) = get (arr.filter fun x => decide (kN x = d)) t := by
  intro rest
  induction rest with
  | nil =>
    intro done c o hsplit _ hlo _ hout
    simp only [List.reverse_nil, List.nil_append] at hsplit
    subst hsplit
    refine ⟨o, rfl, hlo, ?_⟩
    intro d t hd ht
    have := hout d t hd ht
    simpa [keyCount] using this
  | cons x rest ih =>
    intro done c o hsplit hlc hlo hc hout
    have hx : x ∈ arr := by
      rw [← hsplit]; simp
    obtain ⟨hk, hlt⟩ := hkey x hx
    -- the slot `x` goes to
    have hcx := hc (kN x) hlt
    rw [keyCount_cons, if_pos rfl] at hcx
    have hsp := keyCount_le_of_split kN arr (x :: rest) done hsplit (kN x)
    rw [keyCount_cons, if_pos rfl] at hsp
    have htop : cumCount kN arr (kN x + 1) ≤ arr.length := by
      have := cumCount_mono kN arr (kN x + 1) K (by omega)
      rw [cumCount_top kN arr K (fun y hy => (hkey y hy).2)] at this
      exact this
    have hsucc := cumCount_succ kN arr (kN x)
    have hp : cumCount kN arr (kN x) + keyCount kN rest (kN x) < o.length := by omega
    rw [placeByKey, hk]
    simp only
    rw [tableGet_ok c _ (by omega), hcx]
    simp only
    have e1 : (((cumCount kN arr (kN x) + (keyCount kN rest (kN x) + 1) : Nat) : Int) - 1)
        = ((cumCount kN arr (kN x) + keyCount kN rest (kN x) : Nat) : Int) := by
      push_cast; ring
    rw [e1, tableSet_ok o _ _ hp]
    simp only
    rw [tableSet_ok c _ _ (by omega)]
    simp only
    apply ih (x :: done)
      (c.set (kN x) ((cumCount kN arr (kN x) + keyCount kN rest (kN x) : Nat) : Int))
      (o.set (cumCount kN arr (kN x) + keyCount kN rest (kN x)) x)
    · rw [← hsplit]; simp
    · simpa using hlc
    · simpa using hlo
    · intro d hd
      rw [get_set]
      by_cases e : kN x = d
      · subst e; rw [if_pos ⟨rfl, by omega⟩]
      · rw [if_neg (fun h => e h.1), hc d hd, keyCount_cons, if_neg e]; simp
    · intro d t hd ht
      rw [get_set]
      by_cases e : kN x = d
      · subst e
        have hf : (x :: done).filter (fun y => decide (kN y = kN x)) =
            x :: done.filter (fun y => decide (kN y = kN x)) := by
          simp [List.filter_cons]
        rw [hf]
        cases t with
        | zero => rw [if_pos ⟨by omega, hp⟩]; simp [get]
        | succ t =>
          rw [if_neg (by omega)]
          rw [keyCount_cons, if_pos rfl] at ht
          have := hout (kN x) t hd (by omega)
          rw [keyCount_cons, if_pos rfl] at this
          have e2 : cumCount kN arr (kN x) + keyCount kN rest (kN x) + (t + 1) =
              cumCount kN arr (kN x) + (keyCount kN rest (kN x) + 1) + t := by omega
          rw [e2, this]
          simp [get]
      · have hf : (x :: done).filter (fun y => decide (kN y = d)) =
            done.filter (fun y => decide (kN y = d)) := by
          simp [List.filter_cons, e]
        rw [hf]
        rw [keyCount_cons, if_neg e] at ht
        have hq := hout d t hd (by omega)
        rw [keyCount_cons, if_neg e] at hq
        simp only [Nat.add_zero] at hq
        have hspd := keyCount_le_of_split kN arr (x :: rest) done hsplit d
        rw [keyCount_cons, if_neg e] at hspd
        have hsd := cumCount_succ kN arr d
        have hne : ¬ (cumCount kN arr (kN x) + keyCount kN rest (kN x) =
            cumCount kN arr d + keyCount kN rest d + t ∧
            cumCount kN arr (kN x) + keyCount kN rest (kN x) < o.length) := by
          intro hh
          have heq := hh.1
          rcases Nat.lt_or_gt_of_ne e with hlt2 | hgt2
          · have := cumCount_mono kN arr (kN x + 1) d (by omega)
            omega
          · have := cumCount_mono kN arr (d + 1) (kN x) (by omega)
            omega
        rw [if_neg hne]
        exact hq

theorem groupByKey_succ (kN : Int → Nat) (K : Nat) (arr : List Int) :
    groupByKey kN (K + 1) arr =
      groupByKey kN K arr ++ arr.filter (fun x => decide (kN x = K)) := by
  unfold groupByKey
  rw [List.range_succ, List.flatMap_append]
  simp

theorem length_filter_key (kN : Int → Nat) (arr : List Int) (d : Nat) :
    (arr.filter fun x => decide (kN x = d)).length = keyCount kN arr d := by
  unfold keyCount
  rw [List.countP_eq_length_filter]

/-- A vector that holds, for every key, the elements with that key in input
order from position `cumCount` on is the input grouped by key. -/
theorem eq_groupByKey (kN : Int → Nat) (K : Nat) (arr o : List Int)
    (hk : ∀ x ∈ arr, kN x < K) (hlen : o.length = arr.length)
    (h : ∀ d t, d < K → t < keyCount kN arr d →
      get o (cumCount kN arr d + t) = get (arr.filter fun x => decide (kN x = d)) t) :
    o = groupByKey kN K arr := by
  have key : ∀ K2, K2 ≤ K → o.take (cumCount kN arr K2) = groupByKey kN K2 arr := by
    intro K2
    induction K2 with
    | zero => intro _; simp [cumCount_zero, groupByKey]
    | succ K2 ih =>
      intro hK2
      have htop : cumCount kN arr (K2 + 1) ≤ arr.length := by
        have := cumCount_mono kN arr (K2 + 1) K hK2
        rw [cumCount_top kN arr K hk] at this
        exact this
      rw [cumCount_succ, List.take_add, ih (by omega), groupByKey_succ]
      congr 1
      have hs := cumCount_succ kN arr K2
      apply ext_get
      · rw [List.length_take, List.length_drop, length_filter_key]; omega
      · intro j hj
        rw [List.length_take, List.length_drop] at hj
        rw [get_take _ _ _ (by omega), get_drop]
        exact h K2 j (by omega) (by omega)
  have := key K (le_refl _)
  rw [cumCount_top kN arr K hk, ← hlen, List.take_length] at this
  exact this

theorem groupByKey_perm (kN : Int → Nat) (arr : List Int) :
    ∀ K, (groupByKey kN K arr).Perm (arr.filter fun x => decide (kN x < K)) := by
  intro K
  induction K with
  | zero => simp [groupByKey]
  | succ K ih =>
    rw [groupByKey_succ]
    have h2 : (arr.filter (fun x => decide (kN x < K)) ++
        arr.filter (fun x => decide (kN x = K))).Perm
        (arr.filter fun x => decide (kN x < K + 1)) := by
      clear ih
      induction arr with
      | nil => simp
      | cons x xs ih2 =>
        by_cases h1 : kN x < K
        · have a : kN x < K + 1 := by omega
          have b : ¬ kN x = K := by omega
          simp only [List.filter_cons, h1, a, b, decide_True, decide_False, if_true]
          simpa using ih2
        · by_cases h3 : kN x = K
          · have a : kN x < K + 1 := by omega
            have e1 : List.filter (fun y => decide (kN y < K)) (x :: xs) =
                List.filter (fun y => decide (kN y < K)) xs := by
              simp [List.filter_cons, h1]
            have e2 : List.filter (fun y => decide (kN y = K)) (x :: xs) =
                x :: List.filter (fun y => decide (kN y = K)) xs := by
              simp [List.filter_cons, h3]
            have e3 : List.filter (fun y => decide (kN y < K + 1)) (x :: xs) =
                x :: List.filter (fun y => decide (kN y < K + 1)) xs := by
              simp [List.filter_cons, a]
            rw [e1, e2, e3]
            exact (List.perm_middle).trans (ih2.cons _)
          · have a : ¬ kN x < K + 1 := by omega
            simp only [List.filter_cons, h1, a, h3, decide_False]
            simpa using ih2
    exact (ih.append_right _).trans h2

theorem groupByKey_perm_self (kN : Int → Nat) (K : Nat) (arr : List Int)
    (hk : ∀ x ∈ arr, kN x < K) : (groupByKey kN K arr).Perm arr := by
  have := groupByKey_perm kN arr K
  have e : arr.filter (fun x => decide (kN x < K)) = arr := by
    rw [List.filter_eq_self]
    intro x hx
    simpa using hk x hx
  rwa [e] at this

theorem mem_groupByKey (kN : Int → Nat) (K : Nat) (arr : List Int) (x : Int)
    (hx : x ∈ groupByKey kN K arr) : x ∈ arr ∧ kN x < K := by
  have := (groupByKey_perm kN arr K).mem_iff.1 hx
  simpa using this

/-- Grouping by key is a stable sort by key: a relation that holds between
elements in input order with equal keys, and between elements with increasing
keys, holds pairwise in the grouped list. -/
theorem groupByKey_pairwise (kN : Int → Nat) (arr : List Int) (R S : Int → Int → Prop)
    (hS : List.Pairwise S arr)
    (hsame : ∀ x y, x ∈ arr → y ∈ arr → kN x = kN y → S x y → R x y)
    (hless : ∀ x y, x ∈ arr → y ∈ arr → kN x < kN y → R x y) :
    ∀ K, List.Pairwise R (groupByKey kN K arr) := by
  intro K
  induction K with
  | zero => simp [groupByKey]
  | succ K ih =>
    rw [groupByKey_succ, List.pairwise_append]
    refine ⟨ih, ?_, ?_⟩
    · have hsub : List.Pairwise S (arr.filter fun x => decide (kN x = K)) :=
        hS.sublist (List.filter_sublist _)
      refine hsub.imp_of_mem ?_
      intro a b ha hb hab
      rw [List.mem_filter] at ha hb
      have ea : kN a = K := by simpa using ha.2
      have eb : kN b = K := by simpa using hb.2
      exact hsame a b ha.1 hb.1 (by omega) hab
    · intro a ha b hb
      have ha2 := mem_groupByKey kN K arr a ha
      rw [List.mem_filter] at hb
      have eb : kN b = K := by simpa using hb.2
      exact hless a b ha2.1 hb.1 (by omega)

/-- The three loops of a stable counting sort, run with a table of `K ≥ 1`
entries on an input whose keys all lie in `[0, K)`, return the input grouped
by key. -/
theorem stableCounting_spec (key : Int → Except Fault Int) (kN : Int → Nat) (K : Nat)
    (arr : List Int) (hK : 1 ≤ K) (hkey : ∀ x ∈ arr, key x = .ok (kN x : Int) ∧ kN x < K) :
    ∃ count1, countKeys key arr (List.replicate K 0) = .ok count1 ∧
      placeByKey key arr.reverse (prefixSums (K - 1) 1 count1)
        (List.replicate arr.length 0) = .ok (groupByKey kN K arr) := by
  obtain ⟨c1, e1, l1, g1⟩ := countKeys_spec key kN arr (List.replicate K 0)
    (fun x hx => by simpa using hkey x hx)
  simp only [List.length_replicate] at l1 g1
  have g1' : ∀ d, d < K → get c1 d = (keyCount kN arr d : Int) := by
    intro d hd
    rw [g1 d hd]
    simp [get, List.getD_eq_getElem?_getD, hd]
  obtain ⟨l2, g2⟩ := prefixSums_spec kN arr (K - 1) 1 c1 (le_refl _) (by omega)
    (fun d hd => by
      have : d = 0 := by omega
      subst this
      rw [g1' 0 (by omega), cumCount_succ, cumCount_zero]; simp)
    (fun d _ hd => g1' d (by omega))
  obtain ⟨o2, e3, l3, g3⟩ := placeByKey_spec key kN K arr hkey arr.reverse []
    (prefixSums (K - 1) 1 c1) (List.replicate arr.length 0) (by simp) (by omega) (by simp)
    (fun d hd => by
      rw [g2 d (by omega), cumCount_succ, keyCount_reverse])
    (fun d t _ ht => by simp [keyCount] at ht)
  refine ⟨c1, e1, ?_⟩
  rw [e3]
  congr 1
  exact eq_groupByKey kN K arr o2 (fun x hx => (hkey x hx).2) l3 g3

/-! ## Minimum, maximum and 32-bit arithmetic -/

theorem foldl_max_spec : ∀ (xs : List Int) (a : Int),
    a ≤ xs.foldl max a ∧ (∀ y ∈ xs, y ≤ xs.foldl max a) ∧ (xs.foldl max a ∈ a :: xs) := by
  intro xs
  induction xs with
  | nil => intro a; simp
  | cons x xs ih =>
    intro a
    obtain ⟨h1, h2, h3⟩ := ih (max a x)
    simp only [List.foldl_cons]
    refine ⟨le_trans (le_max_left a x) h1, ?_, ?_⟩
    · intro y hy
      rcases List.mem_cons.1 hy with e | hy
      · rw [e]; exact le_trans (le_max_right a x) h1
      · exact h2 y hy
    · rcases List.mem_cons.1 h3 with e | h
      · rw [e]
        rcases max_choice a x with m | m
        · rw [m]; simp
        · rw [m]; simp
      · simp [h]

theorem foldl_min_spec : ∀ (xs : List Int) (a : Int),
    xs.foldl min a ≤ a ∧ (∀ y ∈ xs, xs.foldl min a ≤ y) ∧ (xs.foldl min a ∈ a :: xs) := by
  intro xs
  induction xs with
  | nil => intro a; simp
  | cons x xs ih =>
    intro a
    obtain ⟨h1, h2, h3⟩ := ih (min a x)
    simp only [List.foldl_cons]
    refine ⟨le_trans h1 (min_le_left a x), ?_, ?_⟩
    · intro y hy
      rcases List.mem_cons.1 hy with e | hy
      · rw [e]; exact le_trans h1 (min_le_right a x)
      · exact h2 y hy
    · rcases List.mem_cons.1 h3 with e | h
      · rw [e]
        rcases min_choice a x with m | m
        · rw [m]; simp
        · rw [m]; simp
      · simp [h]

theorem le_maxElement (arr : List Int) (x : Int) (hx : x ∈ arr) : x ≤ maxElement arr := by
  cases arr with
  | nil => simp at hx
  | cons a t =>
    obtain ⟨h1, h2, _⟩ := foldl_max_spec t a
    rcases List.mem_cons.1 hx with e | h
    · rw [e]; exact h1
    · exact h2 x h

theorem minElement_le (arr : List Int) (x : Int) (hx : x ∈ arr) : minElement arr ≤ x := by
  cases arr with
  | nil => simp at hx
  | cons a t =>
    obtain ⟨h1, h2, _⟩ := foldl_min_spec t a
    rcases List.mem_cons.1 hx with e | h
    · rw [e]; exact h1
    · exact h2 x h

theorem maxElement_mem (arr : List Int) (h : arr ≠ []) : maxElement arr ∈ arr := by
  cases arr with
  | nil => exact absurd rfl h
  | cons a t => exact (foldl_max_spec t a).2.2

theorem minElement_mem (arr : List Int) (h : arr ≠ []) : minElement arr ∈ arr := by
  cases arr with
  | nil => exact absurd rfl h
  | cons a t => exact (foldl_min_spec t a).2.2

theorem wrap32_of_inRange (x : Int) (h1 : -2147483648 ≤ x) (h2 : x ≤ 2147483647) :
    wrap32 x = x := by
  unfold wrap32
  omega

theorem intDiv_ok (a b : Int) (ha : 0 ≤ a) (hb : 0 < b) : intDiv a b = .ok (a / b) := by
  unfold intDiv
  rw [if_neg (by omega), Int.tdiv_eq_ediv ha (le_of_lt hb)]

/-! ## Radix sort -/

theorem digitOf_ok (exp x : Int) (hx : 0 ≤ x) (he : 0 < exp) :
    digitOf exp x = .ok (digitKey exp x : Int) ∧ digitKey exp x < 10 := by
  unfold digitOf digitKey
  rw [intDiv_ok x exp hx he]
  simp only
  have h1 : 0 ≤ x / exp := Int.ediv_nonneg hx (le_of_lt he)
  rw [Int.tmod_eq_emod h1 (by omega)]
  have h2 : 0 ≤ x / exp % 10 := Int.emod_nonneg _ (by omega)
  have h3 : x / exp % 10 < 10 := Int.emod_lt_of_pos _ (by omega)
  refine ⟨?_, by omega⟩
  congr 1
  omega

theorem countingSortByDigit_eq (arr : List Int) (exp : Int) (hnn : ∀ x ∈ arr, 0 ≤ x)
    (he : 0 < exp) :
    countingSortByDigit arr exp = .ok (groupByKey (digitKey exp) 10 arr) := by
  unfold countingSortByDigit
  simp only
  obtain ⟨c1, e1, e2⟩ := stableCounting_spec (digitOf exp) (digitKey exp) 10 arr (by omega)
    (fun x hx => digitOf_ok exp x (hnn x hx) he)
  rw [e1]
  simp only
  exact e2

theorem digitKey_pow (k : Nat) (x : Int) (hx : 0 ≤ x) :
    digitKey ((10 ^ k : Nat) : Int) x = x.toNat / 10 ^ k % 10 := by
  unfold digitKey
  obtain ⟨n, rfl⟩ := Int.eq_ofNat_of_zero_le hx
  have : ((n : Int) / ((10 ^ k : Nat) : Int)) % 10 = ((n / 10 ^ k % 10 : Nat) : Int) := by
    norm_cast
  rw [this, Int.toNat_ofNat, Int.toNat_ofNat]

/-- One pass of least-significant-digit radix sort: a vector ordered by its
last `k` decimal digits is, after a stable pass on digit `k`, ordered by its
last `k + 1` digits. -/
theorem lsd_step (k : Nat) (arr : List Int) (hnn : ∀ x ∈ arr, 0 ≤ x)
    (h : List.Pairwise (fun x y : Int => x.toNat % 10 ^ k ≤ y.toNat % 10 ^ k) arr) :
    List.Pairwise (fun x y : Int => x.toNat % 10 ^ (k + 1) ≤ y.toNat % 10 ^ (k + 1))
      (groupByKey (digitKey ((10 ^ k : Nat) : Int)) 10 arr) := by
  apply groupByKey_pairwise _ arr _ _ h
  · intro x y hx hy hk hs
    rw [digitKey_pow k x (hnn x hx), digitKey_pow k y (hnn y hy)] at hk
    show x.toNat % 10 ^ (k + 1) ≤ y.toNat % 10 ^ (k + 1)
    rw [Nat.mod_pow_succ, Nat.mod_pow_succ, hk]
    omega
  · intro x y hx hy hk
    rw [digitKey_pow k x (hnn x hx), digitKey_pow k y (hnn y hy)] at hk
    show x.toNat % 10 ^ (k + 1) ≤ y.toNat % 10 ^ (k + 1)
    rw [Nat.mod_pow_succ, Nat.mod_pow_succ]
    have h1 : x.toNat % 10 ^ k < 10 ^ k := Nat.mod_lt _ (by positivity)
    have h2 : 10 ^ k * (x.toNat / 10 ^ k % 10 + 1) ≤ 10 ^ k * (y.toNat / 10 ^ k % 10) :=
      Nat.mul_le_mul_left _ hk
    rw [Nat.mul_add, Nat.mul_one] at h2
    omega

theorem sorted_of_lsd (k : Nat) (arr : List Int)
    (hsmall : ∀ x ∈ arr, 0 ≤ x ∧ x.toNat < 10 ^ k)
    (h : List.Pairwise (fun x y : Int => x.toNat % 10 ^ k ≤ y.toNat % 10 ^ k) arr) :
    List.Sorted (· ≤ ·) arr := by
  refine h.imp_of_mem ?_
  intro a b ha hb hab
  have h1 := hsmall a ha
  have h2 := hsmall b hb
  rw [Nat.mod_eq_of_lt h1.2, Nat.mod_eq_of_lt h2.2] at hab
  omega

theorem pow10_bound (k : Nat) (hk : k ≤ 9) :
    0 < ((10 ^ k : Nat) : Int) ∧ ((10 ^ k : Nat) : Int) ≤ 1000000000 := by
  have h1 : 10 ^ k ≤ 10 ^ 9 := Nat.pow_le_pow_right (by omega) hk
  have h2 : (10 : Nat) ^ 9 = 1000000000 := by norm_num
  have h3 : 0 < 10 ^ k := Nat.pow_pos (by omega)
  omega

theorem pow10_succ (k : Nat) : ((10 ^ k : Nat) : Int) * 10 = ((10 ^ (k + 1) : Nat) : Int) := by
  rw [pow_succ]; push_cast; ring

/-- The loop of `radixSort` entered with `exp = 10^k` on a vector that is ordered
by its lowest `k` digits: with the maximum below `10^9` the loop ends after at
most `10 - k` evaluations of its condition, `exp` never leaves the range of
`int`, and the result is the sorted permutation. -/
theorem radixLoop_spec (maxVal : Int) (hM0 : 0 ≤ maxVal) (hM : maxVal ≤ 999999999) :
    ∀ (j k : Nat), k + j = 9 → ∀ (arr : List Int), (∀ x ∈ arr, 0 ≤ x ∧ x ≤ maxVal) →
    List.Pairwise (fun x y : Int => x.toNat % 10 ^ k ≤ y.toNat % 10 ^ k) arr →
    ∃ out, (∀ fuel, j + 1 ≤ fuel →
        radixLoop maxVal fuel ((10 ^ k : Nat) : Int) arr = .ok out) ∧
      List.Sorted (· ≤ ·) out ∧ out.Perm arr := by
  intro j
  induction j with
  | zero =>
    intro k hk arr hr hP
    have hk9 : k = 9 := by omega
    subst hk9
    obtain ⟨hpos, hle⟩ := pow10_bound 9 (le_refl _)
    have e9 : (((10 : Nat) ^ 9 : Nat) : Int) = 1000000000 := by norm_num
    refine ⟨arr, ?_, ?_, List.Perm.refl _⟩
    · intro fuel hf
      obtain ⟨f, rfl⟩ : ∃ f, fuel = f + 1 := ⟨fuel - 1, by omega⟩
      rw [radixLoop, intDiv_ok maxVal _ hM0 hpos]
      simp only
      have hq : ¬ maxVal / ((10 ^ 9 : Nat) : Int) > 0 := by
        rw [e9]; omega
      rw [if_neg hq]
    · apply sorted_of_lsd 9 arr _ hP
      intro x hx
      have hx2 := hr x hx
      have e : (10 : Nat) ^ 9 = 1000000000 := by norm_num
      refine ⟨hx2.1, ?_⟩
      omega
  | succ j ih =>
    intro k hk arr hr hP
    obtain ⟨hpos, hle⟩ := pow10_bound k (by omega)
    obtain ⟨_, hle2⟩ := pow10_bound (k + 1) (by omega)
    have hnn : ∀ x ∈ arr, 0 ≤ x := fun x hx => (hr x hx).1
    by_cases hq : maxVal / ((10 ^ k : Nat) : Int) > 0
    · -- another pass
      have hperm := groupByKey_perm_self (digitKey ((10 ^ k : Nat) : Int)) 10 arr
        (fun x hx => (digitOf_ok _ x (hnn x hx) hpos).2)
      have hr2 : ∀ x ∈ groupByKey (digitKey ((10 ^ k : Nat) : Int)) 10 arr,
          0 ≤ x ∧ x ≤ maxVal :=
        fun x hx => hr x (hperm.mem_iff.1 hx)
      have hP2 : List.Pairwise
          (fun x y : Int => x.toNat % 10 ^ (k + 1) ≤ y.toNat % 10 ^ (k + 1))
          (groupByKey (digitKey ((10 ^ k : Nat) : Int)) 10 arr) := lsd_step k arr hnn hP
      obtain ⟨out, ho, hs, hp⟩ := ih (k + 1) (by omega) _ hr2 hP2
      refine ⟨out, ?_, hs, hp.trans hperm⟩
      intro fuel hf
      obtain ⟨f, rfl⟩ : ∃ f, fuel = f + 1 := ⟨fuel - 1, by omega⟩
      rw [radixLoop, intDiv_ok maxVal _ hM0 hpos]
      simp only
      rw [if_pos hq, countingSortByDigit_eq arr _ hnn hpos]
      simp only
      rw [pow10_succ, if_neg (by omega)]
      exact ho f (by omega)
    · -- the loop ends here
      refine ⟨arr, ?_, ?_, List.Perm.refl _⟩
      · intro fuel hf
        obtain ⟨f, rfl⟩ : ∃ f, fuel = f + 1 := ⟨fuel - 1, by omega⟩
        rw [radixLoop, intDiv_ok maxVal _ hM0 hpos]
        simp only
        rw [if_neg hq]
      · have hlt : maxVal < ((10 ^ k : Nat) : Int) := by
          by_contra hc
          have : 1 ≤ maxVal / ((10 ^ k : Nat) : Int) := by
            rw [Int.le_ediv_iff_mul_le hpos]
            omega
          omega
        apply sorted_of_lsd k arr _ hP
        intro x hx
        have hx2 := hr x hx
        refine ⟨hx2.1, ?_⟩
        have : x < ((10 ^ k : Nat) : Int) := by omega
        omega

/-- With a maximum of `10^9` or more the loop of `radixSort`, entered with
`exp = 10^k`, sorts by each of the digits `k, …, 9` and then overflows in
`exp *= 10`. -/
theorem radixLoop_overflow (maxVal : Int) (hM : 1000000000 ≤ maxVal) :
    ∀ (j k : Nat), k + j = 9 → ∀ (arr : List Int), (∀ x ∈ arr, 0 ≤ x) →
    ∀ fuel, j + 1 ≤ fuel →
      radixLoop maxVal fuel ((10 ^ k : Nat) : Int) arr = .error .overflow := by
  intro j
  induction j with
  | zero =>
    intro k hk arr hnn fuel hf
    have hk9 : k = 9 := by omega
    subst hk9
    obtain ⟨hpos, _⟩ := pow10_bound 9 (le_refl _)
    have e9 : (((10 : Nat) ^ 9 : Nat) : Int) = 1000000000 := by norm_num
    obtain ⟨f, rfl⟩ : ∃ f, fuel = f + 1 := ⟨fuel - 1, by omega⟩
    rw [radixLoop, intDiv_ok maxVal _ (by omega) hpos]
    simp only
    have hq : maxVal / ((10 ^ 9 : Nat) : Int) > 0 := by
      have : 1 ≤ maxVal / ((10 ^ 9 : Nat) : Int) := by
        rw [Int.le_ediv_iff_mul_le hpos, e9]
        omega
      omega
    rw [if_pos hq, countingSortByDigit_eq arr _ hnn hpos]
    simp only
    rw [e9, if_pos (by omega)]
  | succ j ih =>
    intro k hk arr hnn fuel hf
    obtain ⟨hpos, hle⟩ := pow10_bound k (by omega)
    obtain ⟨_, hle2⟩ := pow10_bound (k + 1) (by omega)
    obtain ⟨f, rfl⟩ : ∃ f, fuel = f + 1 := ⟨fuel - 1, by omega⟩
    have hperm := groupByKey_perm_self (digitKey ((10 ^ k : Nat) : Int)) 10 arr
      (fun x hx => (digitOf_ok _ x (hnn x hx) hpos).2)
    rw [radixLoop, intDiv_ok maxVal _ (by omega) hpos]
    simp only
    have hq : maxVal / ((10 ^ k : Nat) : Int) > 0 := by
      have : 1 ≤ maxVal / ((10 ^ k : Nat) : Int) := by
        rw [Int.le_ediv_iff_mul_le hpos]
        omega
      omega
    rw [if_pos hq, countingSortByDigit_eq arr _ hnn hpos]
    simp only
    rw [pow10_succ, if_neg (by omega)]
    exact ih (k + 1) (by omega) _ (fun x hx => hnn x (hperm.mem_iff.1 hx)) f (by omega)

theorem radixSort_overflow (arr : List Int) (hnn : ∀ x ∈ arr, 0 ≤ x)
    (hmax : 1000000000 ≤ maxElement arr) :
    ∀ fuel, 10 ≤ fuel → radixSort fuel arr = .error .overflow := by
  intro fuel hf
  have hne : arr.isEmpty = false := by
    cases arr with
    | nil => simp [maxElement] at hmax
    | cons a t => rfl
  unfold radixSort
  simp only [hne, Bool.false_eq_true, if_false]
  have := radixLoop_overflow (getMax arr) hmax 9 0 (by omega) arr hnn fuel (by omega)
  simpa using this

theorem sorted_groupByKey_of_mono (kN : Int → Nat) (K : Nat) (arr : List Int)
    (hmono : ∀ x y, x ∈ arr → y ∈ arr → kN x < kN y → x ≤ y)
    (hsame : ∀ x y, x ∈ arr → y ∈ arr → kN x = kN y → x = y) :
    List.Sorted (· ≤ ·) (groupByKey kN K arr) := by
  have hT : List.Pairwise (fun _ _ : Int => True) arr := by
    simp [List.pairwise_iff_getElem]
  exact groupByKey_pairwise kN arr (· ≤ ·) (fun _ _ => True) hT
    (fun x y hx hy e _ => le_of_eq (hsame x y hx hy e)) hmono K

theorem countingSortStable_ok (arr : List Int)
    (hspread : maxElement arr - minElement arr ≤ 2147483646) :
    ∃ out, countingSortStable arr = .ok out ∧ out.length = arr.length ∧
      List.Sorted (· ≤ ·) out ∧ out.Perm arr := by
  unfold countingSortStable
  cases harr : arr with
  | nil => exact ⟨[], by simp, rfl, by simp, List.Perm.refl _⟩
  | cons a t =>
    rw [← harr]
    have hne : arr ≠ [] := by rw [harr]; simp
    have hemp : arr.isEmpty = false := by rw [harr]; rfl
    have hmm : minElement arr ≤ maxElement arr :=
      minElement_le arr _ (maxElement_mem arr hne)
    have w1 : wrap32 (maxElement arr - minElement arr) = maxElement arr - minElement arr :=
      wrap32_of_inRange _ (by omega) (by omega)
    have w2 : wrap32 (maxElement arr - minElement arr + 1) =
        maxElement arr - minElement arr + 1 := wrap32_of_inRange _ (by omega) (by omega)
    simp only [hemp, Bool.false_eq_true, if_false, w1, w2]
    rw [if_neg (by omega)]
    have hkey : ∀ x ∈ arr,
        (fun num => (Except.ok (wrap32 (num - minElement arr)) : Except Fault Int)) x =
          .ok (((x - minElement arr).toNat : Nat) : Int) ∧
        (x - minElement arr).toNat < (maxElement arr - minElement arr + 1).toNat := by
      intro x hx
      have h1 := minElement_le arr x hx
      have h2 := le_maxElement arr x hx
      have w3 : wrap32 (x - minElement arr) = x - minElement arr :=
        wrap32_of_inRange _ (by omega) (by omega)
      simp only [w3]
      refine ⟨?_, by omega⟩
      congr 1
      omega
    obtain ⟨c1, e1, e2⟩ := stableCounting_spec _ (fun x => (x - minElement arr).toNat)
      (maxElement arr - minElement arr + 1).toNat arr (by omega) hkey
    rw [e1]
    simp only
    refine ⟨_, e2, ?_, ?_, ?_⟩
    · exact (groupByKey_perm_self _ _ arr (fun x hx => (hkey x hx).2)).length_eq
    · apply sorted_groupByKey_of_mono
      · intro x y hx hy h
        have := minElement_le arr x hx
        have := minElement_le arr y hy
        omega
      · intro x y hx hy h
        have := minElement_le arr x hx
        have := minElement_le arr y hy
        omega
    · exact groupByKey_perm_self _ _ arr (fun x hx => (hkey x hx).2)

theorem emitValue_eq (v : Int) : ∀ (c : Nat) (pre seg post : List Int) (index : Nat),
    index = pre.length → seg.length = c →
    emitValue v c (pre ++ seg ++ post) index =
      (pre ++ List.replicate c v ++ post, index + c) := by
  intro c
  induction c with
  | zero =>
    intro pre seg post index _ hs
    have : seg = [] := List.length_eq_zero.1 hs
    subst this
    simp [emitValue]
  | succ c ih =>
    intro pre seg post index hi hs
    cases seg with
    | nil => simp at hs
    | cons s seg =>
      subst hi
      rw [emitValue, set_middle, ih (pre ++ [v]) seg post _ (by simp) (by simpa using hs)]
      simp [List.replicate_succ]
      omega

theorem rebuildLoop_eq (count : List Int) (f : Nat → Nat) :
    ∀ (m i : Nat) (pre seg post : List Int) (index : Nat),
    (∀ j, i ≤ j → j < i + m → (get count j).toNat = f j) →
    index = pre.length →
    seg.length = ((List.range' i m).flatMap fun j => List.replicate (f j) (j : Int)).length →
    rebuildLoop m i count (pre ++ seg ++ post) index =
      pre ++ ((List.range' i m).flatMap fun j => List.replicate (f j) (j : Int)) ++ post := by
  intro m
  induction m with
  | zero =>
    intro i pre seg post index _ _ hs
    have : seg = [] := List.length_eq_zero.1 (by simpa using hs)
    subst this
    simp [rebuildLoop]
  | succ m ih =>
    intro i pre seg post index hf hi hs
    rw [List.range'_succ, List.flatMap_cons, List.length_append, List.length_replicate] at hs
    rw [rebuildLoop, hf i (le_refl _) (by omega)]
    have hsplit : seg = seg.take (f i) ++ seg.drop (f i) := (List.take_append_drop _ _).symm
    have l1 : (seg.take (f i)).length = f i := by rw [List.length_take]; omega
    have l2 : (seg.drop (f i)).length =
        ((List.range' (i + 1) m).flatMap fun j => List.replicate (f j) (j : Int)).length := by
      rw [List.length_drop]; omega
    generalize seg.take (f i) = s1 at hsplit l1
    generalize seg.drop (f i) = s2 at hsplit l2
    subst hsplit
    have e := emitValue_eq (i : Int) (f i) pre s1 (s2 ++ post) index hi l1
    have e' : emitValue (i : Int) (f i) (pre ++ (s1 ++ s2) ++ post) index =
        (pre ++ List.replicate (f i) (i : Int) ++ (s2 ++ post), index + f i) := by
      simpa [List.append_assoc] using e
    rw [e']
    simp only
    have := ih (i + 1) (pre ++ List.replicate (f i) (i : Int)) s2 post (index + f i)
      (fun j h1 h2 => hf j (by omega) (by omega)) (by simp [hi]) l2
    rw [List.range'_succ, List.flatMap_cons]
    simpa [List.append_assoc] using this

theorem filter_toNat_eq (arr : List Int) (h : ∀ x ∈ arr, 0 ≤ x) (d : Nat) :
    (arr.filter fun x => decide (x.toNat = d)) =
      List.replicate (keyCount Int.toNat arr d) (d : Int) := by
  rw [List.eq_replicate_iff]
  refine ⟨length_filter_key Int.toNat arr d, ?_⟩
  intro b hb
  rw [List.mem_filter] at hb
  have h1 := h b hb.1
  have h2 : b.toNat = d := by simpa using hb.2
  omega

theorem keyCount_toNat_eq_count (arr : List Int) (h : ∀ x ∈ arr, 0 ≤ x) (d : Nat) :
    keyCount Int.toNat arr d = arr.count (d : Int) := by
  unfold keyCount
  rw [List.count_eq_countP]
  apply List.countP_congr
  intro x hx
  have := h x hx
  simp only [decide_eq_true_eq, beq_iff_eq]
  omega

theorem groupByKey_toNat (arr : List Int) (h : ∀ x ∈ arr, 0 ≤ x) (K : Nat) :
    groupByKey Int.toNat K arr =
      (List.range K).flatMap fun v => List.replicate (arr.count (v : Int)) (v : Int) := by
  unfold groupByKey
  congr 1
  funext d
  rw [filter_toNat_eq arr h d, keyCount_toNat_eq_count arr h d]

theorem distribute_spec (minVal W : Int) (n : Nat) (hW : 0 < W) :
    ∀ (l : List Int) (buckets : List (List Int)), buckets.length = n →
    (∀ x ∈ l, 0 ≤ wrap32 (x - minVal) ∧ wrap32 (x - minVal) = x - minVal ∧
      bucketKey minVal W x < n) →
    ∃ bs, distribute minVal W l buckets = .ok bs ∧ bs.length = n ∧
      ∀ d, d < n → bs.getD d [] =
        buckets.getD d [] ++ l.filter fun x => decide (bucketKey minVal W x = d) := by
  intro l
  induction l with
  | nil => intro buckets hb _; exact ⟨buckets, rfl, hb, fun d _ => by simp⟩
  | cons x xs ih =>
    intro buckets hb h
    obtain ⟨h1, h2, h3⟩ := h x (List.mem_cons_self _ _)
    rw [distribute, intDiv_ok _ _ h1 hW]
    simp only
    rw [h2] at h1 ⊢
    have hq : 0 ≤ (x - minVal) / W := Int.ediv_nonneg h1 (le_of_lt hW)
    have hk : ((x - minVal) / W).toNat < buckets.length := by rw [hb]; exact h3
    rw [if_pos ⟨hq, by omega⟩]
    obtain ⟨bs, e, l1, g⟩ := ih
      (buckets.set ((x - minVal) / W).toNat
        (buckets.getD ((x - minVal) / W).toNat [] ++ [x]))
      (by simpa using hb) (fun y hy => h y (List.mem_cons_of_mem _ hy))
    refine ⟨bs, e, l1, ?_⟩
    intro d hd
    rw [g d hd]
    simp only [List.getD_eq_getElem?_getD, List.getElem?_set]
    by_cases e1 : ((x - minVal) / W).toNat = d
    · have e2 : bucketKey minVal W x = d := e1
      subst e1
      simp [hk, List.filter_cons, e2]
    · have e2 : ¬ bucketKey minVal W x = d := e1
      simp [e1, List.filter_cons, e2]

theorem writeBucket_eq : ∀ (vals pre seg post : List Int) (index : Nat),
    index = pre.length → seg.length = vals.length →
    writeBucket vals (pre ++ seg ++ post) index = (pre ++ vals ++ post, index + vals.length) := by
  intro vals
  induction vals with
  | nil =>
    intro pre seg post index _ hs
    have : seg = [] := List.length_eq_zero.1 hs
    subst this
    simp [writeBucket]
  | cons v vals ih =>
    intro pre seg post index hi hs
    cases seg with
    | nil => simp at hs
    | cons s seg =>
      subst hi
      rw [writeBucket, set_middle, ih (pre ++ [v]) seg post _ (by simp) (by simpa using hs)]
      simp
      omega

theorem length_stdSort (b : List Int) : (stdSort b).length = b.length :=
  (List.perm_insertionSort _ b).length_eq

theorem collectBuckets_eq : ∀ (bs : List (List Int)) (pre seg post : List Int) (index : Nat),
    index = pre.length → seg.length = (bs.flatMap stdSort).length →
    collectBuckets bs (pre ++ seg ++ post) index = pre ++ bs.flatMap stdSort ++ post := by
  intro bs
  induction bs with
  | nil =>
    intro pre seg post index _ hs
    have : seg = [] := List.length_eq_zero.1 (by simpa using hs)
    subst this
    simp [collectBuckets]
  | cons b bs ih =>
    intro pre seg post index hi hs
    rw [List.flatMap_cons, List.length_append] at hs
    rw [collectBuckets]
    have hsplit : seg = seg.take (stdSort b).length ++ seg.drop (stdSort b).length :=
      (List.take_append_drop _ _).symm
    have l1 : (seg.take (stdSort b).length).length = (stdSort b).length := by
      rw [List.length_take]; omega
    have l2 : (seg.drop (stdSort b).length).length = (bs.flatMap stdSort).length := by
      rw [List.length_drop]; omega
    generalize seg.take (stdSort b).length = s1 at hsplit l1
    generalize seg.drop (stdSort b).length = s2 at hsplit l2
    subst hsplit
    have e := writeBucket_eq (stdSort b) pre s1 (s2 ++ post) index hi l1
    have e' : writeBucket (stdSort b) (pre ++ (s1 ++ s2) ++ post) index =
        (pre ++ stdSort b ++ (s2 ++ post), index + (stdSort b).length) := by
      simpa [List.append_assoc] using e
    rw [e']
    simp only
    have := ih (pre ++ stdSort b) s2 post (index + (stdSort b).length) (by simp [hi]) l2
    rw [List.flatMap_cons]
    simpa [List.append_assoc] using this

/-- The buckets sorted one by one and concatenated. -/
theorem sortedGroups_perm (kN : Int → Nat) (K : Nat) (arr : List Int) :
    ((List.range K).flatMap fun d => stdSort (arr.filter fun x => decide (kN x = d))).Perm
      (groupByKey kN K arr) := by
  unfold groupByKey
  apply List.Perm.flatMap_left
  intro d _
  exact List.perm_insertionSort _ _

theorem sortedGroups_sorted (kN : Int → Nat) (arr : List Int)
    (hmono : ∀ x y, x ∈ arr → y ∈ arr → kN x < kN y → x ≤ y) :
    ∀ K, List.Sorted (· ≤ ·)
      ((List.range K).flatMap fun d => stdSort (arr.filter fun x => decide (kN x = d))) := by
  intro K
  induction K with
  | zero => simp
  | succ K ih =>
    rw [List.range_succ, List.flatMap_append]
    simp only [List.flatMap_cons, List.flatMap_nil, List.append_nil]
    unfold List.Sorted at ih ⊢
    rw [List.pairwise_append]
    refine ⟨ih, List.sorted_insertionSort _ _, ?_⟩
    intro a ha b hb
    have ha2 := mem_groupByKey kN K arr a ((sortedGroups_perm kN K arr).mem_iff.1 ha)
    have hb2 : b ∈ arr.filter fun x => decide (kN x = K) :=
      (List.perm_insertionSort _ _).mem_iff.1 hb
    rw [List.mem_filter] at hb2
    have eb : kN b = K := by simpa using hb2.2
    exact hmono a b ha2.1 hb2.1 (by omega)

/-- With the spread within `INT_MAX`, the distribution loop of `bucketSort` fills
bucket `d` with the elements of bucket index `d`, in input order, and the write-back
loop returns the concatenation of the sorted buckets, the sorted permutation. -/
theorem bucketSort_ok (arr : List Int) (hne : arr ≠ [])
    (hspread : maxElement arr - minElement arr ≤ 2147483647) :
    ∃ buckets out, fillBuckets arr = .ok buckets ∧ buckets.length = arr.length ∧
      (∀ d, d < arr.length →
        buckets.getD d [] = arr.filter fun x => decide (bucketIndex arr x = (d : Int))) ∧
      bucketSort arr = .ok out ∧ out = buckets.flatMap stdSort ∧
      List.Sorted (· ≤ ·) out ∧ out.Perm arr ∧
      ∀ x ∈ arr, 0 ≤ bucketIndex arr x ∧ bucketIndex arr x < arr.length := by
  unfold bucketIndex
  have hemp : arr.isEmpty = false := by
    cases arr with
    | nil => exact absurd rfl hne
    | cons a t => rfl
  have hn : 0 < arr.length := List.length_pos.2 hne
  have hmm : minElement arr ≤ maxElement arr := minElement_le arr _ (maxElement_mem arr hne)
  have w1 : wrap32 (maxElement arr - minElement arr) = maxElement arr - minElement arr :=
    wrap32_of_inRange _ (by omega) (by omega)
  have hq0 : 0 ≤ (maxElement arr - minElement arr) / (arr.length : Int) :=
    Int.ediv_nonneg (by omega) (by omega)
  -- the quotient is small: one bucket means spread 0, several buckets halve the spread
  have hq1 : (maxElement arr - minElement arr) / (arr.length : Int) ≤ 2147483646 := by
    by_cases h1 : arr.length = 1
    · have hall : ∀ x ∈ arr, x = arr.head hne := by
        cases arr with
        | nil => exact absurd rfl hne
        | cons a t =>
          have : t = [] := List.length_eq_zero.1 (by simpa using h1)
          subst this
          simp
      have e1 := hall _ (maxElement_mem arr hne)
      have e2 := hall _ (minElement_mem arr hne)
      rw [e1, e2, h1]
      simp
    · have h2 : (2 : Int) ≤ arr.length := by omega
      have : (maxElement arr - minElement arr) / (arr.length : Int) < 2147483647 := by
        apply Int.ediv_lt_of_lt_mul (by omega)
        nlinarith
      omega
  have w2 : wrap32 ((maxElement arr - minElement arr) / (arr.length : Int) + 1) =
      (maxElement arr - minElement arr) / (arr.length : Int) + 1 :=
    wrap32_of_inRange _ (by omega) (by omega)
  have hW : 0 < (maxElement arr - minElement arr) / (arr.length : Int) + 1 := by omega
  generalize hWdef : (maxElement arr - minElement arr) / (arr.length : Int) + 1 = W at w2 hW
  have hbig : maxElement arr - minElement arr < (arr.length : Int) * W := by
    have := Int.lt_ediv_add_one_mul_self (maxElement arr - minElement arr)
      (show (0 : Int) < (arr.length : Int) by omega)
    rw [hWdef] at this
    linarith
  have hidx : ∀ x ∈ arr, 0 ≤ (x - minElement arr) / W ∧
      (x - minElement arr) / W < arr.length := by
    intro x hx
    have a1 := minElement_le arr x hx
    have a2 := le_maxElement arr x hx
    refine ⟨Int.ediv_nonneg (by omega) (le_of_lt hW), ?_⟩
    apply Int.ediv_lt_of_lt_mul hW
    omega
  have hkey : ∀ x ∈ arr, 0 ≤ wrap32 (x - minElement arr) ∧
      wrap32 (x - minElement arr) = x - minElement arr ∧
      bucketKey (minElement arr) W x < arr.length := by
    intro x hx
    have a1 := minElement_le arr x hx
    have a2 := le_maxElement arr x hx
    have w3 : wrap32 (x - minElement arr) = x - minElement arr :=
      wrap32_of_inRange _ (by omega) (by omega)
    have := hidx x hx
    refine ⟨by omega, w3, ?_⟩
    unfold bucketKey
    omega
  obtain ⟨bs, e, l1, g⟩ := distribute_spec (minElement arr) W arr.length hW arr
    (List.replicate arr.length []) (by simp) hkey
  have hbs : bs = (List.range arr.length).map fun d =>
      arr.filter fun x => decide (bucketKey (minElement arr) W x = d) := by
    apply List.ext_getElem (by simp [l1])
    intro d h1 h2
    have := g d (by omega)
    rw [List.getD_eq_getElem _ _ h1] at this
    rw [this]
    simp [List.getD_eq_getElem?_getD]
  have hmono : ∀ x y, x ∈ arr → y ∈ arr →
      bucketKey (minElement arr) W x < bucketKey (minElement arr) W y → x ≤ y := by
    intro x y hx hy h
    by_contra hc
    have hyx : y ≤ x := by omega
    have := Int.ediv_le_ediv hW (show y - minElement arr ≤ x - minElement arr by omega)
    have := hidx x hx
    have := hidx y hy
    unfold bucketKey at h
    omega
  have hperm := (sortedGroups_perm (bucketKey (minElement arr) W) arr.length arr).trans
    (groupByKey_perm_self _ _ arr (fun x hx => (hkey x hx).2.2))
  have hfill : fillBuckets arr = .ok bs := by
    unfold fillBuckets
    simp only [w1]
    rw [intDiv_ok _ _ (by omega) (by omega)]
    simp only
    rw [hWdef, w2, e]
  have hcol : collectBuckets bs arr 0 = bs.flatMap stdSort := by
    have := collectBuckets_eq bs [] arr [] 0 rfl (by
      rw [hbs, List.flatMap_map]
      exact hperm.length_eq.symm)
    simpa only [List.nil_append, List.append_nil] using this
  have hflat : bs.flatMap stdSort = (List.range arr.length).flatMap fun d =>
      stdSort (arr.filter fun x => decide (bucketKey (minElement arr) W x = d)) := by
    rw [hbs, List.flatMap_map]
  refine ⟨bs, bs.flatMap stdSort, hfill, l1, ?_, ?_, rfl, ?_, ?_, hidx⟩
  · intro d hd
    rw [g d hd]
    simp only [List.getD_eq_getElem?_getD, List.getElem?_replicate, hd, if_true,
      Option.getD_some, List.nil_append]
    apply List.filter_congr
    intro x hx
    have := hidx x hx
    unfold bucketKey
    congr 1
    apply propext
    constructor
    · intro h; omega
    · intro h; omega
  · unfold bucketSort
    simp only [hemp, Bool.false_eq_true, if_false]
    rw [hfill]
    simp only
    rw [hcol]
  · rw [hflat]; exact sortedGroups_sorted _ arr hmono arr.length
  · rw [hflat]; exact hperm

/-- The buckets of the demo input of `main`: bucket size `9`, ten buckets. -/
theorem fillBuckets_demo :
    fillBuckets [64, 34, 25, 12, 22, 11, 90, 5, 77, 30] =
      .ok [[12, 11, 5], [22], [25, 30], [34], [], [], [64], [], [77], [90]] := by
  rfl

theorem insertShift_spec (orig : List Int) (i : Nat) (key : Int) (hi : i < orig.length) :
    ∀ (k : Nat) (arr : List Int), k ≤ i → arr.length = orig.length →
      (∀ j, j < k → get arr j = get orig j) →
      (∀ j, k < j → j ≤ i → get arr j = get orig (j - 1) ∧ key < get arr j) →
      (∀ j, i < j → get arr j = get orig j) →
      (arr.set k key).Perm orig →
      (insertShift key k arr).2 ≤ i ∧
      (insertShift key k arr).1.length = orig.length ∧
      (∀ j, j < (insertShift key k arr).2 → get (insertShift key k arr).1 j = get orig j) ∧
      (∀ j, (insertShift key k arr).2 < j → j ≤ i →
        get (insertShift key k arr).1 j = get orig (j - 1) ∧
        key < get (insertShift key k arr).1 j) ∧
      (∀ j, i < j → get (insertShift key k arr).1 j = get orig j) ∧
      ((insertShift key k arr).2 = 0 ∨ get orig ((insertShift key k arr).2 - 1) ≤ key) ∧
      ((insertShift key k arr).1.set (insertShift key k arr).2 key).Perm orig := by
  intro k
  induction k with
  | zero =>
    intro arr hk hlen h1 h2 h3 hp
    simp only [insertShift]
    exact ⟨Nat.zero_le _, hlen, h1, h2, h3, Or.inl trivial, hp⟩
  | succ k ih =>
    intro arr hk hlen h1 h2 h3 hp
    rw [insertShift]
    by_cases hgt : get arr k > key
    · rw [if_pos hgt]
      have hset : ∀ j, get (arr.set (k + 1) (get arr k)) j =
          if k + 1 = j ∧ k + 1 < arr.length then get arr k else get arr j :=
        fun j => get_set arr (k + 1) j _
      apply ih (arr.set (k + 1) (get arr k)) (by omega) (by simpa using hlen)
      · intro j hj
        rw [hset]
        have : ¬ (k + 1 = j ∧ k + 1 < arr.length) := by omega
        rw [if_neg this]; exact h1 j (by omega)
      · intro j hj1 hj2
        rw [hset]
        by_cases e : k + 1 = j
        · rw [if_pos ⟨e, by omega⟩]
          refine ⟨?_, hgt⟩
          rw [h1 k (by omega)]; congr 1; omega
        · have : ¬ (k + 1 = j ∧ k + 1 < arr.length) := fun h => e h.1
          rw [if_neg this]; exact h2 j (by omega) hj2
      · intro j hj
        rw [hset]
        have : ¬ (k + 1 = j ∧ k + 1 < arr.length) := by omega
        rw [if_neg this]; exact h3 j hj
      · have e : (arr.set (k + 1) (get arr k)).set k key = swap (arr.set (k + 1) key) k (k + 1) := by
          apply ext_get
          · simp [swap]
          · intro j hj
            simp only [List.length_set] at hj
            rw [get_swap _ _ _ _ (by simp; omega) (by simp; omega)]
            simp only [get_set, List.length_set]
            by_cases e1 : j = k + 1
            · subst e1; simp; omega
            · by_cases e2 : j = k
              · subst e2; simp; omega
              · have a1 : ¬ k = j := fun h => e2 h.symm
                have a2 : ¬ k + 1 = j := fun h => e1 h.symm
                simp [e1, e2, a1, a2]
        rw [e]
        exact (swap_perm _ _ _ (by simp; omega) (by simp; omega)).trans hp
    · rw [if_neg hgt]
      refine ⟨hk, hlen, h1, h2, h3, Or.inr ?_, hp⟩
      simp only [Nat.add_sub_cancel]
      rw [← h1 k (by omega)]
      exact not_lt.1 hgt

theorem insertStep_spec (arr : List Int) (i : Nat) (hi : i < arr.length)
    (hs : ∀ a b, a < b → b < i → get arr a ≤ get arr b) :
    (insertStep arr i).length = arr.length ∧ (insertStep arr i).Perm arr ∧
    (∀ j, i < j → get (insertStep arr i) j = get arr j) ∧
    (∀ a b, a < b → b < i + 1 → get (insertStep arr i) a ≤ get (insertStep arr i) b) := by
  obtain ⟨r1, r2, r3, r4, r5, r6, r7⟩ := insertShift_spec arr i (get arr i) hi i arr (le_refl _)
    rfl (fun _ _ => rfl) (fun j h1 h2 => by omega) (fun _ _ => rfl)
    (by
      have : arr.set i (get arr i) = arr := by
        apply ext_get _ _ (by simp)
        intro j _
        rw [get_set]
        by_cases e : i = j
        · simp [e]
        · simp [e]
      rw [this])
  unfold insertStep
  simp only
  generalize insertShift (get arr i) i arr = r at r1 r2 r3 r4 r5 r6 r7
  have hg : ∀ j, get (r.1.set r.2 (get arr i)) j =
      if r.2 = j ∧ r.2 < r.1.length then get arr i else get r.1 j := fun j => get_set _ _ _ _
  have hlt : ∀ j, j < r.2 → get (r.1.set r.2 (get arr i)) j = get arr j := by
    intro j hj
    rw [hg, if_neg (by omega)]; exact r3 j hj
  have heq : get (r.1.set r.2 (get arr i)) r.2 = get arr i := by
    rw [hg, if_pos ⟨rfl, by omega⟩]
  have hgt : ∀ j, r.2 < j → j ≤ i → get (r.1.set r.2 (get arr i)) j = get arr (j - 1) ∧
      get arr i < get arr (j - 1) := by
    intro j h1 h2
    rw [hg, if_neg (by omega)]
    have := r4 j h1 h2
    exact ⟨this.1, by rw [← this.1]; exact this.2⟩
  refine ⟨by simp [r2], r7, ?_, ?_⟩
  · intro j hj
    rw [hg, if_neg (by omega)]; exact r5 j hj
  · intro a b hab hb
    have hkey : ∀ c, c < r.2 → get arr c ≤ get arr i := by
      intro c hc
      rcases r6 with h0 | h0
      · omega
      · by_cases e : c = r.2 - 1
        · rw [e]; exact h0
        · exact le_trans (hs c (r.2 - 1) (by omega) (by omega)) h0
    by_cases hbp : b < r.2
    · rw [hlt a (by omega), hlt b hbp]; exact hs a b hab (by omega)
    · by_cases hbe : b = r.2
      · subst hbe; rw [hlt a hab, heq]; exact hkey a hab
      · have hb2 := hgt b (by omega) (by omega)
        rw [hb2.1]
        by_cases hap : a < r.2
        · rw [hlt a hap]; exact hs a (b - 1) (by omega) (by omega)
        · by_cases hae : a = r.2
          · subst hae; rw [heq]; exact le_of_lt hb2.2
          · rw [(hgt a (by omega) (by omega)).1]
            exact hs (a - 1) (b - 1) (by omega) (by omega)

theorem insertionSortUpTo_spec (arr : List Int) : ∀ m, m < arr.length →
    (insertionSortUpTo arr m).length = arr.length ∧ (insertionSortUpTo arr m).Perm arr ∧
    (∀ j, m < j → get (insertionSortUpTo arr m) j = get arr j) ∧
    (∀ a b, a < b → b < m + 1 →
      get (insertionSortUpTo arr m) a ≤ get (insertionSortUpTo arr m) b) := by
  intro m
  induction m with
  | zero =>
    intro _
    exact ⟨rfl, List.Perm.refl _, fun _ _ => rfl, fun a b h1 h2 => by omega⟩
  | succ m ih =>
    intro hm
    obtain ⟨i1, i2, i3, i4⟩ := ih (by omega)
    rw [insertionSortUpTo]
    obtain ⟨s1, s2, s3, s4⟩ := insertStep_spec (insertionSortUpTo arr m) (m + 1) (by omega) i4
    refine ⟨by omega, s2.trans i2, ?_, s4⟩
    intro j hj
    rw [s3 j hj, i3 j (by omega)]

theorem bubblePass_spec (L : Nat) : ∀ (cnt j : Nat) (arr : List Int) (sw : Bool),
    j + cnt = L → L < arr.length →
    (∀ a, a ≤ j → get arr a ≤ get arr j) →
    (bubblePass cnt j arr sw).1.length = arr.length ∧
    (bubblePass cnt j arr sw).1.Perm arr ∧
    (∀ k, L < k → get (bubblePass cnt j arr sw).1 k = get arr k) ∧
    (∀ a, a ≤ L → get (bubblePass cnt j arr sw).1 a ≤ get (bubblePass cnt j arr sw).1 L) ∧
    ((bubblePass cnt j arr sw).2 = false →
      sw = false ∧ (bubblePass cnt j arr sw).1 = arr ∧
      ∀ a, j ≤ a → a < L → get arr a ≤ get arr (a + 1)) := by
  intro cnt
  induction cnt with
  | zero =>
    intro j arr sw hj hL hmax
    simp only [bubblePass]
    have : j = L := by omega
    subst this
    exact ⟨trivial, List.Perm.refl _, fun _ _ => trivial, hmax,
      fun h => ⟨h, trivial, fun a h1 h2 => by omega⟩⟩
  | succ cnt ih =>
    intro j arr sw hj hL hmax
    rw [bubblePass]
    by_cases hgt : get arr j > get arr (j + 1)
    · rw [if_pos hgt]
      have gs : ∀ k, get (swap arr j (j + 1)) k =
          if k = j + 1 then get arr j else if k = j then get arr (j + 1) else get arr k :=
        fun k => get_swap arr j (j + 1) k (by omega) (by omega)
      obtain ⟨r1, r2, r3, r4, r5⟩ := ih (j + 1) (swap arr j (j + 1)) true (by omega)
        (by rw [length_swap]; exact hL)
        (by
          intro a ha
          rw [gs, gs]
          simp only [if_true]
          by_cases e1 : a = j + 1
          · simp only [e1, if_true]; exact le_refl _
          · by_cases e2 : a = j
            · have e3 : ¬ j = j + 1 := by omega
              rw [e2]; simp only [e3, if_false, if_true]; exact le_of_lt hgt
            · simp only [e1, e2, if_false]; exact hmax a (by omega))
      refine ⟨by rw [r1, length_swap],
        r2.trans (swap_perm arr j (j + 1) (by omega) (by omega)), ?_, r4, ?_⟩
      · intro k hk
        rw [r3 k hk, gs]
        have e1 : ¬ k = j + 1 := by omega
        have e2 : ¬ k = j := by omega
        simp only [e1, e2, if_false]
      · intro h
        have := (r5 h).1
        simp at this
    · rw [if_neg hgt]
      have hle : get arr j ≤ get arr (j + 1) := not_lt.1 hgt
      obtain ⟨r1, r2, r3, r4, r5⟩ := ih (j + 1) arr sw (by omega) hL
        (by
          intro a ha
          by_cases e : a = j + 1
          · rw [e]
          · exact le_trans (hmax a (by omega)) hle)
      refine ⟨r1, r2, r3, r4, ?_⟩
      intro h
      obtain ⟨a1, a2, a3⟩ := r5 h
      refine ⟨a1, a2, ?_⟩
      intro a h1 h2
      by_cases e : a = j
      · rw [e]; exact hle
      · exact a3 a (by omega) h2

theorem le_of_adjacent (arr : List Int) (L : Nat)
    (h : ∀ a, a < L → get arr a ≤ get arr (a + 1)) :
    ∀ d a, a + d ≤ L → get arr a ≤ get arr (a + d) := by
  intro d
  induction d with
  | zero => intro a _; exact le_refl _
  | succ d ih =>
    intro a ha
    exact le_trans (ih a (by omega)) (h (a + d) (by omega))

theorem bubbleOuter_spec : ∀ (rem : Nat) (arr : List Int), rem < arr.length →
    (∀ a b, rem < a → a < b → b < arr.length → get arr a ≤ get arr b) →
    (∀ a b, a ≤ rem → rem < b → b < arr.length → get arr a ≤ get arr b) →
    (bubbleOuter rem arr).length = arr.length ∧ (bubbleOuter rem arr).Perm arr ∧
    (∀ a b, a < b → b < arr.length →
      get (bubbleOuter rem arr) a ≤ get (bubbleOuter rem arr) b) := by
  intro rem
  induction rem with
  | zero =>
    intro arr _ t1 t2
    simp only [bubbleOuter]
    refine ⟨trivial, List.Perm.refl _, ?_⟩
    intro a b hab hb
    by_cases e : a = 0
    · exact t2 a b (by omega) (by omega) hb
    · exact t1 a b (by omega) hab hb
  | succ rem ih =>
    intro arr hlen t1 t2
    rw [bubbleOuter]
    obtain ⟨r1, r2, r3, r4, r5⟩ := bubblePass_spec (rem + 1) (rem + 1) 0 arr false (by omega) hlen
      (fun a ha => by
        have : a = 0 := by omega
        rw [this])
    generalize bubblePass (rem + 1) 0 arr false = r at r1 r2 r3 r4 r5
    by_cases hsw : r.2 = true
    · rw [if_pos hsw]
      have hseg : ∀ k, k ≤ rem + 1 → ∃ k2, k2 ≤ rem + 1 ∧ get arr k2 = get r.1 k := by
        intro k hk
        obtain ⟨k2, _, a2, _, a4⟩ := segment_get r.1 arr 0 (rem + 1 + 1) r1
          (fun k hk => r3 k (by omega)) r2 k (Nat.zero_le _) (by omega) (by omega)
        exact ⟨k2, by omega, a4⟩
      obtain ⟨s1, s2, s3⟩ := ih r.1 (by omega)
        (by
          intro a b ha hab hb
          rw [r3 b (by omega)]
          by_cases e : a = rem + 1
          · obtain ⟨k2, c1, c2⟩ := hseg a (by omega)
            rw [← c2]
            exact t2 k2 b c1 (by omega) (by omega)
          · rw [r3 a (by omega)]
            exact t1 a b (by omega) hab (by omega))
        (by
          intro a b ha hb hbl
          by_cases e : b = rem + 1
          · rw [e]; exact r4 a (by omega)
          · rw [r3 b (by omega)]
            obtain ⟨k2, c1, c2⟩ := hseg a (by omega)
            rw [← c2]
            exact t2 k2 b c1 (by omega) (by omega))
      refine ⟨by omega, s2.trans r2, ?_⟩
      intro a b hab hb
      exact s3 a b hab (by omega)
    · rw [if_neg hsw]
      have hf : r.2 = false := by simpa using hsw
      obtain ⟨_, a2, a3⟩ := r5 hf
      rw [a2]
      refine ⟨rfl, List.Perm.refl _, ?_⟩
      intro a b hab hb
      by_cases hb2 : b ≤ rem + 1
      · have := le_of_adjacent arr (rem + 1) (fun c hc => a3 c (Nat.zero_le _) hc) (b - a) a
          (by omega)
        have e : a + (b - a) = b := by omega
        rwa [e] at this
      · by_cases ha2 : a ≤ rem + 1
        · exact t2 a b ha2 (by omega) hb
        · exact t1 a b (by omega) hab hb

theorem selectMin_spec (arr : List Int) (i : Nat) : ∀ (cnt j minIndex : Nat),
    j + cnt = arr.length → i ≤ minIndex → minIndex < j →
    (∀ k, i ≤ k → k < j → get arr minIndex ≤ get arr k) →
    i ≤ selectMin cnt j arr minIndex ∧ selectMin cnt j arr minIndex < arr.length ∧
    (∀ k, i ≤ k → k < arr.length → get arr (selectMin cnt j arr minIndex) ≤ get arr k) := by
  intro cnt
  induction cnt with
  | zero =>
    intro j m hj h1 h2 h3
    simp only [selectMin]
    exact ⟨h1, by omega, fun k a b => h3 k a (by omega)⟩
  | succ cnt ih =>
    intro j m hj h1 h2 h3
    rw [selectMin]
    by_cases hlt : get arr j < get arr m
    · rw [if_pos hlt]
      apply ih (j + 1) j (by omega) (by omega) (by omega)
      intro k a b
      by_cases e : k = j
      · rw [e]
      · exact le_trans (le_of_lt hlt) (h3 k a (by omega))
    · rw [if_neg hlt]
      apply ih (j + 1) m (by omega) h1 (by omega)
      intro k a b
      by_cases e : k = j
      · rw [e]; exact not_lt.1 hlt
      · exact h3 k a (by omega)

theorem selectStep_spec (arr : List Int) (i : Nat) (hi : i < arr.length)
    (hs : ∀ a b, a < b → b < i → get arr a ≤ get arr b)
    (hb : ∀ a b, a < i → i ≤ b → b < arr.length → get arr a ≤ get arr b) :
    (selectStep arr i).length = arr.length ∧ (selectStep arr i).Perm arr ∧
    (∀ a b, a < b → b < i + 1 → get (selectStep arr i) a ≤ get (selectStep arr i) b) ∧
    (∀ a b, a < i + 1 → i + 1 ≤ b → b < arr.length →
      get (selectStep arr i) a ≤ get (selectStep arr i) b) := by
  obtain ⟨m1, m2, m3⟩ := selectMin_spec arr i (arr.length - (i + 1)) (i + 1) i (by omega)
    (le_refl _) (by omega) (fun k a b => by
      have : k = i := by omega
      rw [this])
  unfold selectStep
  simp only
  generalize selectMin (arr.length - (i + 1)) (i + 1) arr i = m at m1 m2 m3
  have key : (swap arr i m).length = arr.length ∧ (swap arr i m).Perm arr ∧
      (∀ a b, a < b → b < i + 1 → get (swap arr i m) a ≤ get (swap arr i m) b) ∧
      (∀ a b, a < i + 1 → i + 1 ≤ b → b < arr.length →
        get (swap arr i m) a ≤ get (swap arr i m) b) := by
    have gs : ∀ k, get (swap arr i m) k =
        if k = m then get arr i else if k = i then get arr m else get arr k :=
      fun k => get_swap arr i m k hi m2
    have hge : ∀ k, i ≤ k → k < arr.length → get arr m ≤ get (swap arr i m) k := by
      intro k h1 h2
      rw [gs]
      by_cases e1 : k = m
      · rw [if_pos e1]; exact m3 i (le_refl _) hi
      · rw [if_neg e1]
        by_cases e2 : k = i
        · rw [if_pos e2]
        · rw [if_neg e2]; exact m3 k h1 h2
    have hlow : ∀ k, k < i → get (swap arr i m) k = get arr k := by
      intro k hk
      rw [gs, if_neg (by omega), if_neg (by omega)]
    have hat : get (swap arr i m) i = get arr m := by
      rw [gs]
      by_cases e : i = m
      · rw [if_pos e, e]
      · rw [if_neg e, if_pos rfl]
    refine ⟨length_swap _ _ _, swap_perm arr i m hi m2, ?_, ?_⟩
    · intro a b hab hb2
      by_cases e : b = i
      · rw [e, hat, hlow a (by omega)]
        exact hb a m (by omega) m1 m2
      · rw [hlow a (by omega), hlow b (by omega)]
        exact hs a b hab (by omega)
    · intro a b ha hb2 hbl
      by_cases e : a = i
      · rw [e, hat]; exact hge b (by omega) hbl
      · rw [hlow a (by omega)]
        exact le_trans (hb a m (by omega) m1 m2) (hge b (by omega) hbl)
  by_cases hne : m ≠ i
  · rw [if_pos hne]; exact key
  · rw [if_neg hne]
    have e : m = i := not_not.1 hne
    have hsw : swap arr i m = arr := by
      apply ext_get _ _ (length_swap _ _ _)
      intro j _
      rw [get_swap arr i m j hi m2, e]
      by_cases e1 : j = i
      · simp [e1]
      · simp [e1]
    rw [hsw] at key
    exact key

theorem selectionSortUpTo_spec (arr : List Int) : ∀ m, m < arr.length →
    (selectionSortUpTo arr m).length = arr.length ∧ (selectionSortUpTo arr m).Perm arr ∧
    (∀ a b, a < b → b < m →
      get (selectionSortUpTo arr m) a ≤ get (selectionSortUpTo arr m) b) ∧
    (∀ a b, a < m → m ≤ b → b < arr.length →
      get (selectionSortUpTo arr m) a ≤ get (selectionSortUpTo arr m) b) := by
  intro m
  induction m with
  | zero =>
    intro _
    exact ⟨rfl, List.Perm.refl _, fun a b h1 h2 => by omega, fun a b h1 => by omega⟩
  | succ m ih =>
    intro hm
    obtain ⟨i1, i2, i3, i4⟩ := ih (by omega)
    rw [selectionSortUpTo]
    obtain ⟨s1, s2, s3, s4⟩ := selectStep_spec (selectionSortUpTo arr m) m (by omega) i3
      (fun a b h1 h2 h3 => i4 a b h1 h2 (by omega))
    refine ⟨by omega, s2.trans i2, s3, ?_⟩
    intro a b h1 h2 h3
    exact s4 a b h1 h2 (by omega)

theorem mergeSort_demo :
    mergeSort [64, 34, 25, 12, 22, 11, 90, 5, 77, 30] = [5, 11, 12, 22, 25, 30, 34, 64, 77, 90] := by
  simp [mergeSort, mergeSortRecursive, merge, mergeLoop, get, List.range_succ]

theorem quickSort_demo :
    quickSort 10 [64, 34, 25, 12, 22, 11, 90, 5, 77, 30] =
      some [5, 11, 12, 22, 25, 30, 34, 64, 77, 90] := by
  decide

theorem heapSort_demo :
    heapSort [64, 34, 25, 12, 22, 11, 90, 5, 77, 30] =
      .ok [5, 11, 12, 22, 25, 30, 34, 64, 77, 90] := by
  obtain ⟨out, h0, h1, h2⟩ := heapSort_spec [64, 34, 25, 12, 22, 11, 90, 5, 77, 30] (by decide)
  rw [h0, List.eq_of_perm_of_sorted (h2.trans (by decide)) h1
    (show List.Sorted (· ≤ ·) ([5, 11, 12, 22, 25, 30, 34, 64, 77, 90] : List Int) by
      simp [List.Sorted])]

theorem countingSortStable_demo :
    countingSortStable [4, 2, 2, 8, 3, 3, 1, 7, 5, 6] = .ok [1, 2, 2, 3, 3, 4, 5, 6, 7, 8] := by
  rfl

theorem countingSort_demo :
    countingSort [4, 2, 2, 8, 3, 3, 1, 7, 5, 6] = .ok [1, 2, 2, 3, 3, 4, 5, 6, 7, 8] := by
  rfl

theorem bucketSort_demo :
    bucketSort [64, 34, 25, 12, 22, 11, 90, 5, 77, 30] =
      .ok [5, 11, 12, 22, 25, 30, 34, 64, 77, 90] := by
  rfl

theorem insertionSort_demo :
    insertionSort [64, 34, 25, 12, 22, 11, 90, 5, 77, 30] =
      [5, 11, 12, 22, 25, 30, 34, 64, 77, 90] := by
  decide

theorem bubbleSort_demo :
    bubbleSort [64, 34, 25, 12, 22, 11, 90, 5, 77, 30] =
      [5, 11, 12, 22, 25, 30, 34, 64, 77, 90] := by
  decide

theorem selectionSort_demo :
    selectionSort [64, 34, 25, 12, 22, 11, 90, 5, 77, 30] =
      [5, 11, 12, 22, 25, 30, 34, 64, 77, 90] := by
  decide

/-! ## The contract of `merge` -/

theorem get_segment (arr : List Int) (lo hi k : Nat) (hk : lo + k < hi) :
    get ((arr.take hi).drop lo) k = get arr (lo + k) := by
  rw [get_drop, get_take _ _ _ hk]

theorem sorted_segment_of_get (arr : List Int) (lo hi : Nat)
    (h : ∀ a b, lo ≤ a → a < b → b < hi → get arr a ≤ get arr b) :
    List.Sorted (· ≤ ·) ((arr.take hi).drop lo) := by
  apply sorted_of_get
  intro i j hij hj
  rw [List.length_drop, List.length_take] at hj
  rw [get_segment arr lo hi i (by omega), get_segment arr lo hi j (by omega)]
  exact h (lo + i) (lo + j) (by omega) (by omega) (by omega)

theorem split4 (arr : List Int) (left mid right : Nat) (h1 : left ≤ mid) (h2 : mid < right)
    (h3 : right < arr.length) :
    arr = arr.take left ++ (arr.take (mid + 1)).drop left ++
      (arr.take (right + 1)).drop (mid + 1) ++ arr.drop (right + 1) := by
  apply List.ext_getElem?
  intro k
  simp only [List.getElem?_append, List.getElem?_take, List.getElem?_drop, List.length_take,
    List.length_drop, List.length_append]
  split_ifs <;> first | rfl | omega | (congr 1; omega)

/-- The result of `merge` on in-range indices, as a list equation. -/
theorem merge_decomp (arr : List Int) (left mid right : Nat) (h1 : left ≤ mid)
    (h2 : mid < right) (h3 : right < arr.length) :
    merge arr left mid right =
      arr.take left ++
        mergeLists ((arr.take (mid + 1)).drop left) ((arr.take (right + 1)).drop (mid + 1)) ++
        arr.drop (right + 1) := by
  have e := merge_eq (arr.take left) ((arr.take (mid + 1)).drop left)
    ((arr.take (right + 1)).drop (mid + 1)) (arr.drop (right + 1)) left mid right
    (by rw [List.length_take]; omega) (by rw [List.length_drop, List.length_take]; omega) h1
    (by rw [List.length_drop, List.length_take]; omega)
  rw [← split4 arr left mid right h1 h2 h3] at e
  exact e

/-- Index-wise contract of `merge`. -/
theorem merge_spec (arr : List Int) (left mid right : Nat) (h1 : left ≤ mid)
    (h2 : mid < right) (h3 : right < arr.length)
    (hl : ∀ a b, left ≤ a → a < b → b ≤ mid → get arr a ≤ get arr b)
    (hr : ∀ a b, mid + 1 ≤ a → a < b → b ≤ right → get arr a ≤ get arr b) :
    (merge arr left mid right).length = arr.length ∧
    (merge arr left mid right).Perm arr ∧
    (∀ k, k < left ∨ right < k → get (merge arr left mid right) k = get arr k) ∧
    (∀ a b, left ≤ a → a < b → b ≤ right →
      get (merge arr left mid right) a ≤ get (merge arr left mid right) b) ∧
    ((merge arr left mid right).take (right + 1)).drop left =
      mergeLists ((arr.take (mid + 1)).drop left) ((arr.take (right + 1)).drop (mid + 1)) := by
  have hd := merge_decomp arr left mid right h1 h2 h3
  have hs := split4 arr left mid right h1 h2 h3
  generalize hA : arr.take left = A at hd hs
  generalize hB : (arr.take (mid + 1)).drop left = B at hd hs
  generalize hC : (arr.take (right + 1)).drop (mid + 1) = C at hd hs
  generalize hD : arr.drop (right + 1) = D at hd hs
  have lA : A.length = left := by rw [← hA, List.length_take]; omega
  have lB : B.length = mid + 1 - left := by
    rw [← hB, List.length_drop, List.length_take]; omega
  have lC : C.length = right - mid := by
    rw [← hC, List.length_drop, List.length_take]; omega
  have lM : (mergeLists B C).length = right + 1 - left := by
    rw [mergeLists_length]; omega
  have sB : List.Sorted (· ≤ ·) B := by
    rw [← hB]
    exact sorted_segment_of_get arr left (mid + 1)
      (fun a b x y z => hl a b x y (by omega))
  have sC : List.Sorted (· ≤ ·) C := by
    rw [← hC]
    exact sorted_segment_of_get arr (mid + 1) (right + 1)
      (fun a b x y z => hr a b x y (by omega))
  have sM := mergeLists_sorted B C sB sC
  have pM := mergeLists_perm B C
  have hlen : (merge arr left mid right).length = arr.length := by
    rw [hd]
    conv_rhs => rw [hs]
    simp only [List.length_append, mergeLists_length]
    omega
  have hseg : ((merge arr left mid right).take (right + 1)).drop left = mergeLists B C := by
    rw [hd]
    apply List.ext_getElem?
    intro k
    simp only [List.getElem?_append, List.getElem?_take, List.getElem?_drop, List.length_take,
      List.length_drop, List.length_append, lA, lM]
    by_cases hk : k < right + 1 - left
    · have a1 : left + k < right + 1 := by omega
      have a2 : ¬ left + k < left := by omega
      have a3 : left + k < left + (right + 1 - left) := by omega
      simp only [a1, a2, a3, if_true, if_false]
      congr 1
      omega
    · have a1 : ¬ left + k < right + 1 := by omega
      simp only [a1, if_false]
      rw [List.getElem?_eq_none (by omega)]
  refine ⟨hlen, ?_, ?_, ?_, hseg⟩
  · rw [hd]
    conv_rhs => rw [hs]
    have := (List.Perm.append_left A pM).append_right D
    simpa [List.append_assoc] using this
  · intro k hk
    rw [hd]
    conv_rhs => rw [hs]
    rcases hk with hk | hk
    · rw [List.append_assoc, get_append_left _ _ _ (by omega), List.append_assoc,
        List.append_assoc, get_append_left _ _ _ (by omega)]
    · have e1 : k = (A ++ mergeLists B C).length + (k - (right + 1)) := by
        simp only [List.length_append, lA, lM]; omega
      have e2 : k = (A ++ B ++ C).length + (k - (right + 1)) := by
        simp only [List.length_append, lA, lB, lC]; omega
      conv_lhs => rw [e1]
      conv_rhs => rw [e2]
      rw [get_append_right, get_append_right]
  · intro a b ha hab hb
    have ga : get (merge arr left mid right) a = get (mergeLists B C) (a - left) := by
      rw [← hseg, get_segment _ left (right + 1) (a - left) (by omega)]
      congr 1; omega
    have gb : get (merge arr left mid right) b = get (mergeLists B C) (b - left) := by
      rw [← hseg, get_segment _ left (right + 1) (b - left) (by omega)]
      congr 1; omega
    rw [ga, gb]
    exact get_le_of_sorted _ sM _ _ (by omega) (by omega)

theorem get_map_range (f : Nat → Int) (n i : Nat) (h : i < n) :
    get ((List.range n).map f) i = f i := by
  rw [get_eq_getElem _ _ (by simpa using h)]
  simp

theorem getD_map_get (org : List Nat) (val : Nat → Int) (t : Nat) (h : t < org.length) :
    get (org.map val) t = val (org.getD t 0) := by
  rw [get_eq_getElem _ _ (by simpa using h), List.getD_eq_getElem _ _ h]
  simp

/-- The copy loops of `merge` read the run `arr[lo .. lo + n - 1]`. -/
theorem range_map_get (arr : List Int) (lo n : Nat) (h : lo + n ≤ arr.length) :
    (List.range n).map (fun i => get arr (lo + i)) = (arr.take (lo + n)).drop lo := by
  apply ext_get
  · simp only [List.length_map, List.length_range, List.length_drop, List.length_take]
    omega
  · intro i hi
    simp only [List.length_map, List.length_range] at hi
    rw [get_map_range _ _ _ hi, get_segment arr lo (lo + n) i (by omega)]

/-- The logging loop computes the vector of `mergeLoop`. -/
theorem mergeLoopLog_fst (arr l r : List Int) (k p q : Nat) :
    (mergeLoopLog arr l r k p q).1 = mergeLoop arr l r k := by
  induction arr, l, r, k, p, q using mergeLoopLog.induct with
  | case1 arr k p q => rw [mergeLoopLog, mergeLoop]
  | case2 arr x xs k p q ih => rw [mergeLoopLog, mergeLoop]; exact ih
  | case3 arr y ys k p q ih => rw [mergeLoopLog, mergeLoop]; exact ih
  | case4 arr x xs y ys k p q h ih =>
    rw [mergeLoopLog, mergeLoop, if_pos h, if_pos h]; exact ih
  | case5 arr x xs y ys k p q h ih =>
    rw [mergeLoopLog, mergeLoop, if_neg h, if_neg h]; exact ih

/-- The log of origins of the merge loops, for two sorted runs whose elements are
the values `val` at the positions `p, p + 1, …` and `q, q + 1, …`, the first run
lying before the second: the values at the origins are the merged list, every
position of the two runs occurs once, and of two writes the earlier one copies from
an earlier position or copies a strictly smaller value. -/
theorem mergeLoopLog_origins (val : Nat → Int) (arr l r : List Int) (k p q : Nat) :
    p + l.length ≤ q →
    (∀ i, i < l.length → get l i = val (p + i)) →
    (∀ j, j < r.length → get r j = val (q + j)) →
    List.Sorted (· ≤ ·) l → List.Sorted (· ≤ ·) r →
    (mergeLoopLog arr l r k p q).2.map val = mergeLists l r ∧
    (mergeLoopLog arr l r k p q).2.Perm (List.range' p l.length ++ List.range' q r.length) ∧
    List.Pairwise (fun a b => a < b ∨ val a < val b) (mergeLoopLog arr l r k p q).2 := by
  induction arr, l, r, k, p, q using mergeLoopLog.induct with
  | case1 arr k p q =>
    intro _ _ _ _ _
    rw [mergeLoopLog, mergeLists]
    simp
  | case2 arr x xs k p q ih =>
    intro hpq hl hr sl sr
    have hx : x = val p := by simpa [get] using hl 0 (by simp)
    obtain ⟨i1, i2, i3⟩ := ih (by simp at hpq ⊢; omega)
      (fun i hi => by
        have := hl (i + 1) (by simpa using hi)
        rw [show p + 1 + i = p + (i + 1) by omega, ← this]
        simp [get])
      hr (List.sorted_cons.1 sl).2 sr
    rw [mergeLoopLog, mergeLists]
    simp only [List.map_cons, List.length_cons, List.range'_succ, List.cons_append]
    refine ⟨by rw [i1, hx], i2.cons p, ?_⟩
    rw [List.pairwise_cons]
    refine ⟨fun o ho => ?_, i3⟩
    have := i2.mem_iff.1 ho
    simp only [List.mem_append, List.mem_range'_1, List.length_nil] at this
    left; omega
  | case3 arr y ys k p q ih =>
    intro hpq hl hr sl sr
    have hy : y = val q := by simpa [get] using hr 0 (by simp)
    obtain ⟨i1, i2, i3⟩ := ih (by simp at hpq ⊢; omega) hl
      (fun j hj => by
        have := hr (j + 1) (by simpa using hj)
        rw [show q + 1 + j = q + (j + 1) by omega, ← this]
        simp [get])
      sl (List.sorted_cons.1 sr).2
    rw [mergeLoopLog, mergeLists]
    simp only [List.map_cons, List.length_cons, List.length_nil, List.range'_zero,
      List.nil_append, List.range'_succ] at i2 ⊢
    refine ⟨by rw [i1, hy], i2.cons q, ?_⟩
    rw [List.pairwise_cons]
    refine ⟨fun o ho => ?_, i3⟩
    have := i2.mem_iff.1 ho
    simp only [List.mem_range'_1] at this
    left; omega
  | case4 arr x xs y ys k p q h ih =>
    intro hpq hl hr sl sr
    have hx : x = val p := by simpa [get] using hl 0 (by simp)
    obtain ⟨i1, i2, i3⟩ := ih (by simp at hpq ⊢; omega)
      (fun i hi => by
        have := hl (i + 1) (by simpa using hi)
        rw [show p + 1 + i = p + (i + 1) by omega, ← this]
        simp [get])
      hr (List.sorted_cons.1 sl).2 sr
    rw [mergeLoopLog, mergeLists, if_pos h, if_pos h]
    simp only [List.map_cons, List.length_cons, List.range'_succ, List.cons_append] at i2 ⊢
    refine ⟨by rw [i1, hx], i2.cons p, ?_⟩
    rw [List.pairwise_cons]
    refine ⟨fun o ho => ?_, i3⟩
    have := i2.mem_iff.1 ho
    simp only [List.mem_append, List.mem_range'_1, List.mem_cons] at this
    simp only [List.length_cons] at hpq
    left; omega
  | case5 arr x xs y ys k p q h ih =>
    intro hpq hl hr sl sr
    have hy : y = val q := by simpa [get] using hr 0 (by simp)
    obtain ⟨i1, i2, i3⟩ := ih (by simp at hpq ⊢; omega) hl
      (fun j hj => by
        have := hr (j + 1) (by simpa using hj)
        rw [show q + 1 + j = q + (j + 1) by omega, ← this]
        simp [get])
      sl (List.sorted_cons.1 sr).2
    rw [mergeLoopLog, mergeLists, if_neg h, if_neg h]
    simp only [List.map_cons, List.length_cons, List.range'_succ] at i2 ⊢
    refine ⟨by rw [i1, hy], ?_, ?_⟩
    · exact (i2.cons q).trans (@List.perm_middle _ q (p :: List.range' (p + 1) xs.length)
        (List.range' (q + 1) ys.length)).symm
    · rw [List.pairwise_cons]
      refine ⟨fun o ho => ?_, i3⟩
      have := i2.mem_iff.1 ho
      simp only [List.mem_append, List.mem_range'_1, List.mem_cons] at this
      rcases this with (e | ⟨o1, o2⟩) | ⟨o1, o2⟩
      · right
        have hx : x = val p := by simpa [get] using hl 0 (by simp)
        rw [e, ← hx, ← hy]; omega
      · right
        have hv := hl (o - p) (by simp; omega)
        rw [show p + (o - p) = o by omega] at hv
        have hle := get_le_of_sorted (x :: xs) sl 0 (o - p) (by omega) (by simp; omega)
        have h0 : get (x :: xs) 0 = x := by simp [get]
        rw [← hv, ← hy]; omega
      · left; omega

/-- The origins logged by `mergeLog`: the vector is that of `merge`, the origins
are the positions `left, …, right`, each once, the value written to
`arr[left + t]` is the old value at the `t`-th origin, and of two writes the earlier
one copies from an earlier position or copies a strictly smaller value. -/
theorem mergeLog_spec (arr : List Int) (left mid right : Nat) (h1 : left ≤ mid)
    (h2 : mid < right) (h3 : right < arr.length)
    (hl : ∀ a b, left ≤ a → a < b → b ≤ mid → get arr a ≤ get arr b)
    (hr : ∀ a b, mid + 1 ≤ a → a < b → b ≤ right → get arr a ≤ get arr b) :
    (mergeLog arr left mid right).1 = merge arr left mid right ∧
    (mergeLog arr left mid right).2.length = right - left + 1 ∧
    (mergeLog arr left mid right).2.Perm (List.range' left (right - left + 1)) ∧
    (∀ t, t < right - left + 1 →
      get (merge arr left mid right) (left + t) =
        get arr ((mergeLog arr left mid right).2.getD t 0)) ∧
    (∀ s t, s < t → t < right - left + 1 →
      (mergeLog arr left mid right).2.getD s 0 < (mergeLog arr left mid right).2.getD t 0 ∨
      get arr ((mergeLog arr left mid right).2.getD s 0) <
        get arr ((mergeLog arr left mid right).2.getD t 0)) := by
  obtain ⟨_, _, _, _, hseg⟩ := merge_spec arr left mid right h1 h2 h3 hl hr
  have eB : (List.range (mid - left + 1)).map (fun i => get arr (left + i)) =
      (arr.take (mid + 1)).drop left := by
    have := range_map_get arr left (mid - left + 1) (by omega)
    rw [show left + (mid - left + 1) = mid + 1 by omega] at this
    exact this
  have eC : (List.range (right - mid)).map (fun j => get arr (mid + 1 + j)) =
      (arr.take (right + 1)).drop (mid + 1) := by
    have := range_map_get arr (mid + 1) (right - mid) (by omega)
    rw [show mid + 1 + (right - mid) = right + 1 by omega] at this
    exact this
  have hfst : (mergeLog arr left mid right).1 = merge arr left mid right := by
    unfold mergeLog merge
    exact mergeLoopLog_fst _ _ _ _ _ _
  obtain ⟨o1, o2, o3⟩ := mergeLoopLog_origins (get arr) arr
    ((List.range (mid - left + 1)).map fun i => get arr (left + i))
    ((List.range (right - mid)).map fun j => get arr (mid + 1 + j)) left left (mid + 1)
    (by simp only [List.length_map, List.length_range]; omega)
    (fun i hi => get_map_range _ _ _ (by simpa using hi))
    (fun j hj => get_map_range _ _ _ (by simpa using hj))
    (by
      apply sorted_of_get
      intro i j hij hj
      simp only [List.length_map, List.length_range] at hj
      rw [get_map_range _ _ _ (by omega), get_map_range _ _ _ hj]
      exact hl _ _ (by omega) (by omega) (by omega))
    (by
      apply sorted_of_get
      intro i j hij hj
      simp only [List.length_map, List.length_range] at hj
      rw [get_map_range _ _ _ (by omega), get_map_range _ _ _ hj]
      exact hr _ _ (by omega) (by omega) (by omega))
  have eorg : (mergeLog arr left mid right).2 = (mergeLoopLog arr
      ((List.range (mid - left + 1)).map fun i => get arr (left + i))
      ((List.range (right - mid)).map fun j => get arr (mid + 1 + j))
      left left (mid + 1)).2 := rfl
  rw [← eorg] at o1 o2 o3
  generalize (mergeLog arr left mid right).2 = org at o1 o2 o3 ⊢
  simp only [List.length_map, List.length_range] at o2
  have hrange : List.range' left (mid - left + 1) ++ List.range' (mid + 1) (right - mid) =
      List.range' left (right - left + 1) := by
    have := @List.range'_append left (mid - left + 1) (right - mid) 1
    rw [show left + 1 * (mid - left + 1) = mid + 1 by omega,
      show right - mid + (mid - left + 1) = right - left + 1 by omega] at this
    exact this
  rw [hrange] at o2
  have hlen : org.length = right - left + 1 := by
    rw [o2.length_eq, List.length_range']
  refine ⟨hfst, hlen, o2, ?_, ?_⟩
  · intro t ht
    rw [← get_segment (merge arr left mid right) left (right + 1) t (by omega), hseg, ← eB,
      ← eC, ← o1]
    exact getD_map_get org (get arr) t (by omega)
  · intro s t hst ht
    rw [List.pairwise_iff_getElem] at o3
    have := o3 s t (by omega) (by omega) hst
    rwa [List.getD_eq_getElem _ _ (by omega), List.getD_eq_getElem _ _ (by omega)]

/-- The witness evaluated: the two runs `[2, 5]` (positions 1, 2) and `[2, 3]`
(positions 3, 4) merge to `2, 2, 3, 5`, and the first `2` written is the one of the
left run (origin 1), the second the one of the right run (origin 3). -/
theorem mergeLog_demo :
    mergeLog [9, 2, 5, 2, 3, 0] 1 2 4 = ([9, 2, 2, 3, 5, 0], [1, 3, 4, 2]) := by
  simp [mergeLog, mergeLoopLog, get, List.range_succ]

/-! ## The contract of `partitionLomuto` -/

/-- C19: for in-range indices `low ≤ high`, `partitionLomuto` returns `p` with
`low ≤ p ≤ high`; afterwards `arr[p]` is the pivot (the original `arr[high]`),
everything in `arr[low..p-1]` is below the pivot, everything in `arr[p+1..high]`
is at least the pivot, `arr[low..high]` is a permutation of its former
contents, and the positions outside `[low, high]` and the length are unchanged. -/
theorem partitionLomuto_contract (arr : List Int) (low high : Nat) (hlh : low ≤ high)
    (hlen : high < arr.length) :
    low ≤ (partitionLomuto arr low high).2 ∧ (partitionLomuto arr low high).2 ≤ high ∧
    get (partitionLomuto arr low high).1 (partitionLomuto arr low high).2 = get arr high ∧
    (∀ k, low ≤ k → k < (partitionLomuto arr low high).2 →
      get (partitionLomuto arr low high).1 k < get arr high) ∧
    (∀ k, (partitionLomuto arr low high).2 < k → k ≤ high →
      get arr high ≤ get (partitionLomuto arr low high).1 k) ∧
    ((((partitionLomuto arr low high).1).take (high + 1)).drop low).Perm
      ((arr.take (high + 1)).drop low) ∧
    (∀ k, k < low ∨ high < k → get (partitionLomuto arr low high).1 k = get arr k) ∧
    (partitionLomuto arr low high).1.length = arr.length := by
  obtain ⟨q1, q2, q3, q4, q5, q6, q7, q8⟩ := partitionLomuto_spec arr low high hlh hlen
  refine ⟨q3, q4, q6, q7, q8, ?_, q5, q1⟩
  exact segment_perm _ arr low (high + 1) q1 (fun k hk => q5 k (by omega)) q2

/-- Witness for C19: the range `[1, 4]` of a six-element vector, pivot `5`. -/
theorem partitionLomuto_contract_witness :
    1 ≤ (partitionLomuto [3, 8, 1, 9, 5, 7] 1 4).2 ∧
    (partitionLomuto [3, 8, 1, 9, 5, 7] 1 4).2 ≤ 4 ∧
    get (partitionLomuto [3, 8, 1, 9, 5, 7] 1 4).1 (partitionLomuto [3, 8, 1, 9, 5, 7] 1 4).2 =
      get [3, 8, 1, 9, 5, 7] 4 ∧
    (∀ k, 1 ≤ k → k < (partitionLomuto [3, 8, 1, 9, 5, 7] 1 4).2 →
      get (partitionLomuto [3, 8, 1, 9, 5, 7] 1 4).1 k < get [3, 8, 1, 9, 5, 7] 4) ∧
    (∀ k, (partitionLomuto [3, 8, 1, 9, 5, 7] 1 4).2 < k → k ≤ 4 →
      get [3, 8, 1, 9, 5, 7] 4 ≤ get (partitionLomuto [3, 8, 1, 9, 5, 7] 1 4).1 k) ∧
    ((((partitionLomuto [3, 8, 1, 9, 5, 7] 1 4).1).take (4 + 1)).drop 1).Perm
      (([3, 8, 1, 9, 5, 7].take (4 + 1)).drop 1) ∧
    (∀ k, k < 1 ∨ 4 < k →
      get (partitionLomuto [3, 8, 1, 9, 5, 7] 1 4).1 k = get [3, 8, 1, 9, 5, 7] k) ∧
    (partitionLomuto [3, 8, 1, 9, 5, 7] 1 4).1.length = [3, 8, 1, 9, 5, 7].length :=
  partitionLomuto_contract [3, 8, 1, 9, 5, 7] 1 4 (by decide) (by decide)

/-! ## Negative input to the non-negative-only sorts -/

theorem countKeys_negative : ∀ (l count : List Int), (∃ x ∈ l, x < 0) →
    countKeys (fun num => .ok num) l count = .error .outOfBounds := by
  intro l
  induction l with
  | nil => intro count h; obtain ⟨x, hx, _⟩ := h; simp at hx
  | cons a t ih =>
    intro count h
    rw [countKeys]
    simp only
    unfold tableGet
    by_cases hin : 0 ≤ a ∧ a < count.length
    · rw [if_pos hin]
      simp only
      unfold tableSet
      rw [if_pos hin]
      simp only
      apply ih
      obtain ⟨x, hx, hneg⟩ := h
      rcases List.mem_cons.1 hx with e | hx
      · omega
      · exact ⟨x, hx, hneg⟩
    · rw [if_neg hin]

/-- C14 (as amended): on an input with a negative element `countingSort` does no
validation and reports no precondition violation.  Either the count table
cannot be built, because `maxVal + 1` is negative as a 32-bit `int`, or the
counting loop indexes the count table out of range, with the negative value at
the latest: undefined behaviour, which the model shows as `Fault.outOfBounds`. -/
theorem countingSort_negative (arr : List Int) (hneg : ∃ x ∈ arr, x < 0) :
    (wrap32 (maxElement arr + 1) < 0 → countingSort arr = .error .badLength) ∧
    (¬ wrap32 (maxElement arr + 1) < 0 → countingSort arr = .error .outOfBounds) := by
  have hemp : arr.isEmpty = false := by
    cases arr with
    | nil => obtain ⟨x, hx, _⟩ := hneg; simp at hx
    | cons a t => rfl
  constructor
  · intro h
    unfold countingSort
    simp only [hemp, Bool.false_eq_true, if_false]
    rw [if_pos h]
  · intro h
    unfold countingSort
    simp only [hemp, Bool.false_eq_true, if_false]
    rw [if_neg h, countKeys_negative arr _ hneg]

/-- Witness for C14: the vector `[-1, 2, 3]` of the specification. -/
theorem countingSort_negative_witness :
    (wrap32 (maxElement [-1, 2, 3] + 1) < 0 → countingSort [-1, 2, 3] = .error .badLength) ∧
    (¬ wrap32 (maxElement [-1, 2, 3] + 1) < 0 →
      countingSort [-1, 2, 3] = .error .outOfBounds) :=
  countingSort_negative [-1, 2, 3] ⟨-1, by decide, by decide⟩

/-- Counterexample to C14 as stated: on `[-1, 2, 3]` the count table has four
entries and the first step of the counting loop reads `count[-1]`; the run ends
in that out-of-range access, there is no validation before it. -/
theorem countingSort_negative_counterexample :
    wrap32 (maxElement [-1, 2, 3] + 1) = 4 ∧
    tableGet (List.replicate 4 0) (-1) = .error .outOfBounds ∧
    countKeys (fun num => .ok num) [-1, 2, 3] (List.replicate 4 0) = .error .outOfBounds ∧
    countingSort [-1, 2, 3] = .error .outOfBounds := by
  refine ⟨by decide, by rfl, by rfl, by rfl⟩

/-- The counting loop of the pass on the last digit (`exp = 1`) ends in an
out-of-range access of the count table as soon as the vector holds an element whose
remainder `num % 10` is negative. -/
theorem countKeys_negative_digit : ∀ (l count : List Int), (∃ x ∈ l, Int.tmod x 10 < 0) →
    countKeys (digitOf 1) l count = .error .outOfBounds := by
  intro l
  induction l with
  | nil => intro count h; obtain ⟨x, hx, _⟩ := h; simp at hx
  | cons a t ih =>
    intro count h
    have hd : digitOf 1 a = .ok (Int.tmod a 10) := by
      unfold digitOf intDiv
      rw [if_neg (by omega)]
      simp only [Int.tdiv_one]
    rw [countKeys, hd]
    simp only
    unfold tableGet
    by_cases hin : 0 ≤ Int.tmod a 10 ∧ Int.tmod a 10 < count.length
    · rw [if_pos hin]
      simp only
      unfold tableSet
      rw [if_pos hin]
      simp only
      apply ih
      obtain ⟨x, hx, hneg⟩ := h
      rcases List.mem_cons.1 hx with e | hx
      · rw [e] at hneg; omega
      · exact ⟨x, hx, hneg⟩
    · rw [if_neg hin]

/-- The elements with a negative remainder `num % 10` are the negative numbers that
are not multiples of ten. -/
theorem tmod_ten_neg_iff (x : Int) : Int.tmod x 10 < 0 ↔ x < 0 ∧ ¬ (10 : Int) ∣ x := by
  rcases Int.lt_or_le x 0 with hx | hx
  · have e : Int.tmod x 10 = -((-x) % 10) := by
      have h1 : Int.tdiv x 10 = -((-x) / 10) := by
        have := Int.neg_tdiv (-x) 10
        rw [neg_neg] at this
        rw [this, Int.tdiv_eq_ediv (by omega) (by omega)]
      rw [Int.tmod_def, h1]
      omega
    rw [e]
    constructor
    · intro h
      refine ⟨hx, fun hd => ?_⟩
      have : (10 : Int) ∣ -x := (Int.dvd_neg).2 hd
      have := Int.emod_eq_zero_of_dvd this
      omega
    · rintro ⟨_, hd⟩
      have h0 : (-x) % 10 ≠ 0 := fun h0 => hd ((Int.dvd_neg).1 (Int.dvd_of_emod_eq_zero h0))
      have := Int.emod_nonneg (-x) (show (10 : Int) ≠ 0 by omega)
      omega
  · have := Int.tmod_nonneg 10 hx
    constructor
    · intro h; omega
    · rintro ⟨h, _⟩; omega

theorem bubblePassCount_erase : ∀ (cnt j : Nat) (arr : List Int) (sw : Bool) (c s : Nat),
    (bubblePassCount cnt j arr sw c s).1 = (bubblePass cnt j arr sw).1 ∧
    (bubblePassCount cnt j arr sw c s).2.1 = (bubblePass cnt j arr sw).2 := by
  intro cnt
  induction cnt with
  | zero => intro j arr sw c s; exact ⟨rfl, rfl⟩
  | succ cnt ih =>
    intro j arr sw c s
    rw [bubblePassCount, bubblePass]
    by_cases h : get arr j > get arr (j + 1)
    · rw [if_pos h, if_pos h]; exact ih _ _ _ _ _
    · rw [if_neg h, if_neg h]; exact ih _ _ _ _ _

theorem bubbleOuterCount_erase : ∀ (rem : Nat) (arr : List Int) (p c s : Nat),
    (bubbleOuterCount rem arr p c s).arr = bubbleOuter rem arr := by
  intro rem
  induction rem with
  | zero => intro arr p c s; rfl
  | succ rem ih =>
    intro arr p c s
    rw [bubbleOuterCount, bubbleOuter]
    obtain ⟨e1, e2⟩ := bubblePassCount_erase (rem + 1) 0 arr false c s
    rw [e2]
    by_cases h : (bubblePass (rem + 1) 0 arr false).2 = true
    · rw [if_pos h, if_pos h, e1]; exact ih _ _ _ _
    · rw [if_neg h, if_neg h]; exact e1

theorem bubblePassCount_sorted (arr : List Int) (hs : List.Sorted (· ≤ ·) arr) :
    ∀ (cnt j : Nat) (sw : Bool) (c s : Nat), j + cnt < arr.length →
    bubblePassCount cnt j arr sw c s = (arr, sw, c + cnt, s) := by
  intro cnt
  induction cnt with
  | zero => intro j sw c s _; rfl
  | succ cnt ih =>
    intro j sw c s hj
    rw [bubblePassCount]
    have hle := get_le_of_sorted arr hs j (j + 1) (by omega) (by omega)
    rw [if_neg (by omega), ih (j + 1) sw (c + 1) s (by omega)]
    have : c + 1 + cnt = c + (cnt + 1) := by omega
    rw [this]

theorem hoareScanUp_spec (arr : List Int) (pivot : Int) : ∀ (room c : Nat),
    (∃ k, c ≤ k ∧ k < c + room ∧ pivot ≤ get arr k) →
    ∃ i, hoareScanUp arr pivot room c = .ok i ∧ c ≤ i ∧ i < c + room ∧
      pivot ≤ get arr i ∧ ∀ k, c ≤ k → k < i → get arr k < pivot := by
  intro room
  induction room with
  | zero => intro c h; obtain ⟨k, h1, h2, _⟩ := h; omega
  | succ room ih =>
    intro c h
    rw [hoareScanUp]
    by_cases hlt : get arr c < pivot
    · rw [if_pos hlt]
      obtain ⟨k, h1, h2, h3⟩ := h
      have hk : k ≠ c := by
        intro e; rw [e] at h3; omega
      obtain ⟨i, e, a1, a2, a3, a4⟩ := ih (c + 1) ⟨k, by omega, by omega, h3⟩
      refine ⟨i, e, by omega, by omega, a3, ?_⟩
      intro k2 b1 b2
      by_cases e2 : k2 = c
      · rw [e2]; exact hlt
      · exact a4 k2 (by omega) b2
    · rw [if_neg hlt]
      exact ⟨c, rfl, le_refl _, by omega, not_lt.1 hlt, fun k b1 b2 => by omega⟩

theorem hoareScanDown_spec (arr : List Int) (pivot : Int) (low : Nat) : ∀ (j : Nat),
    (∃ k, low ≤ k ∧ k < j ∧ get arr k ≤ pivot) →
    ∃ j2, hoareScanDown arr pivot low j = .ok j2 ∧ low ≤ j2 ∧ j2 < j ∧
      get arr j2 ≤ pivot ∧ ∀ k, j2 < k → k < j → pivot < get arr k := by
  intro j
  induction j with
  | zero => intro h; obtain ⟨k, _, h2, _⟩ := h; omega
  | succ j ih =>
    intro h
    obtain ⟨k, h1, h2, h3⟩ := h
    rw [hoareScanDown, if_neg (by omega)]
    by_cases hgt : get arr j > pivot
    · rw [if_pos hgt]
      have hk : k ≠ j := by
        intro e; rw [e] at h3; omega
      obtain ⟨j2, e, a1, a2, a3, a4⟩ := ih ⟨k, h1, by omega, h3⟩
      refine ⟨j2, e, a1, by omega, a3, ?_⟩
      intro k2 b1 b2
      by_cases e2 : k2 = j
      · rw [e2]; exact hgt
      · exact a4 k2 b1 (by omega)
    · rw [if_neg hgt]
      exact ⟨j, rfl, by omega, by omega, not_lt.1 hgt, fun k b1 b2 => by omega⟩

theorem hoareLoop_spec (pivot : Int) (low high : Nat) (hlh : low < high) :
    ∀ (m : Nat) (arr : List Int) (c j : Nat), j + 1 - c = m → high < arr.length →
    low ≤ c → c ≤ j → j ≤ high + 1 →
    (∀ k, low ≤ k → k < c → get arr k ≤ pivot) →
    (∀ k, j ≤ k → k ≤ high → pivot ≤ get arr k) →
    (∃ k, c ≤ k ∧ k ≤ high ∧ pivot ≤ get arr k) →
    (∃ k, low ≤ k ∧ k < j ∧ get arr k ≤ pivot) →
    (j ≤ high ∨ (c = low ∧ pivot ≤ get arr low)) →
    ∃ out p, (∀ fuel, j + 1 - c ≤ 2 * fuel →
        hoareLoop pivot low high fuel arr c j = .ok (out, p)) ∧
      low ≤ p ∧ p < high ∧ out.length = arr.length ∧ out.Perm arr ∧
      (∀ k, k < low ∨ high < k → get out k = get arr k) ∧
      (∀ k, low ≤ k → k ≤ p → get out k ≤ pivot) ∧
      (∀ k, p < k → k ≤ high → pivot ≤ get out k) := by
  intro m
  induction m using Nat.strong_induction_on with
  | _ m ih =>
    intro arr c j hm hlen h1 h2 h3 h4 h5 h6 h7 h8
    obtain ⟨ks, s1, s2, s3⟩ := h6
    obtain ⟨i, ei, i1, i2, i3, i4⟩ := hoareScanUp_spec arr pivot (high + 1 - c) c
      ⟨ks, s1, by omega, s3⟩
    obtain ⟨j2, ej, j1, j3, j4, j5⟩ := hoareScanDown_spec arr pivot low j h7
    by_cases hge : i ≥ j2
    · -- the indices have met: return `j2`
      refine ⟨arr, j2, ?_, j1, ?_, rfl, List.Perm.refl _, fun _ _ => rfl, ?_, ?_⟩
      · intro fuel hf
        obtain ⟨f, rfl⟩ : ∃ f, fuel = f + 1 := ⟨fuel - 1, by omega⟩
        rw [hoareLoop, ei]
        simp only
        rw [ej]
        simp only
        rw [if_pos hge]
      · rcases h8 with h8 | ⟨h8, h9⟩
        · omega
        · have : i = low := by
            by_contra hne
            have := i4 low (by omega) (by omega)
            omega
          omega
      · intro k a1 a2
        by_cases b1 : k < c
        · exact h4 k a1 b1
        · by_cases b2 : k < i
          · exact le_of_lt (i4 k (by omega) b2)
          · have : k = j2 := by omega
            rw [this]; exact j4
      · intro k a1 a2
        by_cases b1 : k < j
        · exact le_of_lt (j5 k a1 b1)
        · exact h5 k (by omega) a2
    · -- swap and go round again
      have hij : i < j2 := by omega
      have gs : ∀ k, get (swap arr i j2) k =
          if k = j2 then get arr i else if k = i then get arr j2 else get arr k :=
        fun k => get_swap arr i j2 k (by omega) (by omega)
      obtain ⟨out, p, r0, r1, r2, r3, r4, r5, r6, r7⟩ := ih (j2 + 1 - (i + 1)) (by omega)
        (swap arr i j2) (i + 1) j2 rfl (by rw [length_swap]; exact hlen) (by omega) (by omega)
        (by omega)
        (by
          intro k a1 a2
          rw [gs]
          by_cases e1 : k = j2
          · omega
          · rw [if_neg e1]
            by_cases e2 : k = i
            · rw [if_pos e2]; exact j4
            · rw [if_neg e2]
              by_cases b1 : k < c
              · exact h4 k a1 b1
              · exact le_of_lt (i4 k (by omega) (by omega)))
        (by
          intro k a1 a2
          rw [gs]
          by_cases e1 : k = j2
          · rw [if_pos e1]; exact i3
          · rw [if_neg e1, if_neg (by omega)]
            by_cases b1 : k < j
            · exact le_of_lt (j5 k (by omega) b1)
            · exact h5 k (by omega) a2)
        ⟨j2, by omega, by omega, by rw [gs, if_pos rfl]; exact i3⟩
        ⟨i, by omega, by omega, by rw [gs, if_neg (by omega), if_pos rfl]; exact j4⟩
        (Or.inl (by omega))
      refine ⟨out, p, ?_, r1, r2, by rw [r3, length_swap],
        r4.trans (swap_perm arr i j2 (by omega) (by omega)), ?_, r6, r7⟩
      · intro fuel hf
        obtain ⟨f, rfl⟩ : ∃ f, fuel = f + 1 := ⟨fuel - 1, by omega⟩
        rw [hoareLoop, ei]
        simp only
        rw [ej]
        simp only
        rw [if_neg hge]
        exact r0 f (by omega)
      · intro k hk
        rw [r5 k hk, gs, if_neg (by omega), if_neg (by omega)]

/-- The contract of `partitionHoare`, with the result independent of the round
budget once it suffices. -/
theorem partitionHoare_spec (arr : List Int) (low high : Nat) (hlh : low < high)
    (hlen : high < arr.length) :
    ∃ out p, (∀ fuel, high + 2 - low ≤ 2 * fuel →
        partitionHoare fuel arr low high = .ok (out, p)) ∧
      low ≤ p ∧ p < high ∧ out.length = arr.length ∧ out.Perm arr ∧
      (∀ k, k < low ∨ high < k → get out k = get arr k) ∧
      (∀ k, low ≤ k → k ≤ p → get out k ≤ get arr low) ∧
      (∀ k, p < k → k ≤ high → get arr low ≤ get out k) := by
  obtain ⟨out, p, r0, r⟩ := hoareLoop_spec (get arr low) low high hlh _ arr low (high + 1) rfl
    hlen (le_refl _) (by omega) (le_refl _) (fun k a b => by omega) (fun k a b => by omega)
    ⟨low, le_refl _, by omega, le_refl _⟩ ⟨low, le_refl _, by omega, le_refl _⟩
    (Or.inr ⟨rfl, le_refl _⟩)
  refine ⟨out, p, ?_, r⟩
  intro fuel hf
  unfold partitionHoare
  exact r0 fuel (by omega)

theorem quickSortHoare_spec : ∀ (m : Nat) (arr : List Int) (low high : Nat),
    high + 1 - low = m → (low < high → high < arr.length) →
    ∃ out, (∀ fuel, 1 ≤ fuel → high + 1 - low ≤ fuel →
        quickSortHoare fuel arr low high = .ok out) ∧
      out.length = arr.length ∧ out.Perm arr ∧
      (∀ k, k < low ∨ high < k → get out k = get arr k) ∧
      (∀ i j, low ≤ i → i < j → j ≤ high → get out i ≤ get out j) := by
  intro m
  induction m using Nat.strong_induction_on with
  | _ m ih =>
    intro arr low high hm hlen
    by_cases hlh : low < high
    · have hhl := hlen hlh
      obtain ⟨a1, p, q0, q1, q2, q3, q4, q5, q6, q7⟩ := partitionHoare_spec arr low high hlh hhl
      obtain ⟨o1, e1, l1, p1, f1, s1⟩ := ih (p + 1 - low) (by omega) a1 low p rfl
        (fun _ => by omega)
      obtain ⟨o2, e2, l2, p2, f2, s2⟩ := ih (high + 1 - (p + 1)) (by omega) o1 (p + 1) high rfl
        (fun _ => by omega)
      refine ⟨o2, ?_, by omega, p2.trans (p1.trans q4), ?_, ?_⟩
      · intro fuel hf1 hf2
        obtain ⟨f, rfl⟩ : ∃ f, fuel = f + 1 := ⟨fuel - 1, by omega⟩
        rw [quickSortHoare, if_pos hlh, q0 (f + 1) (by omega)]
        simp only
        rw [e1 f (by omega) (by omega)]
        simp only
        exact e2 f (by omega) (by omega)
      · intro k hk
        rw [f2 k (by omega), f1 k (by omega)]
        exact q5 k hk
      · have hleft : ∀ k, low ≤ k → k ≤ p → get o2 k ≤ get arr low := by
          intro k h1 h2
          rw [f2 k (by omega)]
          obtain ⟨k2, b1, b2, _, b4⟩ := segment_get o1 a1 low (p + 1) l1
            (fun k hk => f1 k (by omega)) p1 k h1 (by omega) (by omega)
          rw [← b4]
          exact q6 k2 b1 (by omega)
        have hright : ∀ k, p < k → k ≤ high → get arr low ≤ get o2 k := by
          intro k h1 h2
          obtain ⟨k2, b1, b2, _, b4⟩ := segment_get o2 o1 (p + 1) (high + 1) l2
            (fun k hk => f2 k (by omega)) p2 k (by omega) (by omega) (by omega)
          rw [← b4, f1 k2 (by omega)]
          exact q7 k2 (by omega) (by omega)
        intro i j hi hij hj
        by_cases hjp : j ≤ p
        · rw [f2 i (by omega), f2 j (by omega)]
          exact s1 i j hi hij hjp
        · by_cases hip : p < i
          · exact s2 i j (by omega) hij hj
          · exact le_trans (hleft i hi (by omega)) (hright j (by omega) hj)
    · refine ⟨arr, ?_, rfl, List.Perm.refl _, fun _ _ => rfl, ?_⟩
      · intro fuel hf1 _
        obtain ⟨f, rfl⟩ : ∃ f, fuel = f + 1 := ⟨fuel - 1, by omega⟩
        rw [quickSortHoare, if_neg hlh]
      · intro i j h1 h2 h3
        omega

theorem quickSortHoare_demo :
    quickSortHoare 10 [64, 34, 25, 12, 22, 11, 90, 5, 77, 30] 0 9 =
      .ok [5, 11, 12, 22, 25, 30, 34, 64, 77, 90] := by
  rfl

/-! ## Shell sort -/

theorem set_get_self (arr : List Int) (i : Nat) : arr.set i (get arr i) = arr := by
  apply ext_get _ _ (by simp)
  intro j _
  rw [get_set]
  by_cases e : i = j
  · simp [e]
  · simp [e]

/-- Moving the hole: shifting `arr[j - gap]` up to `j` and putting the key at
`j - gap` swaps two positions of the vector with the key at `j`. -/
theorem set_shift_eq_swap (arr : List Int) (a b : Nat) (temp : Int) (hab : a < b)
    (hb : b < arr.length) :
    (arr.set b (get arr a)).set a temp = swap (arr.set b temp) a b := by
  apply ext_get
  · simp [swap]
  · intro j hj
    simp only [List.length_set] at hj
    rw [get_swap _ _ _ _ (by simp; omega) (by simp; omega)]
    simp only [get_set, List.length_set]
    by_cases e1 : j = b
    · subst e1
      have : ¬ a = j := by omega
      simp [this]; omega
    · by_cases e2 : j = a
      · subst e2; simp; omega
      · have a1 : ¬ a = j := fun h => e2 h.symm
        have a2 : ¬ b = j := fun h => e1 h.symm
        simp [e1, e2, a1, a2]

theorem gapShift_spec (gap : Nat) (hgap : 0 < gap) (temp : Int) :
    ∀ (j : Nat) (arr : List Int), j < arr.length →
    (gapShift gap hgap temp j arr).1.length = arr.length ∧
    (gapShift gap hgap temp j arr).2 ≤ j ∧
    ((gapShift gap hgap temp j arr).1.set (gapShift gap hgap temp j arr).2 temp).Perm
      (arr.set j temp) := by
  intro j
  induction j using Nat.strong_induction_on with
  | _ j ih =>
    intro arr hj
    rw [gapShift]
    by_cases h : j ≥ gap ∧ get arr (j - gap) > temp
    · rw [dif_pos h]
      obtain ⟨r1, r2, r3⟩ := ih (j - gap) (by omega) (arr.set j (get arr (j - gap)))
        (by simp; omega)
      refine ⟨by simpa using r1, by omega, r3.trans ?_⟩
      rw [set_shift_eq_swap arr (j - gap) j temp (by omega) hj]
      exact swap_perm _ _ _ (by simp; omega) (by simp; omega)
    · rw [dif_neg h]
      exact ⟨rfl, le_refl _, List.Perm.refl _⟩

theorem gapInsert_perm (gap : Nat) (hgap : 0 < gap) (arr : List Int) (i : Nat)
    (hi : i < arr.length) :
    (gapInsert gap hgap arr i).length = arr.length ∧ (gapInsert gap hgap arr i).Perm arr := by
  obtain ⟨r1, _, r3⟩ := gapShift_spec gap hgap (get arr i) i arr hi
  unfold gapInsert
  simp only
  rw [set_get_self] at r3
  exact ⟨by simp [r1], r3⟩

theorem gapPassLoop_perm (gap : Nat) (hgap : 0 < gap) : ∀ (cnt i : Nat) (arr : List Int),
    i + cnt ≤ arr.length →
    (gapPassLoop gap hgap cnt i arr).length = arr.length ∧
    (gapPassLoop gap hgap cnt i arr).Perm arr := by
  intro cnt
  induction cnt with
  | zero => intro i arr _; exact ⟨rfl, List.Perm.refl _⟩
  | succ cnt ih =>
    intro i arr h
    rw [gapPassLoop]
    obtain ⟨g1, g2⟩ := gapInsert_perm gap hgap arr i (by omega)
    obtain ⟨r1, r2⟩ := ih (i + 1) (gapInsert gap hgap arr i) (by omega)
    exact ⟨by omega, r2.trans g2⟩

theorem gapPass_perm (gap : Nat) (hgap : 0 < gap) (arr : List Int) :
    (gapPass arr.length gap hgap arr).length = arr.length ∧
    (gapPass arr.length gap hgap arr).Perm arr := by
  unfold gapPass
  by_cases h : gap ≤ arr.length
  · exact gapPassLoop_perm gap hgap _ _ arr (by omega)
  · have e : arr.length - gap = 0 := by omega
    rw [e]
    exact ⟨rfl, List.Perm.refl _⟩

/-- With gap `1` the gapped shifting loop is the shifting loop of `insertionSort`. -/
theorem gapShift_one (temp : Int) : ∀ (j : Nat) (arr : List Int),
    gapShift 1 Nat.one_pos temp j arr = insertShift temp j arr := by
  intro j
  induction j with
  | zero =>
    intro arr
    rw [gapShift, dif_neg (by omega)]
    rfl
  | succ j ih =>
    intro arr
    rw [gapShift, insertShift]
    simp only [Nat.add_sub_cancel]
    by_cases h : get arr j > temp
    · rw [dif_pos ⟨by omega, h⟩, if_pos h]
      exact ih _
    · rw [dif_neg (fun hh => h hh.2), if_neg h]

theorem gapInsert_one (arr : List Int) (i : Nat) :
    gapInsert 1 Nat.one_pos arr i = insertStep arr i := by
  unfold gapInsert insertStep
  simp only
  rw [gapShift_one]

theorem gapPassLoop_one_sorted : ∀ (cnt i : Nat) (arr : List Int), i + cnt = arr.length →
    1 ≤ i →
    (∀ a b, a < b → b < i → get arr a ≤ get arr b) →
    ∀ a b, a < b → b < arr.length →
      get (gapPassLoop 1 Nat.one_pos cnt i arr) a ≤ get (gapPassLoop 1 Nat.one_pos cnt i arr) b := by
  intro cnt
  induction cnt with
  | zero =>
    intro i arr hi _ hs a b hab hb
    exact hs a b hab (by omega)
  | succ cnt ih =>
    intro i arr hi h1 hs a b hab hb
    rw [gapPassLoop, gapInsert_one]
    obtain ⟨s1, _, _, s4⟩ := insertStep_spec arr i (by omega) hs
    exact ih (i + 1) (insertStep arr i) (by omega) (by omega) s4 a b hab (by omega)

/-- A pass with gap `1` leaves the vector sorted. -/
theorem gapPass_one_sorted (arr : List Int) :
    List.Sorted (· ≤ ·) (gapPass arr.length 1 Nat.one_pos arr) := by
  obtain ⟨hl, _⟩ := gapPass_perm 1 Nat.one_pos arr
  apply sorted_of_get
  intro a b hab hb
  rw [hl] at hb
  unfold gapPass
  exact gapPassLoop_one_sorted (arr.length - 1) 1 arr (by omega) (le_refl _)
    (fun a b h1 h2 => by omega) a b hab hb

theorem sorted_of_length_le_one (arr : List Int) (h : arr.length ≤ 1) :
    List.Sorted (· ≤ ·) arr := by
  apply sorted_of_get
  intro a b hab hb
  omega

theorem gapPass_congr (n g g2 : Nat) (h : 0 < g) (h2 : 0 < g2) (e : g = g2) (arr : List Int) :
    gapPass n g h arr = gapPass n g2 h2 arr := by
  subst e
  rfl

/-- The halving loop started at any positive gap ends with a gap `1` pass. -/
theorem shellHalving_spec : ∀ (gap : Nat) (arr : List Int), (1 ≤ gap ∨ arr.length ≤ 1) →
    List.Sorted (· ≤ ·) (shellHalving arr.length gap arr) ∧
    (shellHalving arr.length gap arr).Perm arr := by
  intro gap
  induction gap using Nat.strong_induction_on with
  | _ gap ih =>
    intro arr hg
    rw [shellHalving]
    by_cases h : gap > 0
    · rw [dif_pos h]
      obtain ⟨pl, pp⟩ := gapPass_perm gap h arr
      by_cases h1 : gap = 1
      · subst h1
        rw [shellHalving, dif_neg (by decide)]
        exact ⟨gapPass_one_sorted arr, pp⟩
      · have := ih (gap / 2) (Nat.div_lt_self h (by decide)) (gapPass arr.length gap h arr)
          (Or.inl (by omega))
        rw [pl] at this
        exact ⟨this.1, this.2.trans pp⟩
    · rw [dif_neg h]
      exact ⟨sorted_of_length_le_one arr (by omega), List.Perm.refl _⟩

theorem shellSort_spec (arr : List Int) :
    List.Sorted (· ≤ ·) (shellSort arr) ∧ (shellSort arr).Perm arr := by
  unfold shellSort
  apply shellHalving_spec
  omega

theorem knuthGap_pos (k : Nat) : 1 ≤ knuthGap k := by
  cases k with
  | zero => exact le_refl _
  | succ k => rw [knuthGap]; omega

/-- The Knuth loop started at a gap of the sequence `1, 4, 13, 40, ...` ends with a
gap `1` pass. -/
theorem knuthLoop_spec : ∀ (k : Nat) (arr : List Int),
    List.Sorted (· ≤ ·) (knuthLoop arr.length (knuthGap k) arr) ∧
    (knuthLoop arr.length (knuthGap k) arr).Perm arr := by
  intro k
  induction k with
  | zero =>
    intro arr
    have e : knuthGap 0 = 1 := rfl
    rw [e, knuthLoop, dif_pos (le_refl 1), knuthLoop, dif_neg (by decide)]
    exact ⟨gapPass_one_sorted arr, (gapPass_perm 1 _ arr).2⟩
  | succ k ih =>
    intro arr
    have hp : knuthGap (k + 1) ≥ 1 := knuthGap_pos _
    have hd : knuthGap (k + 1) / 3 = knuthGap k := by rw [knuthGap]; omega
    rw [knuthLoop, dif_pos hp, hd]
    obtain ⟨pl, pp⟩ := gapPass_perm (knuthGap (k + 1)) hp arr
    have := ih (gapPass arr.length (knuthGap (k + 1)) hp arr)
    rw [pl] at this
    exact ⟨this.1, this.2.trans pp⟩

/-- The starting gap computed by `shellSortKnuth` is a member of the sequence. -/
theorem knuthStart_is_knuthGap (n : Nat) : ∀ (m k : Nat), n / 3 - knuthGap k = m →
    ∃ k2, knuthStart n (knuthGap k) = knuthGap k2 := by
  intro m
  induction m using Nat.strong_induction_on with
  | _ m ih =>
    intro k hm
    rw [knuthStart]
    by_cases h : knuthGap k < n / 3
    · rw [dif_pos h]
      have e : 3 * knuthGap k + 1 = knuthGap (k + 1) := rfl
      rw [e]
      exact ih (n / 3 - knuthGap (k + 1)) (by rw [← e]; omega) (k + 1) rfl
    · rw [dif_neg h]
      exact ⟨k, rfl⟩

theorem shellSortKnuth_spec (arr : List Int) :
    List.Sorted (· ≤ ·) (shellSortKnuth arr) ∧ (shellSortKnuth arr).Perm arr := by
  unfold shellSortKnuth
  obtain ⟨k2, hk⟩ := knuthStart_is_knuthGap arr.length _ 0 rfl
  have e : knuthGap 0 = 1 := rfl
  rw [e] at hk
  rw [hk]
  exact knuthLoop_spec k2 arr

theorem two_pow_le_int (k : Nat) (hk : k ≤ 30) : 2 ^ k ≤ 1073741824 := by
  have h1 : 2 ^ k ≤ 2 ^ 30 := Nat.pow_le_pow_right (by omega) hk
  have h2 : (2 : Nat) ^ 30 = 1073741824 := by norm_num
  omega

/-- For a vector of fewer than `2^30` elements the first loop of `shellSortHibbard`
ends with an exponent of at most `30`, and `1 << k` never overflows. -/
theorem hibbardStart_spec (n : Nat) (hn : n < 1073741824) : ∀ (m k : Nat),
    n + 1 - 2 ^ k = m → k ≤ 30 → ∃ k2, hibbardStart n k = .ok k2 ∧ k ≤ k2 ∧ k2 ≤ 30 := by
  intro m
  induction m using Nat.strong_induction_on with
  | _ m ih =>
    intro k hm hk
    have hb := two_pow_le_int k hk
    rw [hibbardStart, if_neg (by omega)]
    by_cases h : 2 ^ k - 1 < n
    · rw [dif_pos h]
      have h2 : 0 < 2 ^ k := Nat.pow_pos (by decide)
      have h1 : 2 ^ (k + 1) = 2 * 2 ^ k := by rw [Nat.pow_succ]; omega
      have hk2 : k + 1 ≤ 30 := by
        by_contra hc
        have e : k = 30 := by omega
        rw [e] at h
        have h3 : (2 : Nat) ^ 30 = 1073741824 := by norm_num
        omega
      obtain ⟨k2, e, g1, g2⟩ := ih (n + 1 - 2 ^ (k + 1)) (by omega) (k + 1) rfl hk2
      exact ⟨k2, e, by omega, g2⟩
    · rw [dif_neg h]
      exact ⟨k, rfl, le_refl _, hk⟩

/-- For a vector of `2^30` elements or more the first loop of `shellSortHibbard`
reaches `k = 31`, where `1 << k` overflows. -/
theorem hibbardStart_overflow (n : Nat) (hn : 1073741824 ≤ n) : ∀ (j k : Nat),
    k + j = 31 → hibbardStart n k = .error .overflow := by
  intro j
  induction j with
  | zero =>
    intro k hk
    have e : k = 31 := by omega
    subst e
    rw [hibbardStart, if_pos (by norm_num)]
  | succ j ih =>
    intro k hk
    have hb := two_pow_le_int k (by omega)
    rw [hibbardStart, if_neg (by omega), dif_pos (by omega)]
    exact ih (k + 1) (by omega)

/-- The Hibbard loop started at an exponent `k + 1 ≤ 30` ends with a gap `1` pass. -/
theorem hibbardLoop_spec : ∀ (k : Nat), k + 1 ≤ 30 → ∀ (arr : List Int),
    ∃ out, hibbardLoop arr.length (k + 1) arr = .ok out ∧
    List.Sorted (· ≤ ·) out ∧ out.Perm arr := by
  intro k
  induction k with
  | zero =>
    intro _ arr
    rw [hibbardLoop, if_neg (by norm_num), hibbardLoop,
      gapPass_congr arr.length (2 ^ (0 + 1) - 1) 1 _ Nat.one_pos (by decide)]
    exact ⟨_, rfl, gapPass_one_sorted arr, (gapPass_perm 1 _ arr).2⟩
  | succ k ih =>
    intro hk arr
    have hb := two_pow_le_int (k + 1 + 1) hk
    rw [hibbardLoop, if_neg (by omega)]
    obtain ⟨pl, pp⟩ := gapPass_perm (2 ^ (k + 1 + 1) - 1)
      (by have := Nat.one_lt_two_pow (Nat.succ_ne_zero (k + 1)); omega) arr
    have := ih (by omega) (gapPass arr.length (2 ^ (k + 1 + 1) - 1)
      (by have := Nat.one_lt_two_pow (Nat.succ_ne_zero (k + 1)); omega) arr)
    rw [pl] at this
    obtain ⟨out, e, so, po⟩ := this
    exact ⟨out, e, so, po.trans pp⟩

theorem shellSortHibbard_spec (arr : List Int) (hlen : arr.length < 1073741824) :
    ∃ out, shellSortHibbard arr = .ok out ∧ List.Sorted (· ≤ ·) out ∧ out.Perm arr := by
  unfold shellSortHibbard
  by_cases h : arr.length ≤ 1
  · have e : hibbardStart arr.length 1 = .ok 1 := by
      rw [hibbardStart, if_neg (by norm_num), dif_neg (by simp; omega)]
    rw [e]
    exact ⟨arr, rfl, sorted_of_length_le_one arr h, List.Perm.refl _⟩
  · have e : hibbardStart arr.length 1 = hibbardStart arr.length 2 := by
      rw [hibbardStart, if_neg (by norm_num), dif_pos (by simp; omega)]
    obtain ⟨k2, e2, g1, g2⟩ := hibbardStart_spec arr.length hlen _ 2 rfl (by omega)
    rw [e, e2]
    simp only
    obtain ⟨k, hk⟩ : ∃ k, k2 - 1 = k + 1 := ⟨k2 - 2, by omega⟩
    rw [hk]
    exact hibbardLoop_spec k (by omega) arr

/-- On a vector of `2^30` elements or more `shellSortHibbard` overflows while it
computes its first gap. -/
theorem shellSortHibbard_overflow (arr : List Int) (hlen : 1073741824 ≤ arr.length) :
    shellSortHibbard arr = .error .overflow := by
  unfold shellSortHibbard
  rw [hibbardStart_overflow arr.length hlen 30 1 (by omega)]

/-- The three shell sorts on the demonstration vector of the program. -/
theorem shellSort_demo :
    shellSort [64, 34, 25, 12, 22, 11, 90, 5, 77, 30] = [5, 11, 12, 22, 25, 30, 34, 64, 77, 90] ∧
    shellSortKnuth [64, 34, 25, 12, 22, 11, 90, 5, 77, 30]
      = [5, 11, 12, 22, 25, 30, 34, 64, 77, 90] ∧
    shellSortHibbard [64, 34, 25, 12, 22, 11, 90, 5, 77, 30]
      = .ok [5, 11, 12, 22, 25, 30, 34, 64, 77, 90] := by
  have h := shellSort_spec [64, 34, 25, 12, 22, 11, 90, 5, 77, 30]
  have h2 := shellSortKnuth_spec [64, 34, 25, 12, 22, 11, 90, 5, 77, 30]
  obtain ⟨out, e, h3⟩ := shellSortHibbard_spec [64, 34, 25, 12, 22, 11, 90, 5, 77, 30]
    (by decide)
  have hs : List.Sorted (· ≤ ·) ([5, 11, 12, 22, 25, 30, 34, 64, 77, 90] : List Int) := by
    simp [List.Sorted]
  have hp : ([5, 11, 12, 22, 25, 30, 34, 64, 77, 90] : List Int).Perm
      [64, 34, 25, 12, 22, 11, 90, 5, 77, 30] := by decide
  refine ⟨List.eq_of_perm_of_sorted (h.2.trans hp.symm) h.1 hs,
    List.eq_of_perm_of_sorted (h2.2.trans hp.symm) h2.1 hs, ?_⟩
  rw [e, List.eq_of_perm_of_sorted (h3.2.trans hp.symm) h3.1 hs]

/-! ## Merge sort, bottom-up -/

/-- One pass of `mergeSortIterative` with run size `s`, where `n + s` does not exceed
`2^31`: no index expression overflows, and blocks of size `2 * s` are sorted
afterwards. -/
theorem mergePassLoop_spec (n s : Nat) (hs : 0 < s) (hov : n + s ≤ 2147483648) :
    ∀ (m q0 : Nat) (arr : List Int), n - q0 * (2 * s) = m → arr.length = n →
    (∀ q a b, q < q0 → q * (2 * s) ≤ a → a < b → b < q * (2 * s) + 2 * s → b < n →
      get arr a ≤ get arr b) →
    (∀ q a b, 2 * q0 ≤ q → q * s ≤ a → a < b → b < q * s + s → b < n →
      get arr a ≤ get arr b) →
    ∃ out, mergePassLoop n s hs (q0 * (2 * s)) arr = .ok out ∧
    out.length = n ∧ out.Perm arr ∧ BlockSorted n (2 * s) out := by
  intro m
  induction m using Nat.strong_induction_on with
  | _ m ih =>
    intro q0 arr hm hlen i1 i2
    have e1 : 2 * q0 * s = q0 * (2 * s) := by ring
    have e2 : (2 * q0 + 1) * s = q0 * (2 * s) + s := by ring
    have e3 : (q0 + 1) * (2 * s) = q0 * (2 * s) + 2 * s := by ring
    rw [mergePassLoop]
    by_cases h : q0 * (2 * s) < n - s
    · rw [dif_pos h, if_neg (by omega)]
      simp only
      generalize hL : q0 * (2 * s) = L at *
      have hright : min (L + 2 * s - 1) (n - 1) < arr.length := by
        rw [hlen]; omega
      obtain ⟨ml, mp, mo, ms, _⟩ := merge_spec arr L (L + s - 1)
        (min (L + 2 * s - 1) (n - 1)) (by omega) (by omega) hright
        (fun a b ha hab hb => i2 (2 * q0) a b (le_refl _) (by omega) hab (by omega) (by omega))
        (fun a b ha hab hb => i2 (2 * q0 + 1) a b (by omega) (by omega) hab (by omega)
          (by omega))
      generalize merge arr L (L + s - 1) (min (L + 2 * s - 1) (n - 1)) = arr2 at *
      have key := ih (n - (L + 2 * s)) (by omega) (q0 + 1) arr2 (by rw [e3]) (by omega)
        (by
          intro q a b hq ha hab hb hbn
          by_cases hq0 : q < q0
          · have hm1 : (q + 1) * (2 * s) ≤ q0 * (2 * s) := Nat.mul_le_mul_right _ hq0
            have hm2 : (q + 1) * (2 * s) = q * (2 * s) + 2 * s := by ring
            rw [mo a (by omega), mo b (by omega)]
            exact i1 q a b hq0 ha hab hb hbn
          · have hq1 : q = q0 := by omega
            subst hq1
            exact ms a b (by omega) hab (by omega))
        (by
          intro q a b hq ha hab hb hbn
          have hm1 : (2 * q0 + 2) * s ≤ q * s := Nat.mul_le_mul_right _ (by omega)
          have hm2 : (2 * q0 + 2) * s = q0 * (2 * s) + 2 * s := by ring
          rw [mo a (by omega), mo b (by omega)]
          exact i2 q a b (by omega) ha hab hb hbn)
      rw [e3] at key
      obtain ⟨out, k0, k1, k2, k3⟩ := key
      exact ⟨out, k0, k1, k2.trans mp, k3⟩
    · rw [dif_neg h]
      refine ⟨arr, rfl, hlen, List.Perm.refl _, ?_⟩
      intro q a b ha hab hb hbn
      by_cases hq0 : q < q0
      · exact i1 q a b hq0 ha hab hb hbn
      · have hm1 : q0 * (2 * s) ≤ q * (2 * s) := Nat.mul_le_mul_right _ (by omega)
        by_cases hq1 : q = q0
        · subst hq1
          exact i2 (2 * q) a b (le_refl _) (by omega) hab (by omega) hbn
        · have hm3 : (q0 + 1) * (2 * s) ≤ q * (2 * s) := Nat.mul_le_mul_right _ (by omega)
          omega

/-- A pass either returns or overflows; it has no other way to fail. -/
theorem mergePassLoop_cases (n s : Nat) (hs : 0 < s) :
    ∀ (m left : Nat) (arr : List Int), n - left = m →
    (∃ out, mergePassLoop n s hs left arr = .ok out) ∨
      mergePassLoop n s hs left arr = .error .overflow := by
  intro m
  induction m using Nat.strong_induction_on with
  | _ m ih =>
    intro left arr hm
    rw [mergePassLoop]
    by_cases h : left < n - s
    · rw [dif_pos h]
      by_cases h2 : 2147483647 < left + 2 * s
      · rw [if_pos h2]; exact Or.inr rfl
      · rw [if_neg h2]
        exact ih (n - (left + 2 * s)) (by omega) _ _ rfl
    · rw [dif_neg h]; exact Or.inl ⟨arr, rfl⟩

theorem mergeSizeLoop_spec (n : Nat) (hn : n ≤ 1073741824) :
    ∀ (m k : Nat) (arr : List Int),
    n - 2 ^ k = m → arr.length = n → BlockSorted n (2 ^ k) arr →
    ∃ out, mergeSizeLoop n (2 ^ k) (Nat.pow_pos (by decide)) arr = .ok out ∧
    List.Sorted (· ≤ ·) out ∧ out.Perm arr := by
  intro m
  induction m using Nat.strong_induction_on with
  | _ m ih =>
    intro k arr hm hlen hb
    have hs : 0 < 2 ^ k := Nat.pow_pos (by decide)
    rw [mergeSizeLoop]
    by_cases h : 2 ^ k < n
    · rw [dif_pos h]
      have hk : k < 30 := by
        by_contra hc
        have h1 : 2 ^ 30 ≤ 2 ^ k := Nat.pow_le_pow_right (by omega) (by omega)
        have h2 : (2 : Nat) ^ 30 = 1073741824 := by norm_num
        omega
      have hsmall : 2 ^ k ≤ 536870912 := by
        have h1 : 2 ^ k ≤ 2 ^ 29 := Nat.pow_le_pow_right (by omega) (by omega)
        have h2 : (2 : Nat) ^ 29 = 536870912 := by norm_num
        omega
      have p := mergePassLoop_spec n (2 ^ k) hs (by omega) _ 0 arr rfl hlen
        (fun q a b hq => absurd hq (Nat.not_lt_zero _))
        (fun q a b _ ha hab hb2 hbn => hb q a b ha hab hb2 hbn)
      rw [Nat.zero_mul] at p
      obtain ⟨mid, p0, pl, pp, pb⟩ := p
      rw [p0]
      simp only
      rw [if_neg (by omega)]
      have e : 2 * 2 ^ k = 2 ^ (k + 1) := by rw [Nat.pow_succ]; omega
      have e2 : 2 ^ k * 2 = 2 ^ (k + 1) := by rw [Nat.pow_succ]
      rw [e] at pb
      obtain ⟨out, k0, k1, k2⟩ := ih (n - 2 ^ (k + 1)) (by omega) (k + 1) mid rfl pl pb
      refine ⟨out, ?_, k1, k2.trans pp⟩
      rw [← k0]
      congr 1
    · rw [dif_neg h]
      refine ⟨arr, rfl, ?_, List.Perm.refl _⟩
      apply sorted_of_get
      intro a b hab hbl
      exact hb 0 a b (by omega) hab (by omega) (by omega)

/-- With more than `2^30` elements the run size reaches `2^30` while still below
`n`, and the pass with that size overflows in `2 * size`. -/
theorem mergeSizeLoop_overflow (n : Nat) (hn : 1073741824 < n) :
    ∀ (j k : Nat) (arr : List Int), k + j = 30 →
    mergeSizeLoop n (2 ^ k) (Nat.pow_pos (by decide)) arr = .error .overflow := by
  intro j
  induction j with
  | zero =>
    intro k arr hk
    have e : k = 30 := by omega
    subst e
    have h2 : (2 : Nat) ^ 30 = 1073741824 := by norm_num
    rw [mergeSizeLoop, dif_pos (by omega), mergePassLoop, dif_pos (by omega),
      if_pos (by omega)]
  | succ j ih =>
    intro k arr hk
    have h1 : 2 ^ k ≤ 2 ^ 29 := Nat.pow_le_pow_right (by omega) (by omega)
    have h2 : (2 : Nat) ^ 29 = 536870912 := by norm_num
    have hs : 0 < 2 ^ k := Nat.pow_pos (by decide)
    rw [mergeSizeLoop, dif_pos (by omega)]
    rcases mergePassLoop_cases n (2 ^ k) hs _ 0 arr rfl with ⟨mid, p0⟩ | p0
    · rw [p0]
      simp only
      rw [if_neg (by omega)]
      have := ih (k + 1) mid (by omega)
      rw [← this]
      congr 1
    · rw [p0]

theorem mergeSortIterative_spec (arr : List Int) (hlen : arr.length ≤ 1073741824) :
    ∃ out, mergeSortIterative arr = .ok out ∧ List.Sorted (· ≤ ·) out ∧ out.Perm arr := by
  unfold mergeSortIterative
  by_cases h : arr.length ≤ 1
  · rw [if_pos h]
    exact ⟨arr, rfl, sorted_of_length_le_one arr h, List.Perm.refl _⟩
  · rw [if_neg h]
    have := mergeSizeLoop_spec arr.length hlen _ 0 arr rfl rfl (by
      intro q a b ha hab hb _
      simp only [pow_zero] at ha hb
      omega)
    exact this

/-- On a vector of more than `2^30` elements `mergeSortIterative` overflows. -/
theorem mergeSortIterative_overflow (arr : List Int) (hlen : 1073741824 < arr.length) :
    mergeSortIterative arr = .error .overflow := by
  unfold mergeSortIterative
  rw [if_neg (by omega)]
  exact mergeSizeLoop_overflow arr.length hlen 30 0 arr (by omega)

theorem mergeSort_spec (arr : List Int) :
    List.Sorted (· ≤ ·) (mergeSort arr) ∧ (mergeSort arr).Perm arr := by
  unfold mergeSort
  cases arr with
  | nil => simp
  | cons a t =>
    simp only [List.isEmpty_cons, Bool.false_eq_true, if_false]
    obtain ⟨s, e, hs, hp⟩ := mergeSortRecursive_spec _ [] (a :: t) [] 0 ((a :: t).length - 1)
      rfl rfl (fun _ => by simp) (fun h => by simp at h)
    simp only [List.nil_append, List.append_nil] at e
    rw [e]
    exact ⟨hs, hp⟩

/-- For a vector of at most `2^30` elements the bottom-up `mergeSortIterative` (run
sizes 1, 2, 4, ... with the end of the right run clamped to `n - 1`) returns exactly
the sequence the recursive `mergeSort` produces, the non-descending permutation of
the input. -/
theorem mergeSortIterative_eq_mergeSort (arr : List Int) (hlen : arr.length ≤ 1073741824) :
    mergeSortIterative arr = .ok (mergeSort arr) ∧
    List.Sorted (· ≤ ·) (mergeSort arr) ∧ (mergeSort arr).Perm arr := by
  obtain ⟨out, e, s1, p1⟩ := mergeSortIterative_spec arr hlen
  obtain ⟨s2, p2⟩ := mergeSort_spec arr
  rw [e, List.eq_of_perm_of_sorted (p1.trans p2.symm) s1 s2]
  exact ⟨rfl, s2, p2⟩

theorem mergeSort_replicate (n : Nat) (a : Int) :
    mergeSort (List.replicate n a) = List.replicate n a := by
  obtain ⟨_, p⟩ := mergeSort_spec (List.replicate n a)
  exact List.eq_replicate_of_mem (fun b hb => List.eq_of_mem_replicate (p.mem_iff.1 hb))
    |>.trans (by rw [p.length_eq, List.length_replicate])

/-- C13, the defect: on a vector of `2^30 + 1` elements (here all zero; the contents
play no part) the run size of `mergeSortIterative` reaches `2^30`, still below `n`,
and `right = std::min(left + 2 * size - 1, n - 1)` evaluates `2 * size = 2^31`: signed
overflow, so the function does not deliver the sequence of the recursive `mergeSort`,
which handles the same vector and returns it sorted.  The same holds for every vector
of more than `2^30` (and at most `2^31 - 1`) elements, while up to `2^30` elements the
two functions agree. -/
theorem mergeSortIterative_index_overflow :
    (List.replicate 1073741825 (0 : Int)).length = 1073741825 ∧
    mergeSortIterative (List.replicate 1073741825 0) = .error .overflow ∧
    mergeSort (List.replicate 1073741825 0) = List.replicate 1073741825 0 ∧
    (∀ arr : List Int, 1073741824 < arr.length → arr.length ≤ 2147483647 →
      mergeSortIterative arr = .error .overflow) ∧
    (∀ arr : List Int, arr.length ≤ 1073741824 →
      mergeSortIterative arr = .ok (mergeSort arr)) :=
  ⟨List.length_replicate _ _,
    mergeSortIterative_overflow _ (by rw [List.length_replicate]; omega),
    mergeSort_replicate _ _,
    fun arr h _ => mergeSortIterative_overflow arr h,
    fun arr h => (mergeSortIterative_eq_mergeSort arr h).1⟩

/-- The bottom-up merge sort on the demonstration vector of the program. -/
theorem mergeSortIterative_demo :
    mergeSortIterative [64, 34, 25, 12, 22, 11, 90, 5, 77, 30]
      = .ok [5, 11, 12, 22, 25, 30, 34, 64, 77, 90] := by
  obtain ⟨out, e, h⟩ := mergeSortIterative_spec [64, 34, 25, 12, 22, 11, 90, 5, 77, 30]
    (by decide)
  rw [e, List.eq_of_perm_of_sorted (h.2.trans (by decide)) h.1
    (show List.Sorted (· ≤ ·) ([5, 11, 12, 22, 25, 30, 34, 64, 77, 90] : List Int) by
      simp [List.Sorted])]

/-! ## Empty and single-element vectors -/

theorem length_le_one_cases (arr : List Int) (h : arr.length ≤ 1) :
    arr = [] ∨ ∃ x, arr = [x] := by
  match arr, h with
  | [], _ => exact Or.inl rfl
  | [x], _ => exact Or.inr ⟨x, rfl⟩
  | _ :: _ :: _, h => simp at h

theorem checked_bubbleSort_trivial (arr : List Int) (h : arr.length ≤ 1) :
    Checked.bubbleSort arr = .ok arr := by
  rcases length_le_one_cases arr h with rfl | ⟨x, rfl⟩ <;> rfl

theorem checked_selectionSort_trivial (arr : List Int) (h : arr.length ≤ 1) :
    Checked.selectionSort arr = .ok arr := by
  rcases length_le_one_cases arr h with rfl | ⟨x, rfl⟩ <;> rfl

theorem checked_bidirectionalSelectionSort_trivial (arr : List Int) (h : arr.length ≤ 1) :
    Checked.bidirectionalSelectionSort arr = .ok arr := by
  unfold Checked.bidirectionalSelectionSort
  simp only
  rw [Checked.bidirectionalLoop, dif_neg (by omega)]
  rfl

theorem checked_insertionSort_trivial (arr : List Int) (h : arr.length ≤ 1) :
    Checked.insertionSort arr = .ok arr := by
  rcases length_le_one_cases arr h with rfl | ⟨x, rfl⟩ <;> rfl

theorem checked_binaryInsertionSort_trivial (arr : List Int) (h : arr.length ≤ 1) :
    Checked.binaryInsertionSort arr = .ok arr := by
  rcases length_le_one_cases arr h with rfl | ⟨x, rfl⟩ <;> rfl

theorem checked_shellSort_trivial (arr : List Int) (h : arr.length ≤ 1) :
    Checked.shellSort arr = .ok arr := by
  unfold Checked.shellSort
  have e : arr.length / 2 = 0 := by omega
  rw [e, Checked.shellHalving, dif_neg (by decide)]
  rfl

theorem knuthStart_trivial (n : Nat) (h : n ≤ 1) : knuthStart n 1 = 1 := by
  rw [knuthStart, dif_neg (by omega)]

theorem hibbardStart_trivial (n : Nat) (h : n ≤ 1) : hibbardStart n 1 = .ok 1 := by
  rw [hibbardStart, if_neg (by norm_num), dif_neg (by simp; omega)]

theorem checked_shellSortKnuth_trivial (arr : List Int) (h : arr.length ≤ 1) :
    Checked.shellSortKnuth arr = .ok arr := by
  unfold Checked.shellSortKnuth
  rw [knuthStart_trivial _ h, Checked.knuthLoop, dif_pos (le_refl 1)]
  have e : arr.length - 1 = 0 := by omega
  simp only [Checked.gapPass, e, Checked.gapPassLoop, bind, Except.bind, pure, Except.pure]
  rw [Checked.knuthLoop, dif_neg (by decide)]
  rfl

theorem checked_shellSortHibbard_trivial (arr : List Int) (h : arr.length ≤ 1) :
    Checked.shellSortHibbard arr = .ok arr := by
  unfold Checked.shellSortHibbard
  rw [hibbardStart_trivial _ h]
  rfl

theorem checked_mergeSort_trivial (arr : List Int) (h : arr.length ≤ 1) :
    Checked.mergeSort arr = .ok arr := by
  rcases length_le_one_cases arr h with rfl | ⟨x, rfl⟩
  · rfl
  · unfold Checked.mergeSort
    simp only [List.isEmpty_cons, Bool.false_eq_true, if_false]
    rw [Checked.mergeSortRecursive, dif_pos (by simp)]
    rfl

theorem checked_mergeSortIterative_trivial (arr : List Int) (h : arr.length ≤ 1) :
    Checked.mergeSortIterative arr = .ok arr := by
  unfold Checked.mergeSortIterative
  rw [if_pos h]
  rfl

theorem checked_quickSort_trivial (fuel : Nat) (arr : List Int) (h : arr.length ≤ 1) :
    Checked.quickSort fuel arr = .ok arr := by
  unfold Checked.quickSort
  rw [if_pos h]
  rfl

theorem checked_heapSort_trivial (fuel : Nat) (arr : List Int) (h : arr.length ≤ 1) :
    Checked.heapSort fuel arr = .ok arr := by
  rcases length_le_one_cases arr h with rfl | ⟨x, rfl⟩
  · rfl
  · have e : (((1 : Nat) : Int) / 2).toNat = 0 := by decide
    simp only [Checked.heapSort, List.length_singleton, e, Checked.buildHeapLoop, bind,
      Except.bind, pure, Except.pure]
    rfl

theorem checked_countingSortStable_trivial (arr : List Int) (h : arr.length ≤ 1) :
    Checked.countingSortStable arr = .ok arr := by
  rcases length_le_one_cases arr h with rfl | ⟨x, rfl⟩
  · rfl
  · simp [Checked.countingSortStable, maxElement, minElement, wrap32, Checked.newVector,
      countKeys, tableGet, tableSet, Checked.prefixSums, Checked.placeLoop, get, bind,
      Except.bind, pure, Except.pure]

theorem checked_bucketSort_trivial (arr : List Int) (h : arr.length ≤ 1) :
    Checked.bucketSort arr = .ok arr := by
  rcases length_le_one_cases arr h with rfl | ⟨x, rfl⟩
  · rfl
  · simp [Checked.bucketSort, maxElement, minElement, wrap32, intDiv, distribute,
      Checked.collectBuckets, Checked.writeBucket, stdSort, tableSet, bind,
      Except.bind, pure, Except.pure]

theorem get_replicate_zero (N j : Nat) : get (List.replicate N (0 : Int)) j = 0 := by
  by_cases h : j < N
  · rw [get_eq_getElem _ _ (by simpa using h)]
    simp
  · exact get_of_length_le _ _ (by simpa using Nat.le_of_not_lt h)

theorem checked_rebuildLoop_single (n : Nat) : ∀ (m i : Nat), i + m = n + 1 → i ≤ n →
    Checked.rebuildLoop m (i : Int) ((List.replicate (n + 1) (0 : Int)).set n 1) [(n : Int)] 0
      = .ok [(n : Int)] := by
  intro m
  induction m with
  | zero => intro i h1 h2; omega
  | succ m ih =>
    intro i h1 h2
    have hlen : ((List.replicate (n + 1) (0 : Int)).set n 1).length = n + 1 := by simp
    rw [Checked.rebuildLoop, tableGet_ok _ i (by rw [hlen]; omega), get_set,
      get_replicate_zero]
    by_cases hi : n = i
    · subst hi
      have hm : m = 0 := by omega
      subst hm
      have e1 : tableSet [(n : Int)] 0 (n : Int) = .ok [(n : Int)] := by
        simp [tableSet]
      have e2 : tableGet ((List.replicate (n + 1) (0 : Int)).set n 1) (n : Int) = .ok 1 := by
        rw [tableGet_ok _ n (by rw [hlen]; omega), get_set]
        simp
      have e3 : tableSet ((List.replicate (n + 1) (0 : Int)).set n 1) (n : Int) 0
          = .ok (((List.replicate (n + 1) (0 : Int)).set n 1).set n 0) :=
        tableSet_ok _ n _ (by rw [hlen]; omega)
      simp [Checked.emitValue, Checked.rebuildLoop, e1, e2, e3, bind, Except.bind, pure,
        Except.pure]
    · have hne : ¬ (n = i ∧ n < (List.replicate (n + 1) (0 : Int)).length) := fun hh => hi hh.1
      rw [if_neg hne]
      have := ih (i + 1) (by omega) (by omega)
      simpa [Checked.emitValue, bind, Except.bind, pure, Except.pure] using this

theorem checked_countingSort_single (x : Int) (h0 : 0 ≤ x) (h1 : x ≤ 2147483646) :
    Checked.countingSort [x] = .ok [x] := by
  obtain ⟨n, rfl⟩ : ∃ n : Nat, x = (n : Int) := ⟨x.toNat, by omega⟩
  have hm : maxElement [(n : Int)] = (n : Int) := rfl
  have hw : wrap32 ((n : Int) + 1) = ((n + 1 : Nat) : Int) := by
    rw [wrap32_of_inRange _ (by omega) (by omega)]
    simp
  have hv : Checked.newVector ((n + 1 : Nat) : Int) = .ok (List.replicate (n + 1) 0) := by
    unfold Checked.newVector
    rw [if_neg (by omega), Int.toNat_ofNat]
  have hg : tableGet (List.replicate (n + 1) (0 : Int)) (n : Int) = .ok 0 := by
    rw [tableGet_ok (List.replicate (n + 1) (0 : Int)) n (by simp), get_replicate_zero]
  have hs : tableSet (List.replicate (n + 1) (0 : Int)) (n : Int) (0 + 1)
      = .ok ((List.replicate (n + 1) (0 : Int)).set n 1) := by
    rw [tableSet_ok (List.replicate (n + 1) (0 : Int)) n _ (by simp), zero_add]
  have hc : countKeys (fun num => .ok num) [(n : Int)] (List.replicate (n + 1) (0 : Int))
      = .ok ((List.replicate (n + 1) (0 : Int)).set n 1) := by
    simp only [countKeys, hg, hs]
  have ht : ((n : Int) + 1).toNat = n + 1 := by omega
  have hr := checked_rebuildLoop_single n (n + 1) 0 (by omega) (by omega)
  unfold Checked.countingSort
  rw [if_neg (by simp)]
  rw [hm]
  dsimp only
  rw [hw, ht, hv]
  dsimp only [bind, Except.bind]
  rw [hc]
  dsimp only
  rw [Nat.cast_zero] at hr
  exact hr
theorem checked_prefixSums_single (d : Nat) (h : d < 10) :
    ∃ T, Checked.prefixSums 9 1 ((List.replicate 10 (0 : Int)).set d 1) = .ok T ∧
      tableGet T (d : Int) = .ok 1 ∧ ∃ T2, tableSet T (d : Int) (1 - 1) = .ok T2 := by
  interval_cases d <;> exact ⟨_, rfl, rfl, _, rfl⟩

theorem checked_countingSortByDigit_single (x exp : Int) (hx : 0 ≤ x) (he : 0 < exp) :
    Checked.countingSortByDigit [x] exp = .ok [x] := by
  obtain ⟨hd, hlt⟩ := digitOf_ok exp x hx he
  generalize digitKey exp x = d at hd hlt
  obtain ⟨T, hp, hg, T2, hs⟩ := checked_prefixSums_single d hlt
  have hv1 : Checked.newVector ((([x] : List Int).length : Nat) : Int) = .ok [0] := rfl
  have hv10 : Checked.newVector 10 = .ok (List.replicate 10 0) := rfl
  have hg0 : tableGet (List.replicate 10 (0 : Int)) (d : Int) = .ok 0 := by
    rw [tableGet_ok (List.replicate 10 (0 : Int)) d (by simpa using hlt), get_replicate_zero]
  have hs0 : tableSet (List.replicate 10 (0 : Int)) (d : Int) (0 + 1)
      = .ok ((List.replicate 10 (0 : Int)).set d 1) := by
    rw [tableSet_ok (List.replicate 10 (0 : Int)) d _ (by simpa using hlt), zero_add]
  have hc : countKeys (digitOf exp) [x] (List.replicate 10 0)
      = .ok ((List.replicate 10 (0 : Int)).set d 1) := by
    simp only [countKeys, hd, hg0, hs0]
  have hx0 : tableGet [x] ((([x] : List Int).length : Nat) - 1 : Int) = .ok x := rfl
  have ho : tableSet [(0 : Int)] (1 - 1) x = .ok [x] := rfl
  have hn : (((([x] : List Int).length : Nat) : Int)).toNat = 1 := rfl
  simp only [Checked.countingSortByDigit, hv1, hv10, hc, hp, hn, Checked.placeLoop, hx0, hd,
    hg, ho, hs, bind, Except.bind, pure, Except.pure]
theorem checked_radixLoop_single (x : Int) (hx0 : 0 ≤ x) (hx1 : x ≤ 999999999) :
    ∀ (j k fuel : Nat), k + j = 9 → 10 ≤ fuel + k →
      Checked.radixLoop x fuel ((10 ^ k : Nat) : Int) [x] = .ok [x] := by
  intro j
  induction j with
  | zero =>
    intro k fuel hk hf
    obtain ⟨f, rfl⟩ : ∃ f, fuel = f + 1 := ⟨fuel - 1, by omega⟩
    have hk9 : k = 9 := by omega
    subst hk9
    obtain ⟨hpos, _⟩ := pow10_bound 9 (le_refl _)
    have e9 : (((10 : Nat) ^ 9 : Nat) : Int) = 1000000000 := by norm_num
    have hq : ¬ x / ((10 ^ 9 : Nat) : Int) > 0 := by
      rw [e9]; omega
    rw [Checked.radixLoop]
    simp only [intDiv_ok x _ hx0 hpos, bind, Except.bind, hq, if_false]
    rfl
  | succ j ih =>
    intro k fuel hk hf
    obtain ⟨f, rfl⟩ : ∃ f, fuel = f + 1 := ⟨fuel - 1, by omega⟩
    obtain ⟨hpos, hle⟩ := pow10_bound k (by omega)
    obtain ⟨_, hle2⟩ := pow10_bound (k + 1) (by omega)
    rw [Checked.radixLoop]
    simp only [intDiv_ok x _ hx0 hpos, bind, Except.bind]
    by_cases hq : x / ((10 ^ k : Nat) : Int) > 0
    · rw [if_pos hq, checked_countingSortByDigit_single x _ hx0 hpos]
      dsimp only
      rw [pow10_succ, if_neg (by omega)]
      exact ih (k + 1) f (by omega) (by omega)
    · rw [if_neg hq]
      rfl

theorem checked_radixSort_single (x : Int) (hx0 : 0 ≤ x) (hx1 : x ≤ 999999999) (fuel : Nat)
    (hf : 10 ≤ fuel) : Checked.radixSort fuel [x] = .ok [x] := by
  have := checked_radixLoop_single x hx0 hx1 9 0 fuel rfl (by omega)
  simpa [Checked.radixSort, getMax, maxElement] using this

theorem comparison_sorts_trivial (arr : List Int) (h : arr.length ≤ 1) :
    bubbleSort arr = arr ∧ selectionSort arr = arr ∧ insertionSort arr = arr ∧
    shellSort arr = arr ∧ shellSortKnuth arr = arr ∧ shellSortHibbard arr = .ok arr ∧
    mergeSort arr = arr ∧ mergeSortIterative arr = .ok arr ∧
    (∀ fuel, quickSort fuel arr = some arr) ∧ heapSort arr = .ok arr := by
  have e1 : arr.length - 1 = 0 := by omega
  have e2 : arr.length / 2 = 0 := by omega
  refine ⟨?_, ?_, ?_, ?_, ?_, ?_, ?_, ?_, ?_, ?_⟩
  · unfold bubbleSort; rw [e1]; rfl
  · unfold selectionSort; rw [e1]; rfl
  · unfold insertionSort; rw [e1]; rfl
  · unfold shellSort
    rw [e2, shellHalving, dif_neg (by decide)]
  · unfold shellSortKnuth
    rw [knuthStart_trivial _ h, knuthLoop, dif_pos (le_refl 1)]
    simp only [gapPass, e1, gapPassLoop]
    rw [knuthLoop, dif_neg (by decide)]
  · unfold shellSortHibbard
    rw [hibbardStart_trivial _ h]
    rfl
  · rcases length_le_one_cases arr h with rfl | ⟨x, rfl⟩
    · rfl
    · unfold mergeSort
      simp only [List.isEmpty_cons, Bool.false_eq_true, if_false]
      rw [mergeSortRecursive, if_pos (by simp)]
  · unfold mergeSortIterative
    rw [if_pos h]
  · intro fuel
    unfold quickSort
    rw [if_pos h]
  · unfold heapSort
    simp only [e1, e2]
    rfl

theorem rebuildLoop_single (n : Nat) : ∀ (m i : Nat), i + m = n + 1 → i ≤ n →
    rebuildLoop m i ((List.replicate (n + 1) (0 : Int)).set n 1) [(n : Int)] 0 = [(n : Int)] := by
  intro m
  induction m with
  | zero => intro i h1 h2; omega
  | succ m ih =>
    intro i h1 h2
    rw [rebuildLoop, get_set, get_replicate_zero]
    by_cases hi : n = i
    · subst hi
      have hm : m = 0 := by omega
      subst hm
      simp [emitValue, rebuildLoop]
    · have hne : ¬ (n = i ∧ n < (List.replicate (n + 1) (0 : Int)).length) := fun hh => hi hh.1
      rw [if_neg hne]
      simpa [emitValue] using ih (i + 1) (by omega) (by omega)

theorem countingSort_single (x : Int) (h0 : 0 ≤ x) (h1 : x ≤ 2147483646) :
    countingSort [x] = .ok [x] := by
  obtain ⟨n, rfl⟩ : ∃ n : Nat, x = (n : Int) := ⟨x.toNat, by omega⟩
  have hm : maxElement [(n : Int)] = (n : Int) := rfl
  have hw : wrap32 ((n : Int) + 1) = ((n + 1 : Nat) : Int) := by
    rw [wrap32_of_inRange _ (by omega) (by omega)]
    simp
  have hg : tableGet (List.replicate (n + 1) (0 : Int)) (n : Int) = .ok 0 := by
    rw [tableGet_ok (List.replicate (n + 1) (0 : Int)) n (by simp), get_replicate_zero]
  have hs : tableSet (List.replicate (n + 1) (0 : Int)) (n : Int) (0 + 1)
      = .ok ((List.replicate (n + 1) (0 : Int)).set n 1) := by
    rw [tableSet_ok (List.replicate (n + 1) (0 : Int)) n _ (by simp), zero_add]
  have hc : countKeys (fun num => .ok num) [(n : Int)] (List.replicate (n + 1) (0 : Int))
      = .ok ((List.replicate (n + 1) (0 : Int)).set n 1) := by
    simp only [countKeys, hg, hs]
  have ht : ((n : Int) + 1).toNat = n + 1 := by omega
  have hr := rebuildLoop_single n (n + 1) 0 (by omega) (by omega)
  unfold countingSort
  rw [if_neg (by simp)]
  rw [hm]
  dsimp only
  rw [hw, ht, if_neg (by omega), Int.toNat_ofNat, hc]
  dsimp only
  rw [hr]

theorem radixSort_single (x : Int) (h0 : 0 ≤ x) (h1 : x ≤ 999999999) (fuel : Nat)
    (hf : 10 ≤ fuel) : radixSort fuel [x] = .ok [x] := by
  obtain ⟨out, ho, _, hp⟩ := radixLoop_spec x h0 h1 9 0 rfl [x]
    (fun y hy => by simp at hy; subst hy; exact ⟨h0, le_refl _⟩) (by simp)
  have e : out = [x] := by simpa using hp
  subst e
  have := ho fuel hf
  simpa [radixSort, getMax, maxElement] using this

theorem distribution_sorts_trivial (arr : List Int) (h : arr.length ≤ 1) :
    countingSortStable arr = .ok arr ∧ bucketSort arr = .ok arr := by
  rcases length_le_one_cases arr h with rfl | ⟨x, rfl⟩
  · exact ⟨rfl, rfl⟩
  · constructor
    · simp [countingSortStable, maxElement, minElement, wrap32, countKeys, tableGet, tableSet,
        prefixSums, placeByKey, get]
    · simp [bucketSort, fillBuckets, maxElement, minElement, wrap32, intDiv, distribute,
        collectBuckets, writeBucket, stdSort]

theorem selection_insertion_variants_trivial (arr : List Int) (h : arr.length ≤ 1) :
    bidirectionalSelectionSort arr = arr ∧ binaryInsertionSort arr = arr := by
  have e1 : arr.length - 1 = 0 := by omega
  constructor
  · unfold bidirectionalSelectionSort
    rw [e1, bidirectionalLoop, dif_neg (by decide)]
  · unfold binaryInsertionSort
    rw [e1]
    rfl

/-- C16 (as amended): on the empty vector and on every single-element vector each
integer sort entry point returns with the vector unchanged, and its access-checked
model ends without a fault, so no index leaves its vector and no `int` expression
overflows: all twelve comparison sorts, `countingSortStable` and `bucketSort` for
every element, `radixSort` for an element from `0` to `999999999` (from `10^9` on the
step `exp *= 10` overflows), and `countingSort` for an element from `0` to
`INT_MAX - 1` (for `INT_MAX` the table size `maxVal + 1` overflows). -/
theorem sorts_trivial_input_unchanged (arr : List Int) (h : arr.length ≤ 1) :
    (Checked.bubbleSort arr = .ok arr ∧ Checked.selectionSort arr = .ok arr ∧
      Checked.bidirectionalSelectionSort arr = .ok arr ∧
      Checked.insertionSort arr = .ok arr ∧ Checked.binaryInsertionSort arr = .ok arr ∧
      Checked.shellSort arr = .ok arr ∧ Checked.shellSortKnuth arr = .ok arr ∧
      Checked.shellSortHibbard arr = .ok arr ∧
      Checked.mergeSort arr = .ok arr ∧ Checked.mergeSortIterative arr = .ok arr ∧
      (∀ fuel, Checked.quickSort fuel arr = .ok arr) ∧
      (∀ fuel, Checked.heapSort fuel arr = .ok arr) ∧
      Checked.countingSortStable arr = .ok arr ∧ Checked.bucketSort arr = .ok arr ∧
      ((∀ x ∈ arr, 0 ≤ x ∧ x ≤ 2147483646) → Checked.countingSort arr = .ok arr) ∧
      ((∀ x ∈ arr, 0 ≤ x ∧ x ≤ 999999999) →
        ∀ fuel, 10 ≤ fuel → Checked.radixSort fuel arr = .ok arr)) ∧
    (bubbleSort arr = arr ∧ selectionSort arr = arr ∧
      bidirectionalSelectionSort arr = arr ∧ insertionSort arr = arr ∧
      binaryInsertionSort arr = arr ∧
      shellSort arr = arr ∧ shellSortKnuth arr = arr ∧ shellSortHibbard arr = .ok arr ∧
      mergeSort arr = arr ∧ mergeSortIterative arr = .ok arr ∧
      (∀ fuel, quickSort fuel arr = some arr) ∧ heapSort arr = .ok arr ∧
      countingSortStable arr = .ok arr ∧ bucketSort arr = .ok arr ∧
      ((∀ x ∈ arr, 0 ≤ x ∧ x ≤ 2147483646) → countingSort arr = .ok arr) ∧
      ((∀ x ∈ arr, 0 ≤ x ∧ x ≤ 999999999) →
        ∀ fuel, 10 ≤ fuel → radixSort fuel arr = .ok arr)) := by
  obtain ⟨u1, u2, u3, u4, u5, u6, u7, u8, u9, u10⟩ := comparison_sorts_trivial arr h
  obtain ⟨d1, d2⟩ := distribution_sorts_trivial arr h
  obtain ⟨v1, v2⟩ := selection_insertion_variants_trivial arr h
  refine ⟨⟨checked_bubbleSort_trivial arr h, checked_selectionSort_trivial arr h,
    checked_bidirectionalSelectionSort_trivial arr h, checked_insertionSort_trivial arr h,
    checked_binaryInsertionSort_trivial arr h, checked_shellSort_trivial arr h,
    checked_shellSortKnuth_trivial arr h, checked_shellSortHibbard_trivial arr h,
    checked_mergeSort_trivial arr h, checked_mergeSortIterative_trivial arr h,
    fun fuel => checked_quickSort_trivial fuel arr h,
    fun fuel => checked_heapSort_trivial fuel arr h,
    checked_countingSortStable_trivial arr h, checked_bucketSort_trivial arr h, ?_, ?_⟩,
    u1, u2, v1, u3, v2, u4, u5, u6, u7, u8, u9, u10, d1, d2, ?_, ?_⟩
  · intro hr
    rcases length_le_one_cases arr h with rfl | ⟨x, rfl⟩
    · rfl
    · exact checked_countingSort_single x (hr x (by simp)).1 (hr x (by simp)).2
  · intro hr fuel hf
    rcases length_le_one_cases arr h with rfl | ⟨x, rfl⟩
    · rfl
    · exact checked_radixSort_single x (hr x (by simp)).1 (hr x (by simp)).2 fuel hf
  · intro hr
    rcases length_le_one_cases arr h with rfl | ⟨x, rfl⟩
    · rfl
    · exact countingSort_single x (hr x (by simp)).1 (hr x (by simp)).2
  · intro hr fuel hf
    rcases length_le_one_cases arr h with rfl | ⟨x, rfl⟩
    · rfl
    · exact radixSort_single x (hr x (by simp)).1 (hr x (by simp)).2 fuel hf

/-- Witness for C16: the single-element vector `[7]`. -/
theorem sorts_trivial_input_unchanged_witness :
    ([7] : List Int).length ≤ 1 ∧ Checked.bubbleSort [7] = .ok [7] ∧
    Checked.countingSort [7] = .ok [7] ∧
    (∀ fuel, 10 ≤ fuel → Checked.radixSort fuel [7] = .ok [7]) ∧
    bubbleSort [7] = [7] ∧ countingSort [7] = .ok [7] ∧
    (∀ fuel, 10 ≤ fuel → radixSort fuel [7] = .ok [7]) :=
  have w := sorts_trivial_input_unchanged [7] (by decide)
  ⟨by decide, w.1.1, w.1.2.2.2.2.2.2.2.2.2.2.2.2.2.2.1 (by decide),
    w.1.2.2.2.2.2.2.2.2.2.2.2.2.2.2.2 (by decide), w.2.1,
    w.2.2.2.2.2.2.2.2.2.2.2.2.2.2.2.1 (by decide),
    w.2.2.2.2.2.2.2.2.2.2.2.2.2.2.2.2 (by decide)⟩

/-- Counterexample to C16 as stated: `[INT_MAX]` and `[1000000000]` are
single-element vectors with a non-negative element, yet `countingSort` does not
return the first unchanged (the table size `maxVal + 1` overflows to `INT_MIN` and
the count table cannot be built), and `radixSort` does not return the second
unchanged (after the tenth pass `exp *= 10` overflows `int`). -/
theorem sorts_trivial_input_counterexample :
    ([2147483647] : List Int).length ≤ 1 ∧ (∀ x ∈ ([2147483647] : List Int), 0 ≤ x) ∧
    Checked.countingSort [2147483647] = .error .badLength ∧
    countingSort [2147483647] = .error .badLength ∧
    Checked.countingSort [2147483646] = .ok [2147483646] ∧
    ([1000000000] : List Int).length ≤ 1 ∧ (∀ x ∈ ([1000000000] : List Int), 0 ≤ x) ∧
    Checked.radixSort 10 [1000000000] = .error .overflow ∧
    radixSort 10 [1000000000] = .error .overflow ∧
    Checked.radixSort 10 [999999999] = .ok [999999999] := by
  refine ⟨by decide, by decide, by rfl, by rfl, ?_, by decide, by decide, by rfl, by rfl, ?_⟩
  · exact checked_countingSort_single 2147483646 (by decide) (by decide)
  · exact checked_radixSort_single 999999999 (by decide) (by decide) 10 (le_refl _)

/-! ## The contract of `heapify` -/

theorem inSubtree_le {i j : Nat} (h : InSubtree i j) : i ≤ j := by
  induction h with
  | root => exact le_refl _
  | left k _ ih => omega
  | right k _ ih => omega

theorem inSubtree_trans {a b c : Nat} (h1 : InSubtree a b) (h2 : InSubtree b c) :
    InSubtree a c := by
  induction h2 with
  | root => exact h1
  | left k _ ih => exact InSubtree.left k ih
  | right k _ ih => exact InSubtree.right k ih

/-- A node of the subtree of `i` other than `i` has its parent in that subtree. -/
theorem inSubtree_parent {i j : Nat} (h : InSubtree i j) :
    j = i ∨ (i < j ∧ InSubtree i ((j - 1) / 2)) := by
  cases h with
  | root => exact Or.inl rfl
  | left k hk =>
    right
    have := inSubtree_le hk
    have e : (2 * k + 1 - 1) / 2 = k := by omega
    rw [e]
    exact ⟨by omega, hk⟩
  | right k hk =>
    right
    have := inSubtree_le hk
    have e : (2 * k + 2 - 1) / 2 = k := by omega
    rw [e]
    exact ⟨by omega, hk⟩

/-- The subtree of `i` is `i` together with the subtrees of its two children. -/
theorem inSubtree_children {i j : Nat} (h : InSubtree i j) :
    j = i ∨ InSubtree (2 * i + 1) j ∨ InSubtree (2 * i + 2) j := by
  induction h with
  | root => exact Or.inl rfl
  | left k _ ih =>
    rcases ih with e | h1 | h2
    · subst e; exact Or.inr (Or.inl InSubtree.root)
    · exact Or.inr (Or.inl (InSubtree.left k h1))
    · exact Or.inr (Or.inr (InSubtree.left k h2))
  | right k _ ih =>
    rcases ih with e | h1 | h2
    · subst e; exact Or.inr (Or.inr InSubtree.root)
    · exact Or.inr (Or.inl (InSubtree.right k h1))
    · exact Or.inr (Or.inr (InSubtree.right k h2))

/-- The ancestors of a node form a chain. -/
theorem inSubtree_chain {a b j : Nat} (ha : InSubtree a j) (hb : InSubtree b j) :
    InSubtree a b ∨ InSubtree b a := by
  induction ha with
  | root => exact Or.inr hb
  | left k hk ih =>
    rcases inSubtree_parent hb with e | ⟨_, hp⟩
    · subst e; exact Or.inl (InSubtree.left k hk)
    · have e : (2 * k + 1 - 1) / 2 = k := by omega
      rw [e] at hp
      exact ih hp
  | right k hk ih =>
    rcases inSubtree_parent hb with e | ⟨_, hp⟩
    · subst e; exact Or.inl (InSubtree.right k hk)
    · have e : (2 * k + 2 - 1) / 2 = k := by omega
      rw [e] at hp
      exact ih hp

/-- The subtrees of two different children of one node are disjoint. -/
theorem inSubtree_siblings (i j : Nat) (h1 : InSubtree (2 * i + 1) j)
    (h2 : InSubtree (2 * i + 2) j) : False := by
  rcases inSubtree_chain h1 h2 with h | h
  · rcases inSubtree_parent h with e | ⟨_, hp⟩
    · omega
    · have := inSubtree_le hp
      omega
  · have := inSubtree_le h
    omega

theorem not_inSubtree_left_right (i : Nat) : ¬ InSubtree (2 * i + 1) (2 * i + 2) := by
  intro h
  rcases inSubtree_parent h with e | ⟨_, hp⟩
  · omega
  · have := inSubtree_le hp
    omega

/-- Sift-down on a subtree of a heap of fewer than `2^30` nodes: with both child
subtrees of `i` max-heaps, `heapify` returns, makes the subtree of `i` a max-heap,
permutes the vector, changes nothing outside the subtree of `i`, and leaves at `i`
the largest of `arr[i]` and its children. -/
theorem heapify_subtree_spec : ∀ (m : Nat) (arr : List Int) (n i : Nat), n - i = m →
    n ≤ 1073741823 → n ≤ arr.length → i < n →
    SubtreeHeap arr n (2 * i + 1) → SubtreeHeap arr n (2 * i + 2) →
    ∃ out c, heapify arr n i = .ok out ∧ heapifyLargest arr n i = .ok c ∧
    out.length = arr.length ∧ out.Perm arr ∧
    (∀ k, ¬ InSubtree i k ∨ n ≤ k → get out k = get arr k) ∧
    SubtreeHeap out n i ∧
    get out i = get arr c := by
  intro m
  induction m using Nat.strong_induction_on with
  | _ m ih =>
    intro arr n i hm hN hn hi S1 S2
    obtain ⟨c, hc0, hc, hl, hr, hgt⟩ := heapifyLargest_spec arr n i (by omega)
    rw [heapify_unfold arr n i c hc0]
    by_cases hne : c ≠ i
    · rw [if_pos hne]
      have hcn : c < n := by omega
      have hci : i < c := by omega
      have hgt := hgt hne
      have hchild : c = 2 * i + 1 ∨ c = 2 * i + 2 := by omega
      have inC : InSubtree i c := by
        rcases hchild with e | e
        · rw [e]; exact InSubtree.left i InSubtree.root
        · rw [e]; exact InSubtree.right i InSubtree.root
      have SC : SubtreeHeap arr n c := by
        rcases hchild with e | e
        · rw [e]; exact S1
        · rw [e]; exact S2
      have gs : ∀ k, get (swap arr i c) k =
          if k = c then get arr i else if k = i then get arr c else get arr k :=
        fun k => get_swap arr i c k (by omega) (by omega)
      have gsame : ∀ k, c < k → get (swap arr i c) k = get arr k := by
        intro k hk
        rw [gs, if_neg (by omega), if_neg (by omega)]
      have below : ∀ d, (d = 2 * c + 1 ∨ d = 2 * c + 2) →
          SubtreeHeap (swap arr i c) n d := by
        intro d hd j hj hjn
        have hdc : InSubtree c d := by
          rcases hd with e | e
          · rw [e]; exact InSubtree.left c InSubtree.root
          · rw [e]; exact InSubtree.right c InSubtree.root
        have hle := inSubtree_le hj
        rw [gsame j (by omega), gsame (2 * j + 1) (by omega), gsame (2 * j + 2) (by omega)]
        exact SC j (inSubtree_trans hdc hj) hjn
      obtain ⟨out, c2, r0, rc, r1, r2, r3, r4, r5⟩ := ih (n - c) (by omega) (swap arr i c) n c
        rfl hN (by rw [length_swap]; exact hn) hcn (below _ (Or.inl rfl)) (below _ (Or.inr rfl))
      have A1 : ∀ k, ¬ InSubtree c k ∨ n ≤ k → k ≠ i → get out k = get arr k := by
        intro k hk hki
        rw [r3 k hk, gs, if_neg, if_neg hki]
        rintro rfl
        rcases hk with hk | hk
        · exact hk InSubtree.root
        · omega
      have A2 : get out i = get arr c := by
        rw [r3 i (Or.inl (fun h => by have := inSubtree_le h; omega)), gs,
          if_neg (by omega), if_pos rfl]
      have A3 : get out c ≤ get arr c := by
        rw [r5]
        obtain ⟨c3, e3, hc2, _, _, _⟩ := heapifyLargest_spec (swap arr i c) n c (by omega)
        have ec : c3 = c2 := by
          rw [rc] at e3
          exact (Except.ok.inj e3).symm
        subst ec
        have hroot := SC c InSubtree.root hcn
        rcases hc2 with e | ⟨e, hlt⟩ | ⟨e, hlt⟩
        · rw [e, gs, if_pos rfl]; exact le_of_lt hgt
        · rw [e, gsame _ (by omega)]; exact hroot.1 hlt
        · rw [e, gsame _ (by omega)]; exact hroot.2 hlt
      refine ⟨out, c, r0, hc0, by rw [r1, length_swap],
        r2.trans (swap_perm arr i c (by omega) (by omega)), ?_, ?_, A2⟩
      · intro k hk
        apply A1 k
        · rcases hk with hk | hk
          · exact Or.inl (fun h => hk (inSubtree_trans inC h))
          · exact Or.inr hk
        · rintro rfl
          rcases hk with hk | hk
          · exact hk InSubtree.root
          · omega
      · -- the heap property at every node of the subtree of `i`
        have sib : ∀ s, (s = 2 * i + 1 ∨ s = 2 * i + 2) → s ≠ c → SubtreeHeap arr n s →
            ∀ j, InSubtree s j → j < n →
              (2 * j + 1 < n → get out (2 * j + 1) ≤ get out j) ∧
              (2 * j + 2 < n → get out (2 * j + 2) ≤ get out j) := by
          intro s hs hsc SS j hj hjn
          have hsj := inSubtree_le hj
          have disj : ∀ k, InSubtree s k → ¬ InSubtree c k := by
            intro k hk1 hk2
            rcases hs with e | e <;> rcases hchild with e2 | e2
            · omega
            · rw [e] at hk1; rw [e2] at hk2; exact inSubtree_siblings i k hk1 hk2
            · rw [e] at hk1; rw [e2] at hk2; exact inSubtree_siblings i k hk2 hk1
            · omega
          rw [A1 j (Or.inl (disj j hj)) (by omega),
            A1 (2 * j + 1) (Or.inl (disj _ (InSubtree.left j hj))) (by omega),
            A1 (2 * j + 2) (Or.inl (disj _ (InSubtree.right j hj))) (by omega)]
          exact SS j hj hjn
        intro j hj hjn
        rcases inSubtree_children hj with e | h1 | h2
        · subst e
          rw [A2]
          constructor
          · intro h
            by_cases e : 2 * j + 1 = c
            · rw [e]; exact A3
            · rw [A1 _ (Or.inl (fun hh => by
                have e2 : c = 2 * j + 2 := by omega
                rw [e2] at hh
                have := inSubtree_le hh
                omega)) (by omega)]
              exact hl h
          · intro h
            by_cases e : 2 * j + 2 = c
            · rw [e]; exact A3
            · rw [A1 _ (Or.inl (fun hh => by
                have e2 : c = 2 * j + 1 := by omega
                rw [e2] at hh
                exact not_inSubtree_left_right j hh)) (by omega)]
              exact hr h
        · by_cases e : 2 * i + 1 = c
          · rw [e] at h1; exact r4 j h1 hjn
          · exact sib _ (Or.inl rfl) e S1 j h1 hjn
        · by_cases e : 2 * i + 2 = c
          · rw [e] at h2; exact r4 j h2 hjn
          · exact sib _ (Or.inr rfl) e S2 j h2 hjn
    · rw [if_neg hne]
      have hne2 : c = i := by
        by_contra h; exact hne h
      rw [hne2] at hl hr
      refine ⟨arr, c, rfl, hc0, rfl, List.Perm.refl _, fun _ _ => rfl, ?_, by rw [hne2]⟩
      intro j hj hjn
      rcases inSubtree_children hj with e | h1 | h2
      · subst e; exact ⟨hl, hr⟩
      · exact S1 j h1 hjn
      · exact S2 j h2 hjn

/-- Every node lies in the subtree of the root `0`. -/
theorem inSubtree_zero : ∀ j, InSubtree 0 j := by
  intro j
  induction j using Nat.strong_induction_on with
  | _ j ih =>
    rcases Nat.even_or_odd j with ⟨k, hk⟩ | ⟨k, hk⟩
    · by_cases h0 : j = 0
      · rw [h0]; exact InSubtree.root
      · have e : j = 2 * (k - 1) + 2 := by omega
        rw [e]
        exact InSubtree.right _ (ih _ (by omega))
    · have e : j = 2 * k + 1 := by omega
      rw [e]
      exact InSubtree.left _ (ih _ (by omega))

/-- On the whole heap the subtree invariant is the invariant `HeapFrom … 0` that
`heapSort` maintains. -/
theorem subtreeHeap_zero_iff (arr : List Int) (n : Nat) :
    SubtreeHeap arr n 0 ↔ HeapFrom arr n 0 :=
  ⟨fun h j _ hj => h j (inSubtree_zero j) hj, fun h j _ hj => h j (Nat.zero_le _) hj⟩

/-- C21 (as amended): for a heap size `n ≤ arr.size()` below `2^30` and a node
`i < n` whose two child subtrees (restricted to indices below `n`) are max-heaps,
`heapify(arr, n, i)` returns (the recursion descends to a child, so `n - i`
decreases, and no child index overflows), makes the subtree rooted at `i` a max-heap,
leaves the vector a permutation of its former contents of the same length, and
changes no position outside the subtree of `i`, in particular none at or beyond `n`;
at `i` it leaves the largest of `arr[i]` and its children inside the heap. -/
theorem heapify_contract (arr : List Int) (n i : Nat) (hN : n < 1073741824)
    (hn : n ≤ arr.length) (hi : i < n)
    (hleft : SubtreeHeap arr n (2 * i + 1)) (hright : SubtreeHeap arr n (2 * i + 2)) :
    ∃ out c, heapify arr n i = .ok out ∧ heapifyLargest arr n i = .ok c ∧
    SubtreeHeap out n i ∧
    out.Perm arr ∧
    out.length = arr.length ∧
    (∀ k, ¬ InSubtree i k ∨ n ≤ k → get out k = get arr k) ∧
    get out i = get arr c ∧
    get arr i ≤ get out i := by
  obtain ⟨out, c, h0, hc0, h1, h2, h3, h4, h5⟩ :=
    heapify_subtree_spec (n - i) arr n i rfl (by omega) hn hi hleft hright
  refine ⟨out, c, h0, hc0, h4, h2, h1, h3, h5, ?_⟩
  rw [h5]
  obtain ⟨c2, e2, _, _, _, hgt⟩ := heapifyLargest_spec arr n i (by omega)
  have ec : c2 = c := by
    rw [hc0] at e2
    exact (Except.ok.inj e2).symm
  subst ec
  by_cases e : c2 = i
  · rw [e]
  · exact le_of_lt (hgt e)

/-- Witness for C21: the root of a six-node heap whose two child subtrees
(`9` over `4`, `5` and `8` over `7`) are max-heaps. -/
theorem heapify_contract_witness :
    ∃ out c, heapify [1, 9, 8, 4, 5, 7] 6 0 = .ok out ∧
    heapifyLargest [1, 9, 8, 4, 5, 7] 6 0 = .ok c ∧
    SubtreeHeap out 6 0 ∧
    out.Perm [1, 9, 8, 4, 5, 7] ∧
    out.length = [1, 9, 8, 4, 5, 7].length ∧
    (∀ k, ¬ InSubtree 0 k ∨ 6 ≤ k → get out k = get [1, 9, 8, 4, 5, 7] k) ∧
    get out 0 = get [1, 9, 8, 4, 5, 7] c ∧
    get [1, 9, 8, 4, 5, 7] 0 ≤ get out 0 :=
  heapify_contract [1, 9, 8, 4, 5, 7] 6 0 (by decide) (by decide) (by decide)
    (by
      intro j hj hjn
      have hle := inSubtree_le hj
      have hj1 : j = 1 ∨ 3 ≤ j := by
        rcases inSubtree_parent hj with e | ⟨_, hp⟩
        · exact Or.inl e
        · have := inSubtree_le hp
          omega
      rcases hj1 with rfl | h3
      · exact ⟨fun _ => by decide, fun _ => by decide⟩
      · exact ⟨fun h => by omega, fun h => by omega⟩)
    (by
      intro j hj hjn
      have hle := inSubtree_le hj
      by_cases e : j = 2
      · subst e
        exact ⟨fun _ => by decide, fun h => by omega⟩
      · exact ⟨fun h => by omega, fun h => by omega⟩)

/-- The sift-down of the witness, evaluated: `1` sinks below `9` and `5`. -/
theorem heapify_demo : heapify [1, 9, 8, 4, 5, 7] 6 0 = .ok [9, 5, 8, 4, 1, 7] := by
  simp [heapify, heapifyLargest, swap, get]

/-- Counterexample to C21 as stated: in the vector of `2^30` zeros with heap size
`n = 2^30`, the last node `i = 2^30 - 1` is a leaf, so both its child subtrees are
(empty) max-heaps and every precondition of the claim holds; yet `heapify(arr, n, i)`
computes `right = 2 * i + 2 = 2^31`, a signed overflow, before it looks at anything,
so nothing is guaranteed about the call. -/
theorem heapify_overflow_counterexample :
    1073741824 ≤ (List.replicate 1073741824 (0 : Int)).length ∧
    1073741823 < 1073741824 ∧
    SubtreeHeap (List.replicate 1073741824 0) 1073741824 (2 * 1073741823 + 1) ∧
    SubtreeHeap (List.replicate 1073741824 0) 1073741824 (2 * 1073741823 + 2) ∧
    heapify (List.replicate 1073741824 0) 1073741824 1073741823 = .error .overflow := by
  refine ⟨by rw [List.length_replicate], by omega, ?_, ?_, heapify_overflow _ _ _ (by omega)⟩
  · intro j hj hjn
    have := inSubtree_le hj
    omega
  · intro j hj hjn
    have := inSubtree_le hj
    omega

/-! ## Bidirectional selection sort -/

theorem scanMinMax_spec (arr : List Int) (left right : Nat) :
    ∀ (cnt i mi ma : Nat), i + cnt = right + 1 → left ≤ i →
    left ≤ mi → mi ≤ right → left ≤ ma → ma ≤ right →
    (∀ k, left ≤ k → k < i → get arr mi ≤ get arr k ∧ get arr k ≤ get arr ma) →
    left ≤ (scanMinMax cnt i arr mi ma).1 ∧ (scanMinMax cnt i arr mi ma).1 ≤ right ∧
    left ≤ (scanMinMax cnt i arr mi ma).2 ∧ (scanMinMax cnt i arr mi ma).2 ≤ right ∧
    (∀ k, left ≤ k → k ≤ right →
      get arr (scanMinMax cnt i arr mi ma).1 ≤ get arr k ∧
      get arr k ≤ get arr (scanMinMax cnt i arr mi ma).2) := by
  intro cnt
  induction cnt with
  | zero =>
    intro i mi ma hi hli h1 h2 h3 h4 hinv
    exact ⟨h1, h2, h3, h4, fun k a b => hinv k a (by omega)⟩
  | succ cnt ih =>
    intro i mi ma hi hli h1 h2 h3 h4 hinv
    rw [scanMinMax]
    apply ih (i + 1) _ _ (by omega) (by omega)
    · split_ifs <;> omega
    · split_ifs <;> omega
    · split_ifs <;> omega
    · split_ifs <;> omega
    · intro k hk1 hk2
      by_cases hki : k = i
      · subst hki
        constructor
        · split_ifs <;> omega
        · split_ifs <;> omega
      · have := hinv k hk1 (by omega)
        constructor
        · split_ifs <;> omega
        · split_ifs <;> omega

/-- One iteration: the minimum of the window goes to `left`, the maximum to `right`,
the window keeps its bounds, and nothing outside the window moves. -/
theorem bidirectionalStep_spec (arr : List Int) (left right : Nat) (hlr : left < right)
    (hr : right < arr.length) :
    ∃ lo hi : Int,
      (∀ k, left ≤ k → k ≤ right → lo ≤ get arr k ∧ get arr k ≤ hi) ∧
      (∃ k, left ≤ k ∧ k ≤ right ∧ get arr k = lo) ∧
      (∃ k, left ≤ k ∧ k ≤ right ∧ get arr k = hi) ∧
      (bidirectionalStep arr left right).length = arr.length ∧
      (bidirectionalStep arr left right).Perm arr ∧
      (∀ k, k < left ∨ right < k → get (bidirectionalStep arr left right) k = get arr k) ∧
      get (bidirectionalStep arr left right) left = lo ∧
      get (bidirectionalStep arr left right) right = hi ∧
      (∀ k, left ≤ k → k ≤ right →
        lo ≤ get (bidirectionalStep arr left right) k ∧
        get (bidirectionalStep arr left right) k ≤ hi) := by
  obtain ⟨m1, m2, m3, m4, m5⟩ := scanMinMax_spec arr left right (right + 1 - left) left left
    left (by omega) (le_refl _) (le_refl _) (by omega) (le_refl _) (by omega)
    (fun k a b => by omega)
  unfold bidirectionalStep
  simp only
  generalize (scanMinMax (right + 1 - left) left arr left left).1 = mi at m1 m2 m5
  generalize (scanMinMax (right + 1 - left) left arr left left).2 = ma at m3 m4 m5
  have cg : ∀ x y : Nat, x = y → get arr x = get arr y := fun _ _ h => by rw [h]
  -- the vector after the first conditional swap
  have g1 : ∀ k, get (if mi ≠ left then swap arr left mi else arr) k =
      if k = mi then get arr left else if k = left then get arr mi else get arr k := by
    intro k
    by_cases h : mi ≠ left
    · rw [if_pos h]
      exact get_swap arr left mi k (by omega) (by omega)
    · rw [if_neg h]
      have e : mi = left := by omega
      subst e
      split_ifs with h1 <;> simp_all
  have l1 : (if mi ≠ left then swap arr left mi else arr).length = arr.length := by
    split_ifs
    · exact length_swap _ _ _
    · rfl
  have p1 : (if mi ≠ left then swap arr left mi else arr).Perm arr := by
    split_ifs
    · exact swap_perm arr left mi (by omega) (by omega)
    · exact List.Perm.refl _
  generalize (if mi ≠ left then swap arr left mi else arr) = arr1 at g1 l1 p1
  -- the corrected index of the maximum
  have hma : left ≤ (if mi ≠ left ∧ ma = left then mi else ma) ∧
      (if mi ≠ left ∧ ma = left then mi else ma) ≤ right := by
    split_ifs <;> omega
  have vma : get arr1 (if mi ≠ left ∧ ma = left then mi else ma) = get arr ma := by
    have a1 := m5 left (le_refl _) (by omega)
    have a2 := m5 mi m1 m2
    have a3 := m5 ma m3 m4
    have c1 := cg ma left
    have c2 := cg ma mi
    have c3 := cg mi left
    rw [g1]
    split_ifs <;> omega
  have nleft : mi ≠ left → (if mi ≠ left ∧ ma = left then mi else ma) ≠ left := by
    intro h
    split_ifs <;> omega
  generalize (if mi ≠ left ∧ ma = left then mi else ma) = mx at hma vma nleft
  have g2 : ∀ k, get (if mx ≠ right then swap arr1 right mx else arr1) k =
      if k = mx then get arr1 right else if k = right then get arr1 mx else get arr1 k := by
    intro k
    by_cases h : mx ≠ right
    · rw [if_pos h]
      exact get_swap arr1 right mx k (by omega) (by omega)
    · rw [if_neg h]
      have e : mx = right := by omega
      subst e
      split_ifs with h1 <;> simp_all
  have l2 : (if mx ≠ right then swap arr1 right mx else arr1).length = arr.length := by
    split_ifs
    · rw [length_swap, l1]
    · exact l1
  have p2 : (if mx ≠ right then swap arr1 right mx else arr1).Perm arr := by
    split_ifs
    · exact (swap_perm arr1 right mx (by omega) (by omega)).trans p1
    · exact p1
  generalize (if mx ≠ right then swap arr1 right mx else arr1) = out at g2 l2 p2
  have b1 := m5 left (le_refl _) (by omega)
  have b2 := m5 right (by omega) (le_refl _)
  have b3 := m5 mi m1 m2
  have b4 := m5 ma m3 m4
  have b5 := m5 mx hma.1 hma.2
  refine ⟨get arr mi, get arr ma, m5, ⟨mi, m1, m2, rfl⟩, ⟨ma, m3, m4, rfl⟩, l2, p2, ?_, ?_, ?_, ?_⟩
  · intro k hk
    rw [g2, if_neg (by omega), if_neg (by omega), g1, if_neg (by omega), if_neg (by omega)]
  · rw [g2]
    by_cases e1 : left = mx
    · rw [if_pos e1, g1]
      have : mi = left := by
        by_contra h
        exact nleft h e1.symm
      have c1 := cg right mi
      have c2 := cg right left
      have c3 := cg mi left
      have c4 := cg mx mi
      have c5 := cg mx left
      have c6 := cg ma left
      rw [g1] at vma
      split_ifs at vma ⊢ <;> omega
    · rw [if_neg e1, if_neg (by omega), g1]
      have c3 := cg left mi
      split_ifs <;> omega
  · rw [g2]
    by_cases e1 : right = mx
    · rw [if_pos e1, e1]; exact vma
    · rw [if_neg e1, if_pos rfl]; exact vma
  · intro k hk1 hk2
    have b6 := m5 k hk1 hk2
    have c1 := cg right mi
    have c2 := cg right left
    have c3 := cg mi left
    have c4 := cg mx mi
    have c5 := cg mx left
    have c6 := cg k mi
    have c7 := cg k left
    have c8 := cg k right
    have c9 := cg k mx
    rw [g2, g1, g1, g1]
    rw [g1] at vma
    split_ifs at vma ⊢ <;> omega

/-- The loop keeps a sorted prefix `[0, left)` below everything else and a sorted
suffix `(right, n)` above everything else, and ends with the whole vector sorted. -/
theorem bidirectionalLoop_spec : ∀ (m : Nat) (arr : List Int) (left right : Nat),
    right - left = m → (left < right → right < arr.length) →
    (∀ a b, a < b → b < left → get arr a ≤ get arr b) →
    (∀ a b, a < left → left ≤ b → b < arr.length → get arr a ≤ get arr b) →
    (∀ a b, right < a → a < b → b < arr.length → get arr a ≤ get arr b) →
    (∀ a b, a ≤ right → right < b → b < arr.length → get arr a ≤ get arr b) →
    (bidirectionalLoop arr left right).length = arr.length ∧
    (bidirectionalLoop arr left right).Perm arr ∧
    (∀ a b, a < b → b < arr.length →
      get (bidirectionalLoop arr left right) a ≤ get (bidirectionalLoop arr left right) b) := by
  intro m
  induction m using Nat.strong_induction_on with
  | _ m ih =>
    intro arr left right hm hin I1 I2 I3 I4
    rw [bidirectionalLoop]
    by_cases h : left < right
    · rw [dif_pos h]
      have hr := hin h
      obtain ⟨lo, hi, B, ⟨k0, k0a, k0b, k0v⟩, ⟨k1, k1a, k1b, k1v⟩, sl, sp, U, S1, S2, S4⟩ :=
        bidirectionalStep_spec arr left right h hr
      generalize bidirectionalStep arr left right = out at sl sp U S1 S2 S4
      have cg : ∀ x y : Nat, x = y → get out x = get out y := fun _ _ e => by rw [e]
      obtain ⟨r1, r2, r3⟩ := ih (right - 1 - (left + 1)) (by omega) out (left + 1) (right - 1)
        rfl (fun _ => by omega)
        (by
          intro a b hab hb
          have := U a; have := U b; have := cg b left
          have := I1 a b; have := I2 a k0
          omega)
        (by
          intro a b ha hb hbn
          rw [sl] at hbn
          have := U a; have := U b; have := cg a left
          have := S4 b; have := I4 k0 b; have := I2 a k0; have := I2 a b
          omega)
        (by
          intro a b ha hab hbn
          rw [sl] at hbn
          have := U a; have := U b; have := cg a right
          have := I4 k1 b; have := I3 a b
          omega)
        (by
          intro a b ha hb hbn
          rw [sl] at hbn
          have := U a; have := U b; have := cg b right
          have := S4 a; have := I2 a k1; have := I4 k1 b; have := I2 a b; have := I4 a b
          omega)
      rw [sl] at r1 r3
      exact ⟨r1, r2.trans sp, r3⟩
    · rw [dif_neg h]
      refine ⟨rfl, List.Perm.refl _, ?_⟩
      intro a b hab hb
      have := I1 a b; have := I2 a b; have := I3 a b; have := I4 a b
      omega

theorem bidirectionalSelectionSort_spec (arr : List Int) :
    List.Sorted (· ≤ ·) (bidirectionalSelectionSort arr) ∧
    (bidirectionalSelectionSort arr).Perm arr := by
  unfold bidirectionalSelectionSort
  obtain ⟨r1, r2, r3⟩ := bidirectionalLoop_spec (arr.length - 1 - 0) arr 0 (arr.length - 1) rfl
    (fun h => by omega) (fun a b _ hb => by omega) (fun a b ha => by omega)
    (fun a b ha hab hb => by omega) (fun a b ha hb hbn => by omega)
  refine ⟨?_, r2⟩
  apply sorted_of_get
  intro a b hab hb
  rw [r1] at hb
  exact r3 a b hab hb

/-- The bidirectional selection sort on the demonstration vector of the program, and
on a vector whose maximum starts at the left end and whose minimum at the right end. -/
theorem bidirectionalSelectionSort_demo :
    bidirectionalSelectionSort [64, 34, 25, 12, 22, 11, 90, 5, 77, 30]
      = [5, 11, 12, 22, 25, 30, 34, 64, 77, 90] ∧
    bidirectionalSelectionSort [9, 1, 2, 3, 0] = [0, 1, 2, 3, 9] := by
  have h1 := bidirectionalSelectionSort_spec [64, 34, 25, 12, 22, 11, 90, 5, 77, 30]
  have h2 := bidirectionalSelectionSort_spec [9, 1, 2, 3, 0]
  exact ⟨List.eq_of_perm_of_sorted (h1.2.trans (by decide)) h1.1 (by simp [List.Sorted]),
    List.eq_of_perm_of_sorted (h2.2.trans (by decide)) h2.1 (by simp [List.Sorted])⟩

/-! ## Binary insertion sort -/

/-- On a sorted prefix `[0, i)` the binary search ends at the first index whose
element is greater than `key` (at `i` if there is none). -/
theorem binarySearch_spec (arr : List Int) (key : Int) (i : Nat)
    (hs : ∀ a b, a < b → b < i → get arr a ≤ get arr b) :
    ∀ (m left hi : Nat), hi - left = m → left ≤ hi → hi ≤ i →
    (∀ t, t < left → get arr t ≤ key) →
    (∀ t, hi ≤ t → t < i → key < get arr t) →
    left ≤ binarySearch arr key left hi ∧ binarySearch arr key left hi ≤ hi ∧
    (∀ t, t < binarySearch arr key left hi → get arr t ≤ key) ∧
    (∀ t, binarySearch arr key left hi ≤ t → t < i → key < get arr t) := by
  intro m
  induction m using Nat.strong_induction_on with
  | _ m ih =>
    intro left hi hm hle hhi h1 h2
    rw [binarySearch]
    by_cases h : left < hi
    · rw [dif_pos h]
      simp only
      generalize hmid : left + (hi - 1 - left) / 2 = mid
      have hm1 : left ≤ mid := by omega
      have hm2 : mid < hi := by omega
      by_cases hgt : get arr mid > key
      · rw [if_pos hgt]
        obtain ⟨r1, r2, r3, r4⟩ := ih (mid - left) (by omega) left mid rfl hm1 (by omega) h1
          (fun t ht1 ht2 => by
            by_cases e : t = mid
            · rw [e]; exact hgt
            · have := hs mid t (by omega) ht2
              omega)
        exact ⟨r1, by omega, r3, r4⟩
      · rw [if_neg hgt]
        obtain ⟨r1, r2, r3, r4⟩ := ih (hi - (mid + 1)) (by omega) (mid + 1) hi rfl (by omega)
          hhi
          (fun t ht => by
            by_cases e : t = mid
            · rw [e]; exact not_lt.1 hgt
            · have := hs t mid (by omega) (by omega)
              omega)
          h2
        exact ⟨by omega, r2, r3, r4⟩
    · rw [dif_neg h]
      have e : left = hi := by omega
      exact ⟨le_refl _, hle, h1, fun t ht1 ht2 => h2 t (by omega) ht2⟩

/-- The shifting loop moves `arr[left .. j1 - 1]` one place to the right. -/
theorem shiftRight_spec (left : Nat) : ∀ (j1 : Nat) (arr : List Int), left ≤ j1 →
    j1 < arr.length →
    (shiftRight left j1 arr).length = arr.length ∧
    ∀ t, get (shiftRight left j1 arr) t =
      if left < t ∧ t ≤ j1 then get arr (t - 1) else get arr t := by
  intro j1
  induction j1 with
  | zero =>
    intro arr _ _
    refine ⟨rfl, fun t => ?_⟩
    rw [shiftRight, if_neg (by omega)]
  | succ j ih =>
    intro arr hl hlen
    rw [shiftRight]
    by_cases h : j ≥ left
    · rw [if_pos h]
      obtain ⟨r1, r2⟩ := ih (arr.set (j + 1) (get arr j)) h (by simp; omega)
      refine ⟨by simpa using r1, fun t => ?_⟩
      rw [r2, get_set, get_set]
      have c1 : t = j + 1 → get arr (t - 1) = get arr j := fun e => by rw [e]; rfl
      split_ifs <;> omega
    · rw [if_neg h]
      refine ⟨rfl, fun t => ?_⟩
      rw [if_neg (by omega)]

/-- On a sorted prefix the binary search and the linear scan choose the same slot,
and the two iterations leave the same vector. -/
theorem binaryInsertStep_eq (arr : List Int) (i : Nat) (hi : i < arr.length)
    (hs : ∀ a b, a < b → b < i → get arr a ≤ get arr b) :
    binarySearch arr (get arr i) 0 i = (insertShift (get arr i) i arr).2 ∧
    binaryInsertStep arr i = insertStep arr i := by
  obtain ⟨b1, b2, b3, b4⟩ := binarySearch_spec arr (get arr i) i hs (i - 0) 0 i rfl
    (Nat.zero_le _) (le_refl _) (fun t ht => by omega) (fun t h1 h2 => by omega)
  obtain ⟨r1, r2, r3, r4, r5, r6, r7⟩ := insertShift_spec arr i (get arr i) hi i arr (le_refl _)
    rfl (fun _ _ => rfl) (fun j h1 h2 => by omega) (fun _ _ => rfl)
    (by rw [set_get_self])
  have hslot : binarySearch arr (get arr i) 0 i = (insertShift (get arr i) i arr).2 := by
    generalize binarySearch arr (get arr i) 0 i = s2 at b1 b2 b3 b4
    generalize (insertShift (get arr i) i arr).2 = s1 at r1 r3 r4 r6
    generalize (insertShift (get arr i) i arr).1 = a1 at r2 r3 r4 r5
    rcases Nat.lt_trichotomy s2 s1 with h | h | h
    · exfalso
      have k1 := b4 (s1 - 1) (by omega) (by omega)
      rcases r6 with e | e
      · omega
      · omega
    · exact h
    · exfalso
      have k1 := b3 s1 h
      have k2 := r4 (s1 + 1) (by omega) (by omega)
      rw [k2.1] at k2
      simp only [Nat.add_sub_cancel] at k2
      omega
  refine ⟨hslot, ?_⟩
  unfold binaryInsertStep insertStep
  simp only
  rw [hslot]
  generalize (insertShift (get arr i) i arr).2 = s at r1 r3 r4 r6
  generalize (insertShift (get arr i) i arr).1 = a1 at r2 r3 r4 r5
  obtain ⟨q1, q2⟩ := shiftRight_spec s i arr r1 hi
  apply ext_get
  · simp [q1, r2]
  · intro t _
    rw [get_set, get_set, q1, r2, q2]
    by_cases e1 : s = t
    · have p1 : s = t ∧ s < arr.length := ⟨e1, by omega⟩
      rw [if_pos p1, if_pos p1]
    · have n1 : ¬ (s = t ∧ s < arr.length) := fun hh => e1 hh.1
      rw [if_neg n1, if_neg n1]
      by_cases e2 : s < t ∧ t ≤ i
      · rw [if_pos e2, (r4 t e2.1 e2.2).1]
      · rw [if_neg e2]
        by_cases e3 : t < s
        · rw [r3 t e3]
        · rw [r5 t (by omega)]

theorem binaryInsertionSortUpTo_eq (arr : List Int) : ∀ m, m < arr.length →
    binaryInsertionSortUpTo arr m = insertionSortUpTo arr m := by
  intro m
  induction m with
  | zero => intro _; rfl
  | succ m ih =>
    intro hm
    obtain ⟨i1, _, _, i4⟩ := insertionSortUpTo_spec arr m (by omega)
    rw [binaryInsertionSortUpTo, insertionSortUpTo, ih (by omega)]
    exact (binaryInsertStep_eq (insertionSortUpTo arr m) (m + 1) (by omega) i4).2

theorem binaryInsertionSort_eq (arr : List Int) :
    binaryInsertionSort arr = insertionSort arr := by
  unfold binaryInsertionSort insertionSort
  by_cases h : arr.length = 0
  · rw [h]; rfl
  · exact binaryInsertionSortUpTo_eq arr _ (by omega)

theorem binaryInsertionSort_spec (arr : List Int) :
    List.Sorted (· ≤ ·) (binaryInsertionSort arr) ∧ (binaryInsertionSort arr).Perm arr := by
  rw [binaryInsertionSort_eq arr]
  unfold insertionSort
  by_cases h : arr.length = 0
  · have : arr = [] := List.length_eq_zero.1 h
    subst this
    exact ⟨by simp [insertionSortUpTo], List.Perm.refl _⟩
  · obtain ⟨i1, i2, _, i4⟩ := insertionSortUpTo_spec arr (arr.length - 1) (by omega)
    refine ⟨?_, i2⟩
    apply sorted_of_get
    intro a b hab hb
    rw [i1] at hb
    exact i4 a b hab (by omega)

/-- The binary insertion sort on its demonstration vector of the program. -/
theorem binaryInsertionSort_demo :
    binaryInsertionSort [64, 34, 25, 12, 22, 11, 90] = [11, 12, 22, 25, 34, 64, 90] := by
  have h := binaryInsertionSort_spec [64, 34, 25, 12, 22, 11, 90]
  exact List.eq_of_perm_of_sorted (h.2.trans (by decide)) h.1 (by simp [List.Sorted])

/-! ## One digit pass of radix sort: stable -/

/-- Grouping by key keeps, for every key, the elements with that key exactly as they
follow each other in the input. -/
theorem groupByKey_filter (kN : Int → Nat) (arr : List Int) (d : Nat) :
    ∀ K, d < K →
      (groupByKey kN K arr).filter (fun x => decide (kN x = d))
        = arr.filter (fun x => decide (kN x = d)) := by
  intro K
  induction K with
  | zero => intro h; omega
  | succ K ih =>
    intro hd
    rw [groupByKey_succ, List.filter_append, List.filter_filter]
    by_cases e : d = K
    · subst e
      have h1 : (groupByKey kN d arr).filter (fun x => decide (kN x = d)) = [] := by
        rw [List.filter_eq_nil_iff]
        intro x hx
        have := (mem_groupByKey kN d arr x hx).2
        simp only [decide_eq_true_eq]
        omega
      rw [h1, List.nil_append]
      congr 1
      funext x
      simp
    · have h2 : arr.filter (fun x => decide (kN x = d) && decide (kN x = K)) = [] := by
        rw [List.filter_eq_nil_iff]
        intro x _
        simp only [Bool.and_eq_true, decide_eq_true_eq, not_and]
        intro h1 h2
        omega
      rw [h2, List.append_nil]
      exact ih (by omega)

/-- The two digit passes of the witness, evaluated: equal digits keep their order
(`802` before `2`, `170` before `75`). -/
theorem countingSortByDigit_demo :
    countingSortByDigit [170, 45, 75, 90, 802, 24, 2, 66] 1
      = .ok [170, 90, 802, 2, 24, 45, 75, 66] ∧
    countingSortByDigit [170, 90, 802, 2, 24, 45, 75, 66] 10
      = .ok [802, 2, 24, 45, 66, 170, 75, 90] := by
  exact ⟨by rfl, by rfl⟩

/-! ## Hoare partitioning: every access stays in `[low, high]` -/

theorem swapAt_ok (arr : List Int) (i j : Nat) (hi : i < arr.length) (hj : j < arr.length) :
    Checked.swapAt arr (i : Int) (j : Int) = .ok (swap arr i j) := by
  unfold Checked.swapAt
  rw [tableGet_ok arr i hi, tableGet_ok arr j hj]
  simp only [bind, Except.bind]
  rw [tableSet_ok arr i _ hi]
  simp only
  rw [tableSet_ok _ j _ (by simpa using hj)]
  rfl

/-- A range-watched upward scan that succeeds stops inside its range, and the
bounds-checked scan reads the same indices, all between the start and the stop. -/
theorem hoareScanUp_log (arr : List Int) (pivot : Int) : ∀ (room c : Nat) (log : List Int)
    (i : Nat), hoareScanUp arr pivot room c = .ok i → c + room ≤ arr.length →
    c ≤ i ∧ i < c + room ∧
    ∃ log2, Checked.hoareScanUp arr pivot (c : Int) log = .ok ((i : Int), log2) ∧
      ∀ x ∈ log2, x ∈ log ∨ ((c : Int) ≤ x ∧ x ≤ (i : Int)) := by
  intro room
  induction room with
  | zero =>
    intro c log i h _
    simp [hoareScanUp] at h
  | succ room ih =>
    intro c log i h hlen
    rw [hoareScanUp] at h
    have hin : (0 : Int) ≤ (c : Int) ∧ (c : Int) < (arr.length : Int) := ⟨by omega, by omega⟩
    rw [Checked.hoareScanUp, dif_pos hin, Int.toNat_ofNat]
    by_cases hlt : get arr c < pivot
    · rw [if_pos hlt] at h
      rw [if_pos hlt]
      obtain ⟨r1, r2, log2, r3, r4⟩ := ih (c + 1) (log ++ [(c : Int)]) i h (by omega)
      refine ⟨by omega, by omega, log2, ?_, ?_⟩
      · rw [← r3]
        norm_cast
      · intro x hx
        rcases r4 x hx with h1 | h1
        · rcases List.mem_append.1 h1 with h2 | h2
          · exact Or.inl h2
          · right
            simp only [List.mem_singleton] at h2
            omega
        · right
          push_cast at h1
          omega
    · rw [if_neg hlt] at h
      rw [if_neg hlt]
      have e : c = i := by
        injection h
      subst e
      refine ⟨le_refl _, by omega, _, rfl, ?_⟩
      intro x hx
      rcases List.mem_append.1 hx with h2 | h2
      · exact Or.inl h2
      · right
        simp only [List.mem_singleton] at h2
        omega

/-- The same for the downward scan: it stops at or above `low`. -/
theorem hoareScanDown_log (arr : List Int) (pivot : Int) (low : Nat) :
    ∀ (j : Nat) (log : List Int) (j2 : Nat), hoareScanDown arr pivot low j = .ok j2 →
    j ≤ arr.length →
    low ≤ j2 ∧ j2 < j ∧
    ∃ log2, Checked.hoareScanDown arr pivot ((j : Int) - 1) log = .ok ((j2 : Int), log2) ∧
      ∀ x ∈ log2, x ∈ log ∨ ((j2 : Int) ≤ x ∧ x < (j : Int)) := by
  intro j
  induction j with
  | zero =>
    intro log j2 h _
    simp [hoareScanDown] at h
  | succ j ih =>
    intro log j2 h hlen
    rw [hoareScanDown] at h
    by_cases hlow : j < low
    · rw [if_pos hlow] at h
      simp at h
    · rw [if_neg hlow] at h
      have e0 : ((j + 1 : Nat) : Int) - 1 = (j : Int) := by push_cast; omega
      have hin : (0 : Int) ≤ (j : Int) ∧ (j : Int) < (arr.length : Int) := ⟨by omega, by omega⟩
      rw [e0, Checked.hoareScanDown, dif_pos hin, Int.toNat_ofNat]
      by_cases hgt : get arr j > pivot
      · rw [if_pos hgt] at h
        rw [if_pos hgt]
        obtain ⟨r1, r2, log2, r3, r4⟩ := ih (log ++ [(j : Int)]) j2 h (by omega)
        refine ⟨r1, by omega, log2, r3, ?_⟩
        intro x hx
        rcases r4 x hx with h1 | h1
        · rcases List.mem_append.1 h1 with h2 | h2
          · exact Or.inl h2
          · right
            simp only [List.mem_singleton] at h2
            omega
        · right
          omega
      · rw [if_neg hgt] at h
        rw [if_neg hgt]
        have e : j = j2 := by
          injection h
        subst e
        refine ⟨by omega, by omega, _, rfl, ?_⟩
        intro x hx
        rcases List.mem_append.1 hx with h2 | h2
        · exact Or.inl h2
        · right
          simp only [List.mem_singleton] at h2
          omega

/-- A successful range-watched run of the loop is matched step by step by the
bounds-checked run, whose log gains only indices of `[low, high]`. -/
theorem hoareLoop_log (pivot : Int) (low high : Nat) :
    ∀ (fuel : Nat) (arr : List Int) (c j : Nat) (log out : List Int) (p : Nat),
    hoareLoop pivot low high fuel arr c j = .ok (out, p) →
    high < arr.length → low ≤ c → j ≤ high + 1 →
    ∃ log2, Checked.hoareLoop pivot fuel arr ((c : Int) - 1) (j : Int) log
        = .ok (out, (p : Int), log2) ∧
      ∀ x ∈ log2, x ∈ log ∨ ((low : Int) ≤ x ∧ x ≤ (high : Int)) := by
  intro fuel
  induction fuel with
  | zero =>
    intro arr c j log out p h
    simp [hoareLoop] at h
  | succ fuel ih =>
    intro arr c j log out p h hlen hc hj
    rw [hoareLoop] at h
    by_cases hroom : c ≤ high
    · cases h1 : hoareScanUp arr pivot (high + 1 - c) c with
      | error e => rw [h1] at h; simp at h
      | ok i =>
        rw [h1] at h
        simp only at h
        obtain ⟨u1, u2, logU, u3, u4⟩ := hoareScanUp_log arr pivot (high + 1 - c) c log i h1
          (by omega)
        cases h2 : hoareScanDown arr pivot low j with
        | error e => rw [h2] at h; simp at h
        | ok j2 =>
          rw [h2] at h
          simp only at h
          obtain ⟨d1, d2, logD, d3, d4⟩ := hoareScanDown_log arr pivot low j logU j2 h2
            (by omega)
          have e0 : (c : Int) - 1 + 1 = (c : Int) := by omega
          rw [Checked.hoareLoop, e0, u3]
          simp only [bind, Except.bind]
          rw [d3]
          simp only
          have inD : ∀ x ∈ logD, x ∈ log ∨ ((low : Int) ≤ x ∧ x ≤ (high : Int)) := by
            intro x hx
            rcases d4 x hx with k1 | k1
            · rcases u4 x k1 with k2 | k2
              · exact Or.inl k2
              · right; omega
            · right; omega
          by_cases hge : i ≥ j2
          · rw [if_pos hge] at h
            have hge2 : (i : Int) ≥ (j2 : Int) := by omega
            rw [if_pos hge2]
            injection h with h
            injection h with ha hp
            subst ha; subst hp
            exact ⟨logD, rfl, inD⟩
          · rw [if_neg hge] at h
            have hge2 : ¬ (i : Int) ≥ (j2 : Int) := by omega
            rw [if_neg hge2, swapAt_ok arr i j2 (by omega) (by omega)]
            simp only
            obtain ⟨log3, r1, r2⟩ := ih (swap arr i j2) (i + 1) j2
              (logD ++ [(i : Int), (j2 : Int)]) out p h
              (by rw [length_swap]; exact hlen) (by omega) (by omega)
            have e1 : ((i + 1 : Nat) : Int) - 1 = (i : Int) := by push_cast; omega
            rw [e1] at r1
            refine ⟨log3, r1, ?_⟩
            intro x hx
            rcases r2 x hx with k1 | k1
            · rcases List.mem_append.1 k1 with k2 | k2
              · exact inD x k2
              · right
                simp only [List.mem_cons, List.mem_singleton, List.not_mem_nil, or_false] at k2
                omega
            · exact Or.inr k1
    · have e : high + 1 - c = 0 := by omega
      rw [e] at h
      simp [hoareScanUp] at h

/-- The run of the witness, evaluated: the pivot read at `1`, the two scans stopping
at `1` and `4`, the swap of `1` and `4`, the scans stopping at `3` and `2`. -/
theorem partitionHoare_log_demo :
    Checked.partitionHoare 3 [3, 8, 1, 9, 5, 7] 1 4
      = .ok ([3, 5, 1, 9, 8, 7], 2, [1, 1, 4, 1, 4, 2, 3, 3, 2]) := by
  simp [Checked.partitionHoare, Checked.hoareLoop, Checked.hoareScanUp, Checked.hoareScanDown,
    Checked.swapAt, tableGet, tableSet, get, bind, Except.bind, pure, Except.pure]

end Sorting
